import Mathlib

/-!
# Forest-fire cellular automaton (`src/forest-fire-simulation.js`)

A shallow embedding of the script: the seeded generator, the grid, the
growth/ignition stepper, the two fire propagation modes, the statistics
table, the logarithmic binning, the handlers of the page controls, the
rendering of the grid and the main loop.

Conventions of the embedding.
* JavaScript numbers that are integers in every run are `Int` or `Nat`;
  probabilities, the uniform draws and the binning arithmetic are exact
  rationals (`ℚ`). A draw `t / 2^32` and the products `1.5^k` for the sizes a
  256 x 256 grid can record are exact in double precision as well. The two
  quotients of a binned point are not: `performLogBinning` keeps them exact
  and `performLogBinningDouble` rounds them to double precision.
* 32-bit words of the generator are naturals below `2^32` (the unsigned view
  of an int32), every operation reduced `% 2^32`.
* The global variables are the fields of `State`; each function maps a state
  to the next one. `GRID_SIZE` is a parameter `n` of the functions that use
  it; the constant of the source is `GRID_SIZE = 256`.
* A `while` loop is a recursion on a fuel argument and returns `none` when
  the fuel is used up before the loop condition fails.
-/

namespace ForestFire

/-! ## Section 1: constants and global state -/

/-- Side of the grid in the source (`const GRID_SIZE = 256`). -/
def GRID_SIZE : Nat := 256

/-- Value `STATES.VACANT`. -/
def STATES.VACANT : Int := 0

/-- Value `STATES.TREE`. -/
def STATES.TREE : Int := 1

/-- Value `STATES.BURNING`. -/
def STATES.BURNING : Int := 2

/-- Number of wavefront expansions per animated call. -/
def FIRE_ANIMATION_SPEED : Nat := 1

/-- Largest (last) value of the decay countdown. -/
def RECENTLY_BURNED_STATE : Int := -1

/-- Length of the decay countdown in frames. -/
def BURN_DECAY_FRAMES : Int := 15

/-- A coordinate object `{x: .., y: ..}` of the fire queues. -/
structure Cell where
  x : Int
  y : Int
  deriving DecidableEq, Repr

/-- The grid `grid[y][x]`: a list of rows. -/
abbrev Grid := List (List Int)

/-- Read `grid[y][x]`; `none` stands for `undefined` (an index outside the
arrays). Every unguarded read of the source uses in-range indices. -/
def cellAt (grid : Grid) (x y : Int) : Option Int :=
  if 0 ≤ x ∧ 0 ≤ y then
    match grid[y.toNat]? with
    | some row => row[x.toNat]?
    | none => none
  else none

/-- Write `grid[y][x] = v`. An index outside the arrays leaves the grid as it
is; every write of the source uses in-range indices. -/
def setCell (grid : Grid) (x y : Int) (v : Int) : Grid :=
  if 0 ≤ x ∧ 0 ≤ y then
    match grid[y.toNat]? with
    | some row => grid.set y.toNat (row.set x.toNat v)
    | none => grid
  else grid

/-- The four 32-bit words `a, b, c, d` captured by the generator closure. -/
structure RngState where
  a : Nat
  b : Nat
  c : Nat
  d : Nat
  deriving DecidableEq, Repr

/-- A plotted point `{x: .., y: ..}`. -/
structure Point where
  x : ℚ
  y : ℚ
  deriving DecidableEq

/-- The statistics table `fireStats` (a JavaScript `Map` from size to count):
an association list in insertion order. -/
abbrev FireStats := List (Nat × Nat)

/-- The global variables of the script. `plotData` is
`logLogChart.data.datasets[0].data`. After `fireQueue = nextFireQueue` the two
names share one array in the source; `nextFireQueue` is assigned a fresh `[]`
before each of its uses, so the sharing is never observed and the field only
matters within one expansion. -/
structure State where
  grid : Grid
  isSimulating : Bool
  isFireActive : Bool
  probabilityP : ℚ
  f_s : ℚ
  stepsPerFrame : Nat
  seed : List Nat
  animateFires : Bool
  N_s : Nat
  treeCount : Int
  fireQueue : List Cell
  nextFireQueue : List Cell
  currentFireSize : Nat
  fireStats : FireStats
  totalFires : Nat
  rng : RngState
  plotData : List Point

/-- The values read from the page controls by `initializeSimulation`: the two
sliders, the speed slider, the seed box (as UTF-16 code units) and the
animation toggle. -/
structure Controls where
  pSlider : ℚ
  fSlider : ℚ
  speedSlider : Nat
  seedBox : List Nat
  animateToggle : Bool

/-! ## Section 2: pseudo-random number generator -/

/-- Modulus of 32-bit arithmetic, `2^32 = 4294967296`. -/
def U32 : Nat := 4294967296

/-- The 32-bit product `Math.imul`. -/
def imul (a b : Nat) : Nat := (a * b) % U32

/-- One round of the loop of `cyrb128` for the code unit `k`. -/
def cyrb128Round (h : Nat × Nat × Nat × Nat) (k : Nat) : Nat × Nat × Nat × Nat :=
  let (h1, h2, h3, h4) := h
  let h1 := h2 ^^^ imul (h1 ^^^ k) 597399067
  let h2 := h3 ^^^ imul (h2 ^^^ k) 2869860233
  let h3 := h4 ^^^ imul (h3 ^^^ k) 951274213
  let h4 := h1 ^^^ imul (h4 ^^^ k) 2716044179
  (h1, h2, h3, h4)

/-- The seed hash `cyrb128(str)`: four 32-bit words. -/
def cyrb128 (str : List Nat) : RngState :=
  let (h1, h2, h3, h4) :=
    str.foldl cyrb128Round (1779033703, 3144134277, 1013904242, 2773480762)
  let h1 := imul (h3 ^^^ (h1 >>> 18)) 597399067
  let h2 := imul (h4 ^^^ (h2 >>> 22)) 2869860233
  let h3 := imul (h1 ^^^ (h3 >>> 17)) 951274213
  let h4 := imul (h2 ^^^ (h4 >>> 19)) 2716044179
  { a := (h1 ^^^ h2 ^^^ h3 ^^^ h4) % U32, b := (h2 ^^^ h1) % U32,
    c := (h3 ^^^ h1) % U32, d := (h4 ^^^ h1) % U32 }

/-- The generator state built by `seedableRNG(seedStr)`. -/
def seedableRNG (seedStr : List Nat) : RngState := cyrb128 seedStr

/-- One call of the closure returned by `seedableRNG`: the draw
`(t >>> 0) / 4294967296` and the next words. -/
def rngNext (r : RngState) : ℚ × RngState :=
  let a := r.a % U32
  let b := r.b % U32
  let c := r.c % U32
  let d := r.d % U32
  let t := (a + b + d) % U32
  let d := (d + 1) % U32
  let a := b ^^^ (b >>> 9)
  let b := (c + (c <<< 3) % U32) % U32
  let c := ((c <<< 21) % U32) ||| (c >>> 11)
  let c := (c + t) % U32
  ((t : ℚ) / 4294967296, { a := a, b := b, c := c, d := d })

/-- The global call `rng()`: returns the draw and the state with the generator
advanced. -/
def rng (s : State) : ℚ × State :=
  let (r, g) := rngNext s.rng
  (r, { s with rng := g })

/-- The draw `getRandomInt(max) = Math.floor(rng() * max)`. -/
def getRandomInt (max : Nat) (s : State) : Int × State :=
  let (r, s1) := rng s
  (Int.floor (r * (max : ℚ)), s1)

/-! ## Section 4: initialisation -/

/-- The grid `Array(GRID_SIZE).fill(null).map(() => Array(GRID_SIZE).fill(VACANT))`. -/
def emptyGrid (n : Nat) : Grid := List.replicate n (List.replicate n STATES.VACANT)

/-- The function `initializeSimulation`, reading the page controls `ui`; the
previous state only supplies `isSimulating`, which the function leaves alone.
On the all-vacant grid `drawGrid` draws nothing from the generator. -/
def initializeSimulation (n : Nat) (ui : Controls) (s : State) : State :=
  let probabilityP := ui.pSlider
  let max_f := probabilityP / 10
  let fSliderValue := if ui.fSlider > max_f then max_f else ui.fSlider
  { grid := emptyGrid n
    isSimulating := s.isSimulating
    isFireActive := false
    probabilityP := probabilityP
    f_s := fSliderValue
    stepsPerFrame := ui.speedSlider
    seed := ui.seedBox
    animateFires := ui.animateToggle
    N_s := 0
    treeCount := 0
    fireQueue := []
    nextFireQueue := []
    currentFireSize := 0
    fireStats := []
    totalFires := 0
    rng := seedableRNG ui.seedBox
    plotData := [] }

/-! ## Section 6 (first part): recording a fire -/

/-- The lookup `fireStats.get(k)`; `none` is `undefined`. -/
def mapGet (m : FireStats) (k : Nat) : Option Nat := m.lookup k

/-- The update `fireStats.set(k, v)`: an existing key keeps its place, a new
key goes to the end. -/
def mapSet : FireStats → Nat → Nat → FireStats
  | [], k, v => [(k, v)]
  | (k', v') :: rest, k, v =>
    if k' = k then (k', v) :: rest else (k', v') :: mapSet rest k v

/-- The keys `Array.from(fireStats.keys())`. -/
def mapKeys (m : FireStats) : List Nat := m.map Prod.fst

/-- The function `recordFireStatistics`. -/
def recordFireStatistics (s : State) : State :=
  if s.currentFireSize = 0 then s
  else
    let currentCount := (mapGet s.fireStats s.currentFireSize).getD 0
    { s with
      fireStats := mapSet s.fireStats s.currentFireSize (currentCount + 1)
      totalFires := s.totalFires + 1 }

/-! ## Section 5: core simulation logic -/

/-- The function `startFire(x, y)`. -/
def startFire (s : State) (x y : Int) : State :=
  { s with
    isFireActive := true
    grid := setCell s.grid x y STATES.BURNING
    treeCount := s.treeCount - 1
    currentFireSize := 1
    fireQueue := s.fireQueue ++ [{ x := x, y := y }] }

/-- The growth attempt of one elementary step: two coordinate draws, then a
uniform draw only when the cell is vacant (`&&` short-circuits). -/
def growthAttempt (n : Nat) (s : State) : State :=
  let (x_g, s1) := getRandomInt n s
  let (y_g, s2) := getRandomInt n s1
  if cellAt s2.grid x_g y_g = some STATES.VACANT then
    let (r, s3) := rng s2
    if r < s3.probabilityP then
      { s3 with grid := setCell s3.grid x_g y_g STATES.TREE, treeCount := s3.treeCount + 1 }
    else s3
  else s2

/-- The ignition attempt of one elementary step: the state after it and
whether `startFire` was called (the `return` of the batch). -/
def ignitionAttempt (n : Nat) (s : State) : State × Bool :=
  let (x_f, s1) := getRandomInt n s
  let (y_f, s2) := getRandomInt n s1
  if cellAt s2.grid x_f y_f = some STATES.TREE then
    let (r, s3) := rng s2
    if r < s3.f_s then (startFire s3 x_f y_f, true) else (s3, false)
  else (s2, false)

/-- The loop of `runSimulationSteps` with `k` iterations left. -/
def runSimulationStepsLoop (n : Nat) : Nat → State → State
  | 0, s => s
  | k + 1, s =>
    let s1 := growthAttempt n s
    let (s2, ignited) := ignitionAttempt n s1
    if ignited then s2
    else runSimulationStepsLoop n k { s2 with N_s := s2.N_s + 1 }

/-- The function `runSimulationSteps`. -/
def runSimulationSteps (n : Nat) (s : State) : State :=
  runSimulationStepsLoop n s.stepsPerFrame s

/-- The body of the two innermost loops of propagation for one offset
`(dx, dy)` of the frontier cell `cell`. -/
def igniteNeighbour (n : Nat) (cell : Cell) (dy : Int) (s : State) (dx : Int) : State :=
  if dx = 0 ∧ dy = 0 then s
  else
    let nx := cell.x + dx
    let ny := cell.y + dy
    if nx ≥ 0 ∧ nx < (n : Int) ∧ ny ≥ 0 ∧ ny < (n : Int) ∧
        cellAt s.grid nx ny = some STATES.TREE then
      { s with
        grid := setCell s.grid nx ny STATES.BURNING
        treeCount := s.treeCount - 1
        currentFireSize := s.currentFireSize + 1
        nextFireQueue := s.nextFireQueue ++ [{ x := nx, y := ny }] }
    else s

/-- The offsets `-1, 0, 1` run through by `dy` and by `dx`. -/
def offsets : List Int := [-1, 0, 1]

/-- The body of `for (const cell of fireQueue)`: the eight neighbours in
row-major order, then the cell is given the first decay value. -/
def burnCell (n : Nat) (s : State) (cell : Cell) : State :=
  let s1 := offsets.foldl
    (fun s dy => offsets.foldl (igniteNeighbour n cell dy) s) s
  { s1 with
    grid := setCell s1.grid cell.x cell.y (RECENTLY_BURNED_STATE - BURN_DECAY_FRAMES + 1) }

/-- The function `endFire`. -/
def endFire (s : State) : State :=
  let s1 := recordFireStatistics { s with isFireActive := false }
  { s1 with currentFireSize := 0 }

/-- One wavefront expansion: the body shared, word for word, by the loop of
`runFireStepAnimated` (lines 296-316) and of `runFireInstantly` (322-342). -/
def fireExpansion (n : Nat) (s : State) : State :=
  let s1 := s.fireQueue.foldl (burnCell n) { s with nextFireQueue := [] }
  let s2 := { s1 with fireQueue := s1.nextFireQueue }
  if s2.fireQueue.length = 0 then endFire s2 else s2

/-- The loop of `runFireStepAnimated` with `k` iterations left
(`i < FIRE_ANIMATION_SPEED && isFireActive`). -/
def runFireStepAnimatedLoop (n : Nat) : Nat → State → State
  | 0, s => s
  | k + 1, s =>
    if s.isFireActive then runFireStepAnimatedLoop n k (fireExpansion n s) else s

/-- The function `runFireStepAnimated`. -/
def runFireStepAnimated (n : Nat) (s : State) : State :=
  runFireStepAnimatedLoop n FIRE_ANIMATION_SPEED s

/-- The function `runFireInstantly`: `while (isFireActive)` with `fuel`
evaluations of the loop condition allowed. -/
def runFireInstantly (n : Nat) : Nat → State → Option State
  | 0, _ => none
  | fuel + 1, s =>
    if s.isFireActive then runFireInstantly n fuel (fireExpansion n s) else some s

/-! ## Section 6 (second part): logarithmic binning -/

/-- The rounding `Math.round`: to the nearest integer, halves upward. -/
def mathRound (q : ℚ) : Int := Int.floor (q + 1 / 2)

/-- The loop `while (currentEdge <= maxFire)` of `performLogBinning`: returns
the final `currentEdge` and `binEdges`. -/
def binEdgesLoop (binBase : ℚ) (maxFire : Nat) : Nat → ℚ → List Int → Option (ℚ × List Int)
  | 0, _, _ => none
  | fuel + 1, currentEdge, binEdges =>
    if currentEdge ≤ (maxFire : ℚ) then
      binEdgesLoop binBase maxFire fuel (currentEdge * binBase)
        (binEdges ++ [mathRound (currentEdge * binBase)])
    else some (currentEdge, binEdges)

/-- The loop `while (k < sortedSizes.length && sortedSizes[k] < binMax)`:
`sizes` is `sortedSizes` from index `k` on, the pair is
`(totalCount, weightedSizeSum)`. -/
def accumulateBin (fireStats : FireStats) (binMax : Int) : List Nat → Nat × Nat → Nat × Nat
  | [], acc => acc
  | size :: rest, acc =>
    if (size : Int) < binMax then
      let count := (mapGet fireStats size).getD 0
      accumulateBin fireStats binMax rest (acc.1 + count, acc.2 + size * count)
    else acc

/-- The loop over the bins `for (let i = 0; i < binEdges.length - 1; i++)`:
`edges` is `binEdges` from index `i` on, `sizes` is `sortedSizes` from index
`dataIndex` on, `binnedData` the points pushed so far. The two quotients of a
point are the exact rationals here; `binLoopDouble` is the same loop with each
quotient rounded to double precision, as the script computes it. -/
def binLoop (fireStats : FireStats) : List Int → List Nat → List Point → List Point
  | binMin :: binMax :: edges, sizes, binnedData =>
    if binMin ≥ binMax then binLoop fireStats (binMax :: edges) sizes binnedData
    else
      let binWidth := binMax - binMin
      let sizes1 : List Nat := sizes.dropWhile (fun (size : Nat) => decide ((size : Int) < binMin))
      let (totalCount, weightedSizeSum) := accumulateBin fireStats binMax sizes1 (0, 0)
      if totalCount > 0 then
        binLoop fireStats (binMax :: edges) sizes1
          (binnedData ++ [{ x := (weightedSizeSum : ℚ) / (totalCount : ℚ),
                            y := (totalCount : ℚ) / (binWidth : ℚ) }])
      else binLoop fireStats (binMax :: edges) sizes1 binnedData
  | _, _, binnedData => binnedData

/-- The bin edges built by `performLogBinning` before the loop over the bins;
`none` when there is no recorded size. -/
def binEdgesOf (fuel : Nat) (fireStats : FireStats) (binBase : ℚ) : Option (List Int) :=
  let sortedSizes := (mapKeys fireStats).insertionSort (fun a b => a ≤ b)
  match sortedSizes.getLast? with
  | none => none
  | some maxFire =>
    match binEdgesLoop binBase maxFire fuel 1 [1] with
    | none => none
    | some (currentEdge, binEdges) => some (binEdges ++ [mathRound (currentEdge * binBase)])

/-- The function `performLogBinning(fireStats, binBase)`; `none` when the
edge loop does not end within `fuel` checks of its condition. -/
def performLogBinning (fuel : Nat) (fireStats : FireStats) (binBase : ℚ) :
    Option (List Point) :=
  if fireStats.length = 0 then some []
  else
    let sortedSizes := (mapKeys fireStats).insertionSort (fun a b => a ≤ b)
    match sortedSizes.getLast? with
    | none => some []
    | some maxFire =>
      match binEdgesLoop binBase maxFire fuel 1 [1] with
      | none => none
      | some (currentEdge, binEdges) =>
        let binEdges := binEdges ++ [mathRound (currentEdge * binBase)]
        some (binLoop fireStats binEdges sortedSizes [])

/-- The function `updatePlots`: below two recorded fires it returns at once. -/
def updatePlots (fuel : Nat) (s : State) : Option State :=
  if s.totalFires < 2 then some s
  else
    match performLogBinning fuel s.fireStats (3 / 2) with
    | none => none
    | some binnedLogData => some { s with plotData := binnedLogData }

/-! ## Section 7 (part): decay of burned cells -/

/-- The body of the loops of `decayRecentlyBurned` at `(x, y)`. -/
def decayCell (y : Int) (grid : Grid) (x : Int) : Grid :=
  match cellAt grid x y with
  | some v =>
    if v ≤ RECENTLY_BURNED_STATE then
      let g1 := setCell grid x y (v + 1)
      if v + 1 > RECENTLY_BURNED_STATE then setCell g1 x y STATES.VACANT else g1
    else grid
  | none => grid

/-- The function `decayRecentlyBurned`. -/
def decayRecentlyBurned (n : Nat) (s : State) : State :=
  { s with
    grid := (List.range n).foldl
      (fun (g : Grid) (y : Nat) =>
        (List.range n).foldl (fun (g : Grid) (x : Nat) => decayCell (y : Int) g (x : Int)) g)
      s.grid }

/-! ## Specification vocabulary -/

/-- Re-scan of the grid: the number of cells holding `STATES.TREE`. -/
def countTrees (grid : Grid) : Nat := (grid.map (fun row => row.count STATES.TREE)).sum

/-- A grid of `n` rows of `n` cells. -/
def WellFormed (n : Nat) (grid : Grid) : Prop :=
  grid.length = n ∧ ∀ row ∈ grid, row.length = n

/-- The cell is one of the eight Moore neighbours of the other: the offsets
are at most one in each direction and not both zero. -/
def MooreAdj (c q : Cell) : Prop :=
  (q.x - c.x = -1 ∨ q.x - c.x = 0 ∨ q.x - c.x = 1) ∧
  (q.y - c.y = -1 ∨ q.y - c.y = 0 ∨ q.y - c.y = 1) ∧
  ¬ (q.x - c.x = 0 ∧ q.y - c.y = 0)

/-- Membership of the 8-connected component of Tree cells of the grid `G` that
contains `start`: the cells reached from `start` through Moore-adjacent Tree cells. -/
inductive InComponent (G : Grid) (start : Cell) : Cell → Prop
  | base : cellAt G start.x start.y = some STATES.TREE → InComponent G start start
  | step {c q : Cell} : InComponent G start c → MooreAdj c q →
      cellAt G q.x q.y = some STATES.TREE → InComponent G start q

/-- No cell that is not a Tree in `g` is a Tree in `g2`. -/
def NoNewTree (g g2 : Grid) : Prop :=
  ∀ x y, cellAt g x y ≠ some STATES.TREE → cellAt g2 x y ≠ some STATES.TREE

/-- The bounds test of propagation: `0 <= x < GRID_SIZE` and `0 <= y < GRID_SIZE`. -/
def InBounds (n : Nat) (q : Cell) : Prop :=
  0 ≤ q.x ∧ q.x < (n : Int) ∧ 0 ≤ q.y ∧ q.y < (n : Int)

/-- The effect of the branch of propagation that sets a Tree neighbour
burning: the four assignments of lines 304-307. -/
def ignite (s : State) (q : Cell) : State :=
  { s with
    grid := setCell s.grid q.x q.y STATES.BURNING
    treeCount := s.treeCount - 1
    currentFireSize := s.currentFireSize + 1
    nextFireQueue := s.nextFireQueue ++ [q] }

/-- The effect of line 311: the processed frontier cell gets the first decay value. -/
def burnOut (s : State) (c : Cell) : State :=
  { s with
    grid := setCell s.grid c.x c.y (RECENTLY_BURNED_STATE - BURN_DECAY_FRAMES + 1) }

/-- The states reached from `initializeSimulation` by any sequence of
`runSimulationSteps`, `startFire` on a Tree cell, `runFireStepAnimated`,
`runFireInstantly` (when its loop ends) and `decayRecentlyBurned`. -/
inductive Reachable (n : Nat) : State → Prop
  | init (ui : Controls) (s0 : State) : Reachable n (initializeSimulation n ui s0)
  | steps {s : State} : Reachable n s → Reachable n (runSimulationSteps n s)
  | fire {s : State} (x y : Int) : Reachable n s →
      cellAt s.grid x y = some STATES.TREE → Reachable n (startFire s x y)
  | animated {s : State} : Reachable n s → Reachable n (runFireStepAnimated n s)
  | instantly {s s' : State} (fuel : Nat) : Reachable n s →
      runFireInstantly n fuel s = some s' → Reachable n s'
  | decay {s : State} : Reachable n s → Reachable n (decayRecentlyBurned n s)

/-- The invariant behind the tree counter: the grid is `n` by `n`, the counter
matches a re-scan, and every frontier cell is burning. -/
def TreeInv (n : Nat) (s : State) : Prop :=
  WellFormed n s.grid ∧ s.treeCount = (countTrees s.grid : Int) ∧
    ∀ c ∈ s.fireQueue, cellAt s.grid c.x c.y = some STATES.BURNING

/-- What is known of the grid while a fire that started at `start` on the grid
`G` spreads: `F` is the frontier being processed, `done` the cells already
burnt out, and the new frontier is `t.nextFireQueue`. -/
def ContentInv (G : Grid) (start : Cell) (F done : List Cell) (t : State) : Prop :=
  (∀ c, c ∈ done ∨ c ∈ F ∨ c ∈ t.nextFireQueue → InComponent G start c) ∧
  (∀ c ∈ done, cellAt t.grid c.x c.y = some (-15)) ∧
  (∀ c, c ∈ F ∨ c ∈ t.nextFireQueue → cellAt t.grid c.x c.y ≠ some STATES.TREE) ∧
  (∀ c : Cell, ¬ (c ∈ done ∨ c ∈ F ∨ c ∈ t.nextFireQueue) →
    cellAt t.grid c.x c.y = cellAt G c.x c.y) ∧
  (∀ c ∈ done, ∀ q, MooreAdj c q → cellAt t.grid q.x q.y ≠ some STATES.TREE) ∧
  (start ∈ done ∨ start ∈ F ∨ start ∈ t.nextFireQueue)

/-- The invariant of a spreading fire: the grid stays `n` by `n`, its content
is as `ContentInv` says, the counters move with the number of Trees
(`K1`, `K2` are constants of the fire) and the statistics are untouched. -/
def FireInv (n : Nat) (G : Grid) (start : Cell) (K1 : Int) (K2 : Nat) (fs : FireStats)
    (tf : Nat) (F done : List Cell) (t : State) : Prop :=
  WellFormed n t.grid ∧ ContentInv G start F done t ∧
  t.treeCount - (countTrees t.grid : Int) = K1 ∧
  t.currentFireSize + countTrees t.grid = K2 ∧
  1 ≤ t.currentFireSize ∧ t.fireStats = fs ∧ t.totalFires = tf ∧ t.isFireActive = true

/-- The invariant between two expansions of an active fire. -/
def MidFire (n : Nat) (G : Grid) (start : Cell) (K1 : Int) (K2 : Nat) (fs : FireStats)
    (tf : Nat) (s : State) : Prop :=
  ∃ done, FireInv n G start K1 K2 fs tf s.fireQueue done { s with nextFireQueue := [] }

/-- The state of affairs when the fire has ended. -/
def EndFire (n : Nat) (G : Grid) (start : Cell) (K1 : Int) (K2 : Nat) (fs : FireStats)
    (tf : Nat) (s : State) : Prop :=
  WellFormed n s.grid ∧ s.fireQueue = [] ∧ s.currentFireSize = 0 ∧
  (∃ done, ContentInv G start [] done { s with nextFireQueue := [] }) ∧
  ∃ size : Nat, 1 ≤ size ∧ size + countTrees s.grid = K2 ∧
    s.treeCount - (countTrees s.grid : Int) = K1 ∧
    s.fireStats = mapSet fs size ((mapGet fs size).getD 0 + 1) ∧ s.totalFires = tf + 1

/-- A state whose grid is `grid` and whose tree counter is `trees`, with no
fire active, an empty frontier and an empty statistics table. -/
def quietState (grid : Grid) (trees : Int) : State :=
  { grid := grid
    isSimulating := false
    isFireActive := false
    probabilityP := 1 / 100
    f_s := 1 / 2000
    stepsPerFrame := 1
    seed := []
    animateFires := false
    N_s := 0
    treeCount := trees
    fireQueue := []
    nextFireQueue := []
    currentFireSize := 0
    fireStats := []
    totalFires := 0
    rng := seedableRNG []
    plotData := [] }

/-- The grid of side `n` in which every cell is a Tree. -/
def allTreeGrid (n : Nat) : Grid := List.replicate n (List.replicate n STATES.TREE)

/-- The total of the counts that the table keeps for the sizes of a list. -/
def countSum (t : FireStats) (sizes : List Nat) : Nat :=
  (sizes.map (fun size => (mapGet t size).getD 0)).sum

/-- The total of size times count over the sizes of a list. -/
def weightSum (t : FireStats) (sizes : List Nat) : Nat :=
  (sizes.map (fun size => size * (mapGet t size).getD 0)).sum

/-- The sizes of a list that fall in the bin `[lo, hi)`. -/
def inBin (lo hi : Int) (sizes : List Nat) : List Nat :=
  sizes.filter (fun size => decide (lo ≤ (size : Int) ∧ (size : Int) < hi))

/-! ## Section 3: event listeners -/

/-- The attributes of the ignition slider that the script writes:
`fSlider.max` and `fSlider.value`. -/
structure Page where
  fSliderMax : ℚ
  fSliderValue : ℚ

/-- The slider attributes that `initializeSimulation` leaves behind
(`fSlider.max = max_f` and the clamped `fSlider.value`). -/
def initializePage (ui : Controls) : Page :=
  let max_f := ui.pSlider / 10
  { fSliderMax := max_f
    fSliderValue := if ui.fSlider > max_f then max_f else ui.fSlider }

/-- The handler `pSlider.oninput` with `this.value = value`. -/
def pSliderOnInput (value : ℚ) (sp : State × Page) : State × Page :=
  let probabilityP := value
  let max_f := probabilityP / 10
  if sp.1.f_s > max_f then
    ({ sp.1 with probabilityP := probabilityP, f_s := max_f },
      { fSliderMax := max_f, fSliderValue := max_f })
  else
    ({ sp.1 with probabilityP := probabilityP }, { sp.2 with fSliderMax := max_f })

/-- The handler `fSlider.oninput` with `this.value = value`. -/
def fSliderOnInput (value : ℚ) (sp : State × Page) : State × Page :=
  ({ sp.1 with f_s := value }, { sp.2 with fSliderValue := value })

/-- The handler `speedSlider.oninput` with `parseInt(this.value, 10) = value`. -/
def speedSliderOnInput (value : Nat) (s : State) : State :=
  { s with stepsPerFrame := value }

/-- The handler `animateToggle.onchange` with `this.checked = checked`. -/
def animateToggleOnChange (checked : Bool) (s : State) : State :=
  { s with animateFires := checked }

/-- The handler `startButton.onclick`; the frame it requests is a later call
of `mainLoop`. -/
def startButtonOnClick (s : State) : State :=
  { s with isSimulating := !s.isSimulating }

/-- The handler `resetButton.onclick`, the page controls being `ui`. -/
def resetButtonOnClick (n : Nat) (ui : Controls) (s : State) : State :=
  initializeSimulation n ui (if s.isSimulating then { s with isSimulating := false } else s)

/-! ## Section 7: rendering and main loop -/

/-- The four values written to `data[dataIndex .. dataIndex + 3]` for one cell,
before the clamping of the byte array. -/
structure Pixel where
  r : ℚ
  g : ℚ
  b : ℚ
  a : ℚ

/-- The body of the loops of `drawGrid` for a cell holding `state` (`none`
for `undefined`): a burning cell takes one draw `getRandomInt(105)`. -/
def drawPixel (acc : State × List Pixel) (state : Option Int) : State × List Pixel :=
  match state with
  | some v =>
    if v = STATES.BURNING then
      let (k, s1) := getRandomInt 105 acc.1
      let flicker : ℚ := 150 + (k : ℚ)
      (s1, acc.2 ++ [{ r := 255, g := flicker, b := 0, a := 255 }])
    else if v ≤ RECENTLY_BURNED_STATE then
      let decayProgress : ℚ := ((v - RECENTLY_BURNED_STATE + 1 : Int) : ℚ) / (BURN_DECAY_FRAMES : ℚ)
      let intensity : ℚ := 1 - decayProgress
      (acc.1, acc.2 ++ [{ r := 255 * intensity, g := 191 * intensity, b := 0 * intensity,
                          a := 255 }])
    else if v = STATES.TREE then
      (acc.1, acc.2 ++ [{ r := 34, g := 139, b := 34, a := 255 }])
    else
      (acc.1, acc.2 ++ [{ r := 30, g := 30, b := 30, a := 255 }])
  | none => (acc.1, acc.2 ++ [{ r := 30, g := 30, b := 30, a := 255 }])

/-- The function `drawGrid`: the state afterwards and the image data. -/
def drawGrid (n : Nat) (s : State) : State × List Pixel :=
  (List.range n).foldl
    (fun (acc : State × List Pixel) (y : Nat) =>
      (List.range n).foldl
        (fun (acc : State × List Pixel) (x : Nat) =>
          drawPixel acc (cellAt acc.1.grid (x : Int) (y : Int))) acc)
    (s, [])

/-- One frame of `mainLoop`; `updateStatsReadouts` only writes text to the
page. The fuel bounds the loops of `runFireInstantly` and of `updatePlots`. -/
def mainLoop (n : Nat) (fuel : Nat) (s : State) : Option State :=
  if s.isSimulating = false then some s
  else
    let s1 := decayRecentlyBurned n s
    let stepped : Option State :=
      if s1.isFireActive then
        if s1.animateFires then some (runFireStepAnimated n s1)
        else runFireInstantly n fuel s1
      else some (runSimulationSteps n s1)
    match stepped with
    | none => none
    | some s2 => updatePlots fuel (drawGrid n s2).1

/-! ## Propagation with a record of its grid accesses -/

/-- One access `grid[y][x]` made while the frontier cell `cell` is processed:
a read (`written = none`) or the write of a value. -/
structure Access where
  cell : Cell
  x : Int
  y : Int
  written : Option Int

/-- The function `igniteNeighbour` with the accesses it makes: the read of
`grid[ny][nx]` happens only after the four bounds tests (`&&`), the write only
when the cell read is a Tree. -/
def igniteNeighbourTrace (n : Nat) (cell : Cell) (dy : Int) (acc : State × List Access)
    (dx : Int) : State × List Access :=
  if dx = 0 ∧ dy = 0 then acc
  else
    let nx := cell.x + dx
    let ny := cell.y + dy
    if nx ≥ 0 ∧ nx < (n : Int) ∧ ny ≥ 0 ∧ ny < (n : Int) then
      let log := acc.2 ++ [{ cell := cell, x := nx, y := ny, written := none }]
      if cellAt acc.1.grid nx ny = some STATES.TREE then
        ({ acc.1 with
            grid := setCell acc.1.grid nx ny STATES.BURNING
            treeCount := acc.1.treeCount - 1
            currentFireSize := acc.1.currentFireSize + 1
            nextFireQueue := acc.1.nextFireQueue ++ [{ x := nx, y := ny }] },
          log ++ [{ cell := cell, x := nx, y := ny, written := some STATES.BURNING }])
      else (acc.1, log)
    else acc

/-- The function `burnCell` with its accesses. -/
def burnCellTrace (n : Nat) (acc : State × List Access) (cell : Cell) : State × List Access :=
  let a1 := offsets.foldl
    (fun a dy => offsets.foldl (igniteNeighbourTrace n cell dy) a) acc
  ({ a1.1 with
      grid := setCell a1.1.grid cell.x cell.y (RECENTLY_BURNED_STATE - BURN_DECAY_FRAMES + 1) },
    a1.2 ++ [{ cell := cell, x := cell.x, y := cell.y,
               written := some (RECENTLY_BURNED_STATE - BURN_DECAY_FRAMES + 1) }])

/-- The function `fireExpansion` with its accesses. -/
def fireExpansionTrace (n : Nat) (acc : State × List Access) : State × List Access :=
  let a1 := acc.1.fireQueue.foldl (burnCellTrace n) ({ acc.1 with nextFireQueue := [] }, acc.2)
  let s2 : State := { a1.1 with fireQueue := a1.1.nextFireQueue }
  (if s2.fireQueue.length = 0 then endFire s2 else s2, a1.2)

/-- The function `runFireStepAnimated` with its accesses (`k` iterations left). -/
def runFireStepAnimatedTraceLoop (n : Nat) : Nat → State × List Access → State × List Access
  | 0, acc => acc
  | k + 1, acc =>
    if acc.1.isFireActive then runFireStepAnimatedTraceLoop n k (fireExpansionTrace n acc)
    else acc

/-- The function `runFireStepAnimated` with its accesses. -/
def runFireStepAnimatedTrace (n : Nat) (s : State) : State × List Access :=
  runFireStepAnimatedTraceLoop n FIRE_ANIMATION_SPEED (s, [])

/-- The function `runFireInstantly` with its accesses. -/
def runFireInstantlyTrace (n : Nat) : Nat → State × List Access → Option (State × List Access)
  | 0, _ => none
  | fuel + 1, acc =>
    if acc.1.isFireActive then runFireInstantlyTrace n fuel (fireExpansionTrace n acc)
    else some acc

/-! ## Section 6 (third part): the quotients of the binning in double precision -/

/-- Rounding to the nearest integer, a tie going to the even one. -/
def roundHalfEven (q : ℚ) : Int :=
  let f := Int.floor q
  if q - (f : ℚ) < 1 / 2 then f
  else if 1 / 2 < q - (f : ℚ) then f + 1
  else if f % 2 = 0 then f else f + 1

/-- The double that a correctly rounded operation of IEEE 754 binary64 returns
for the exact result `q` (round to nearest, ties to even): the multiple of
`2 ^ (e - 52)` nearest to `q`, where `2 ^ e <= |q| < 2 ^ (e + 1)`. The
exponent range is not modelled (no overflow, no subnormal numbers): the
quotients of `performLogBinning` are of integers below `2 ^ 53`, whose
quotients are far inside the normal range. -/
def roundToDouble (q : ℚ) : ℚ :=
  let e : Int := Int.log 2 |q| - 52
  (roundHalfEven (q / (2 : ℚ) ^ e) : ℚ) * (2 : ℚ) ^ e

/-- The loop over the bins with the two quotients of lines 418-419 computed as
the script computes them, in double precision: `binLoop` with each quotient
rounded by `roundToDouble`. The operands (sums of counts, sums of size times
count, and bin widths) are integers, exact in double precision below `2 ^ 53`. -/
def binLoopDouble (fireStats : FireStats) : List Int → List Nat → List Point → List Point
  | binMin :: binMax :: edges, sizes, binnedData =>
    if binMin ≥ binMax then binLoopDouble fireStats (binMax :: edges) sizes binnedData
    else
      let binWidth := binMax - binMin
      let sizes1 : List Nat := sizes.dropWhile (fun (size : Nat) => decide ((size : Int) < binMin))
      let (totalCount, weightedSizeSum) := accumulateBin fireStats binMax sizes1 (0, 0)
      if totalCount > 0 then
        binLoopDouble fireStats (binMax :: edges) sizes1
          (binnedData ++ [{ x := roundToDouble ((weightedSizeSum : ℚ) / (totalCount : ℚ)),
                            y := roundToDouble ((totalCount : ℚ) / (binWidth : ℚ)) }])
      else binLoopDouble fireStats (binMax :: edges) sizes1 binnedData
  | _, _, binnedData => binnedData

/-- The function `performLogBinning(fireStats, binBase)` with the emitted
quotients in double precision; `none` when the edge loop does not end within
`fuel` checks of its condition. -/
def performLogBinningDouble (fuel : Nat) (fireStats : FireStats) (binBase : ℚ) :
    Option (List Point) :=
  if fireStats.length = 0 then some []
  else
    let sortedSizes := (mapKeys fireStats).insertionSort (fun a b => a ≤ b)
    match sortedSizes.getLast? with
    | none => some []
    | some maxFire =>
      match binEdgesLoop binBase maxFire fuel 1 [1] with
      | none => none
      | some (currentEdge, binEdges) =>
        let binEdges := binEdges ++ [mathRound (currentEdge * binBase)]
        some (binLoopDouble fireStats binEdges sortedSizes [])

/-! ## Specification vocabulary, second part -/

/-- Whether the elementary step taken from `s` ignites: the flag returned by
the ignition attempt that follows the growth attempt. -/
def ignites (n : Nat) (s : State) : Bool :=
  (ignitionAttempt n (growthAttempt n s)).2

/-- The state after an elementary step that does not ignite: growth attempt,
ignition attempt, then `N_s++`. -/
def quietStep (n : Nat) (s : State) : State :=
  { (ignitionAttempt n (growthAttempt n s)).1 with
    N_s := (ignitionAttempt n (growthAttempt n s)).1.N_s + 1 }

/-- The cell selected by the growth attempt taken from `s`: the first two
draws `getRandomInt(GRID_SIZE)`. -/
def growthCell (n : Nat) (s : State) : Cell :=
  { x := (getRandomInt n s).1, y := (getRandomInt n (getRandomInt n s).2).1 }

/-- The state after the two coordinate draws of an attempt. -/
def afterTwoDraws (n : Nat) (s : State) : State :=
  (getRandomInt n (getRandomInt n s).2).2

/-- A one-cell grid whose cell is decaying (countdown value `-5`), with growth
probability 1. -/
def decayingDemo : State :=
  { quietState [[-5]] 0 with probabilityP := 1 }

/-- What one pass of `decayRecentlyBurned` makes of a cell value: a countdown
value moves up by one and becomes `STATES.VACANT` once it passes
`RECENTLY_BURNED_STATE`; other values stay. -/
def decayValue (v : Int) : Int :=
  if v ≤ RECENTLY_BURNED_STATE then
    if v + 1 > RECENTLY_BURNED_STATE then STATES.VACANT else v + 1
  else v

/-- The state `s` with its generator advanced by `k` draws, nothing else changed. -/
def advanceRng (k : Nat) (s : State) : State :=
  { s with rng := Nat.iterate (fun g => (rngNext g).2) k s.rng }

/-- The number of Burning cells among `grid[y][x]` for the columns `x` of a list. -/
def burningInRow (grid : Grid) (y : Nat) (xs : List Nat) : Nat :=
  (xs.filter
    (fun (x : Nat) => decide (cellAt grid (x : Int) (y : Int) = some STATES.BURNING))).length

/-- The number of Burning cells of the `n` by `n` grid, counted row by row. -/
def burningCount (n : Nat) (grid : Grid) : Nat :=
  ((List.range n).map (fun y => burningInRow grid y (List.range n))).sum

/-- A one-cell grid whose cell is burning. -/
def burningDemo : State := quietState [[2]] 0

/-- The page controls used in the examples: growth probability 0.01, ignition
probability 0.0005, ten steps per frame, the seed "test", no animation. -/
def demoControls : Controls :=
  { pSlider := 1 / 100, fSlider := 1 / 2000, speedSlider := 10,
    seedBox := [116, 101, 115, 116], animateToggle := false }

/-- The configurations reached from `initializeSimulation` by the input
handlers of the two probability sliders, the ignition slider delivering only
values up to its `max` attribute. -/
inductive ConfigReachable (n : Nat) : State × Page → Prop
  | init (ui : Controls) (s0 : State) :
      ConfigReachable n (initializeSimulation n ui s0, initializePage ui)
  | pInput {sp : State × Page} (value : ℚ) :
      ConfigReachable n sp → ConfigReachable n (pSliderOnInput value sp)
  | fInput {sp : State × Page} (value : ℚ) :
      ConfigReachable n sp → value ≤ sp.2.fSliderMax →
      ConfigReachable n (fSliderOnInput value sp)

/-- An access that stays on the grid and does not wrap around: the frontier
cell being processed and the cell accessed are within bounds, and the cell
accessed is a Moore neighbour of the frontier cell or, for the write of the
first decay value, the frontier cell itself. -/
def AccessOk (n : Nat) (a : Access) : Prop :=
  InBounds n a.cell ∧ InBounds n { x := a.x, y := a.y } ∧
  (MooreAdj a.cell { x := a.x, y := a.y } ∨
    (a.x = a.cell.x ∧ a.y = a.cell.y ∧
      a.written = some (RECENTLY_BURNED_STATE - BURN_DECAY_FRAMES + 1))) ∧
  (a.written = some STATES.BURNING → MooreAdj a.cell { x := a.x, y := a.y })

/-- The states reached from `initializeSimulation` by any sequence of the
operations that `mainLoop` calls, of whole frames of `mainLoop`, of calls of
`startFire` on a Tree cell, and of the handlers of the page controls. -/
inductive Reached (n : Nat) : State → Prop
  | init (ui : Controls) (s0 : State) : Reached n (initializeSimulation n ui s0)
  | decay {s : State} : Reached n s → Reached n (decayRecentlyBurned n s)
  | steps {s : State} : Reached n s → Reached n (runSimulationSteps n s)
  | fire {s : State} (x y : Int) : Reached n s →
      cellAt s.grid x y = some STATES.TREE → Reached n (startFire s x y)
  | animated {s : State} : Reached n s → Reached n (runFireStepAnimated n s)
  | instantly {s s' : State} (fuel : Nat) : Reached n s →
      runFireInstantly n fuel s = some s' → Reached n s'
  | draw {s : State} : Reached n s → Reached n (drawGrid n s).1
  | plots {s s' : State} (fuel : Nat) : Reached n s →
      updatePlots fuel s = some s' → Reached n s'
  | frame {s s' : State} (fuel : Nat) : Reached n s →
      mainLoop n fuel s = some s' → Reached n s'
  | pInput {s : State} (value : ℚ) (page : Page) : Reached n s →
      Reached n (pSliderOnInput value (s, page)).1
  | fInput {s : State} (value : ℚ) (page : Page) : Reached n s →
      Reached n (fSliderOnInput value (s, page)).1
  | speed {s : State} (value : Nat) : Reached n s → Reached n (speedSliderOnInput value s)
  | toggle {s : State} (checked : Bool) : Reached n s →
      Reached n (animateToggleOnChange checked s)
  | start {s : State} : Reached n s → Reached n (startButtonOnClick s)
  | reset {s : State} (ui : Controls) : Reached n s → Reached n (resetButtonOnClick n ui s)

/-- The invariant of the frontier: the grid is `n` by `n`, the frontier holds
pairwise distinct cells within bounds, which are exactly the Burning cells,
it is non-empty while a fire is active, and with no fire active it is empty
and the size of the current fire is 0. -/
def FrontierInv (n : Nat) (s : State) : Prop :=
  WellFormed n s.grid ∧ s.fireQueue.Nodup ∧ (∀ c ∈ s.fireQueue, InBounds n c) ∧
  (∀ c : Cell, cellAt s.grid c.x c.y = some STATES.BURNING ↔ c ∈ s.fireQueue) ∧
  (s.isFireActive = true → s.fireQueue ≠ []) ∧
  (s.isFireActive = false → s.fireQueue = [] ∧ s.currentFireSize = 0)

/-- What is known of the grid during one expansion from the frontier `F`
with a fire active, `done` being the frontier cells already burnt out: the
new frontier holds pairwise distinct cells within bounds, none of them in
`F`, no cell of `F` is a Tree, and the Burning cells are the cells of `F`
not yet burnt out and the cells of the new frontier. -/
def SpreadInv (n : Nat) (F done : List Cell) (t : State) : Prop :=
  WellFormed n t.grid ∧ t.nextFireQueue.Nodup ∧ (∀ q ∈ t.nextFireQueue, InBounds n q) ∧
  (∀ c : Cell, cellAt t.grid c.x c.y = some STATES.BURNING ↔
    (c ∈ F ∧ c ∉ done) ∨ c ∈ t.nextFireQueue) ∧
  (∀ c ∈ F, cellAt t.grid c.x c.y ≠ some STATES.TREE) ∧
  (∀ q ∈ t.nextFireQueue, q ∉ F) ∧
  t.isFireActive = true

/-- A reached state with a fire active: on the grid of one cell, after
initialisation with growth probability 1, the ignition slider set to 1 and
one elementary step, the cell has grown and has been lit. -/
def litDemo : State :=
  runSimulationSteps 1
    (fSliderOnInput 1
      (initializeSimulation 1 ⟨1, 1 / 10, 1, [], false⟩ (quietState [] 0),
        initializePage ⟨1, 1 / 10, 1, [], false⟩)).1

/-- A reached state with one recorded fire: the state `litDemo` after one
call of `runFireStepAnimated`, which burns out the only cell and ends the
fire of size 1. -/
def burntDemo : State := runFireStepAnimated 1 litDemo

/-- A point with both coordinates rounded to double precision. -/
def roundPoint (p : Point) : Point :=
  { x := roundToDouble p.x, y := roundToDouble p.y }

/-- The sum of the occurrence counts stored in the table. -/
def totalCount (m : FireStats) : Nat := (m.map Prod.snd).sum

/-- The invariant of the statistics: the keys of the table are pairwise
distinct (as in a `Map`), `totalFires` is the sum of the stored counts, and
every key and every count is positive. -/
def StatsInv (s : State) : Prop :=
  (mapKeys s.fireStats).Nodup ∧ s.totalFires = totalCount s.fireStats ∧
  ∀ kv ∈ s.fireStats, 0 < kv.1 ∧ 0 < kv.2

theorem list_set_getElem_self {α : Type} (l : List α) (i : Nat) (h : i < l.length) :
    l.set i l[i] = l := by
  apply List.ext_getElem?
  intro j
  by_cases hij : i = j
  · subst hij
    rw [List.getElem?_set_self h, List.getElem?_eq_getElem h]
  · rw [List.getElem?_set_ne hij]

theorem setCell_of_none {g : Grid} {x y : Int} (v : Int) (h : cellAt g x y = none) :
    setCell g x y v = g := by
  unfold setCell
  unfold cellAt at h
  split
  · rename_i hxy
    rw [if_pos hxy] at h
    split
    · rename_i row hrow
      rw [hrow] at h
      simp only at h
      have hlen : row.length ≤ x.toNat := by
        rcases Nat.lt_or_ge x.toNat row.length with h1 | h1
        · rw [List.getElem?_eq_getElem h1] at h; cases h
        · exact h1
      rw [List.set_eq_of_length_le hlen]
      have hy : y.toNat < g.length := by
        rcases Nat.lt_or_ge y.toNat g.length with h1 | h1
        · exact h1
        · rw [List.getElem?_eq_none h1] at hrow; cases hrow
      rw [List.getElem?_eq_getElem hy] at hrow
      injection hrow with hrow
      rw [← hrow]
      exact list_set_getElem_self g _ hy
    · rfl
  · rfl

theorem cellAt_setCell_self {g : Grid} {x y : Int} {old : Int} (v : Int)
    (h : cellAt g x y = some old) : cellAt (setCell g x y v) x y = some v := by
  unfold cellAt at h ⊢
  unfold setCell
  by_cases hxy : 0 ≤ x ∧ 0 ≤ y
  · rw [if_pos hxy] at h
    rw [if_pos hxy, if_pos hxy]
    cases hrow : g[y.toNat]? with
    | none => rw [hrow] at h; cases h
    | some row =>
      rw [hrow] at h
      have h' : row[x.toNat]? = some old := h
      have hy : y.toNat < g.length := by
        rcases Nat.lt_or_ge y.toNat g.length with h1 | h1
        · exact h1
        · rw [List.getElem?_eq_none h1] at hrow; cases hrow
      have hx : x.toNat < row.length := by
        rcases Nat.lt_or_ge x.toNat row.length with h1 | h1
        · exact h1
        · rw [List.getElem?_eq_none h1] at h'; cases h'
      show (match (g.set y.toNat (row.set x.toNat v))[y.toNat]? with
        | some row => row[x.toNat]?
        | none => none) = some v
      rw [List.getElem?_set_self hy]
      show (row.set x.toNat v)[x.toNat]? = some v
      rw [List.getElem?_set_self hx]
  · rw [if_neg hxy] at h
    cases h

theorem cellAt_setCell_ne {g : Grid} {x y x' y' : Int} (v : Int)
    (h : ¬ (x' = x ∧ y' = y)) : cellAt (setCell g x y v) x' y' = cellAt g x' y' := by
  unfold cellAt
  by_cases hxy' : 0 ≤ x' ∧ 0 ≤ y'
  · rw [if_pos hxy', if_pos hxy']
    unfold setCell
    by_cases hxy : 0 ≤ x ∧ 0 ≤ y
    · rw [if_pos hxy]
      cases hrow : g[y.toNat]? with
      | none => rfl
      | some row =>
        simp only
        by_cases hyy : y' = y
        · subst hyy
          have hy : y'.toNat < g.length := by
            rcases Nat.lt_or_ge y'.toNat g.length with h1 | h1
            · exact h1
            · rw [List.getElem?_eq_none h1] at hrow; cases hrow
          rw [List.getElem?_set_self hy, hrow]
          simp only
          have hx : x.toNat ≠ x'.toNat := by
            intro hc
            apply h
            refine ⟨?_, rfl⟩
            have := hxy.1
            have := hxy'.1
            omega
          rw [List.getElem?_set_ne hx]
        · have hy : y.toNat ≠ y'.toNat := by
            intro hc
            apply hyy
            have := hxy.2
            have := hxy'.2
            omega
          rw [List.getElem?_set_ne hy]
    · rw [if_neg hxy]
  · rw [if_neg hxy', if_neg hxy']

theorem cellAt_setCell (g : Grid) (x y x' y' : Int) (v : Int) :
    cellAt (setCell g x y v) x' y' =
      if x' = x ∧ y' = y ∧ (cellAt g x y).isSome then some v else cellAt g x' y' := by
  by_cases h : x' = x ∧ y' = y
  · obtain ⟨rfl, rfl⟩ := h
    cases hc : cellAt g x' y' with
    | none => simp [setCell_of_none v hc, hc]
    | some old => simp [cellAt_setCell_self v hc]
  · rw [cellAt_setCell_ne v h]
    rw [if_neg]
    intro hc
    exact h ⟨hc.1, hc.2.1⟩

theorem wellFormed_setCell {n : Nat} {g : Grid} (x y v : Int) (h : WellFormed n g) :
    WellFormed n (setCell g x y v) := by
  unfold setCell
  split
  · split
    · rename_i row hrow
      refine ⟨by rw [List.length_set]; exact h.1, ?_⟩
      intro r hr
      rcases List.mem_or_eq_of_mem_set hr with h1 | h1
      · exact h.2 r h1
      · rw [h1, List.length_set]
        exact h.2 row (List.getElem?_mem hrow)
    · exact h
  · exact h

theorem cellAt_isSome_iff {n : Nat} {g : Grid} (h : WellFormed n g) (x y : Int) :
    (cellAt g x y).isSome ↔ (0 ≤ x ∧ x < n ∧ 0 ≤ y ∧ y < n) := by
  unfold cellAt
  constructor
  · intro hs
    split at hs
    · rename_i hxy
      split at hs
      · rename_i row hrow
        have hy : y.toNat < g.length := by
          rcases Nat.lt_or_ge y.toNat g.length with h1 | h1
          · exact h1
          · rw [List.getElem?_eq_none h1] at hrow; cases hrow
        have hx : x.toNat < row.length := by
          rcases Nat.lt_or_ge x.toNat row.length with h1 | h1
          · exact h1
          · rw [List.getElem?_eq_none h1] at hs; cases hs
        rw [h.2 row (List.getElem?_mem hrow)] at hx
        rw [h.1] at hy
        omega
      · cases hs
    · cases hs
  · rintro ⟨hx0, hxn, hy0, hyn⟩
    rw [if_pos ⟨hx0, hy0⟩]
    have hy : y.toNat < g.length := by rw [h.1]; omega
    rw [List.getElem?_eq_getElem hy]
    simp only
    have hx : x.toNat < (g[y.toNat]).length := by
      rw [h.2 _ (List.getElem_mem hy)]; omega
    rw [List.getElem?_eq_getElem hx]
    rfl

theorem wellFormed_emptyGrid (n : Nat) : WellFormed n (emptyGrid n) := by
  refine ⟨by simp [emptyGrid], ?_⟩
  intro row hrow
  rw [emptyGrid] at hrow
  rw [List.eq_of_mem_replicate hrow]
  simp

theorem sum_map_set {α : Type} (f : α → Nat) (a : α) :
    ∀ (l : List α) (i : Nat) (h : i < l.length),
      ((l.set i a).map f).sum + f l[i] = (l.map f).sum + f a
  | [], i, h => by simp at h
  | b :: l, 0, _ => by
    simp only [List.set_cons_zero, List.map_cons, List.sum_cons, List.getElem_cons_zero]
    omega
  | b :: l, i + 1, h => by
    have h' : i < l.length := by simpa using h
    have ih := sum_map_set f a l i h'
    simp only [List.set_cons_succ, List.map_cons, List.sum_cons, List.getElem_cons_succ]
    omega

theorem count_set_add (a b : Int) :
    ∀ (l : List Int) (i : Nat) (h : i < l.length),
      (l.set i a).count b + (if l[i] = b then 1 else 0) = l.count b + (if a = b then 1 else 0)
  | [], i, h => by simp at h
  | c :: l, 0, _ => by
    simp only [List.set_cons_zero, List.getElem_cons_zero, List.count_cons, beq_iff_eq]
    omega
  | c :: l, i + 1, h => by
    have h' : i < l.length := by simpa using h
    have ih := count_set_add a b l i h'
    simp only [List.set_cons_succ, List.getElem_cons_succ, List.count_cons, beq_iff_eq]
    omega

theorem countTrees_setCell {g : Grid} {x y : Int} {old : Int} (v : Int)
    (h : cellAt g x y = some old) :
    countTrees (setCell g x y v) + (if old = STATES.TREE then 1 else 0) =
      countTrees g + (if v = STATES.TREE then 1 else 0) := by
  unfold cellAt at h
  unfold setCell
  by_cases hxy : 0 ≤ x ∧ 0 ≤ y
  · rw [if_pos hxy] at h
    rw [if_pos hxy]
    cases hrow : g[y.toNat]? with
    | none => rw [hrow] at h; cases h
    | some row =>
      rw [hrow] at h
      have h' : row[x.toNat]? = some old := h
      obtain ⟨hy, hgy⟩ := List.getElem?_eq_some.mp hrow
      obtain ⟨hx, hrx⟩ := List.getElem?_eq_some.mp h'
      show countTrees (g.set y.toNat (row.set x.toNat v)) + _ = _
      unfold countTrees
      have h1 := sum_map_set (fun row : List Int => row.count STATES.TREE)
        (row.set x.toNat v) g y.toNat hy
      have h2 := count_set_add v STATES.TREE row x.toNat hx
      simp only at h1
      rw [hgy] at h1
      rw [hrx] at h2
      omega
  · rw [if_neg hxy] at h
    cases h

theorem countTrees_emptyGrid (n : Nat) : countTrees (emptyGrid n) = 0 := by
  unfold countTrees emptyGrid
  simp [List.count_replicate, STATES.VACANT, STATES.TREE]

/-! ## Loops as folds: a tracking principle -/

theorem foldl_keep {α β : Type} (f : β → α → β) (Inv : β → Prop) (Good : β → Prop) :
    ∀ (l : List α), (∀ b a, a ∈ l → Inv b → Inv (f b a)) →
      (∀ b a, a ∈ l → Inv b → Good b → Good (f b a)) →
      ∀ (b : β), Inv b → Good b → Good (l.foldl f b)
  | [], _, _, _, _, hg => hg
  | a :: l, hinv, hmono, b, hi, hg =>
    foldl_keep f Inv Good l
      (fun b a' h => hinv b a' (List.mem_cons_of_mem _ h))
      (fun b a' h => hmono b a' (List.mem_cons_of_mem _ h))
      (f b a) (hinv b a (List.mem_cons_self _ _) hi) (hmono b a (List.mem_cons_self _ _) hi hg)

theorem foldl_track {α β : Type} (f : β → α → β) (Inv : β → Prop) (Good : α → β → Prop) :
    ∀ (l : List α), (∀ b a, a ∈ l → Inv b → Inv (f b a) ∧ Good a (f b a)) →
      (∀ b a a', a ∈ l → Inv b → Good a' b → Good a' (f b a)) →
      ∀ (b : β), Inv b → Inv (l.foldl f b) ∧ ∀ a ∈ l, Good a (l.foldl f b)
  | [], _, _, _, hi => ⟨hi, fun _ h => by cases h⟩
  | a :: l, hstep, hmono, b, hi => by
    obtain ⟨hi1, hg1⟩ := hstep b a (List.mem_cons_self _ _) hi
    have hstep' : ∀ b a, a ∈ l → Inv b → Inv (f b a) ∧ Good a (f b a) :=
      fun b a' h => hstep b a' (List.mem_cons_of_mem _ h)
    have hmono' : ∀ b a a', a ∈ l → Inv b → Good a' b → Good a' (f b a) :=
      fun b a' a'' h => hmono b a' a'' (List.mem_cons_of_mem _ h)
    obtain ⟨hi2, hg2⟩ := foldl_track f Inv Good l hstep' hmono' (f b a) hi1
    refine ⟨hi2, ?_⟩
    intro a' ha'
    rcases List.mem_cons.mp ha' with h | h
    · subst h
      exact foldl_keep f Inv (Good a') l (fun b a h hb => (hstep' b a h hb).1)
        (fun b a h hb hg => hmono' b a a' h hb hg) (f b a') hi1 hg1
    · exact hg2 a' h

/-! ## Elementary events of propagation -/

theorem noNewTree_refl (g : Grid) : NoNewTree g g := fun _ _ h => h

theorem noNewTree_trans {g1 g2 g3 : Grid} (h1 : NoNewTree g1 g2) (h2 : NoNewTree g2 g3) :
    NoNewTree g1 g3 := fun x y h => h2 x y (h1 x y h)

theorem noNewTree_setCell (g : Grid) (x y v : Int) (hv : v ≠ STATES.TREE) :
    NoNewTree g (setCell g x y v) := by
  intro x' y' h
  rw [cellAt_setCell]
  split
  · intro hc
    exact hv (Option.some.inj hc)
  · exact h

theorem igniteNeighbour_eq (n : Nat) (cell : Cell) (dy : Int) (s : State) (dx : Int) :
    (igniteNeighbour n cell dy s dx = ignite s ⟨cell.x + dx, cell.y + dy⟩ ∧
      ¬ (dx = 0 ∧ dy = 0) ∧ InBounds n ⟨cell.x + dx, cell.y + dy⟩ ∧
      cellAt s.grid (cell.x + dx) (cell.y + dy) = some STATES.TREE) ∨
    (igniteNeighbour n cell dy s dx = s ∧
      (¬ (dx = 0 ∧ dy = 0) → InBounds n ⟨cell.x + dx, cell.y + dy⟩ →
        cellAt s.grid (cell.x + dx) (cell.y + dy) ≠ some STATES.TREE)) := by
  unfold igniteNeighbour
  by_cases h0 : dx = 0 ∧ dy = 0
  · right
    rw [if_pos h0]
    exact ⟨rfl, fun h => absurd h0 h⟩
  · rw [if_neg h0]
    by_cases hc : cell.x + dx ≥ 0 ∧ cell.x + dx < (n : Int) ∧ cell.y + dy ≥ 0 ∧
        cell.y + dy < (n : Int) ∧ cellAt s.grid (cell.x + dx) (cell.y + dy) = some STATES.TREE
    · left
      simp only [hc, and_self, if_true]
      exact ⟨rfl, h0, ⟨hc.1, hc.2.1, hc.2.2.1, hc.2.2.2.1⟩, trivial⟩
    · right
      simp only
      rw [if_neg hc]
      refine ⟨rfl, ?_⟩
      intro _ hb ht
      exact hc ⟨hb.1, hb.2.1, hb.2.2.1, hb.2.2.2, ht⟩

theorem mooreAdj_offset (c : Cell) (dx dy : Int) (hx : dx ∈ offsets) (hy : dy ∈ offsets)
    (h0 : ¬ (dx = 0 ∧ dy = 0)) : MooreAdj c ⟨c.x + dx, c.y + dy⟩ := by
  simp only [offsets, List.mem_cons, List.mem_singleton, List.not_mem_nil, or_false] at hx hy
  unfold MooreAdj
  simp only [add_sub_cancel_left]
  exact ⟨hx, hy, h0⟩

theorem offset_of_mooreAdj {c q : Cell} (h : MooreAdj c q) :
    ∃ dx dy, dx ∈ offsets ∧ dy ∈ offsets ∧ ¬ (dx = 0 ∧ dy = 0) ∧
      q = ⟨c.x + dx, c.y + dy⟩ := by
  refine ⟨q.x - c.x, q.y - c.y, ?_, ?_, h.2.2, ?_⟩
  · simp only [offsets, List.mem_cons, List.mem_singleton, List.not_mem_nil, or_false]
    exact h.1
  · simp only [offsets, List.mem_cons, List.mem_singleton, List.not_mem_nil, or_false]
    exact h.2.1
  · cases q
    simp

/-- Induction principle for the processing of one frontier cell: a property
`P` kept by every ignition of a Tree neighbour gives `Q` after `burnCell` when
the final burn-out, which happens when no neighbour within bounds is a Tree
any more, leads from `P` to `Q`. -/
theorem burnCell_ind (n : Nat) (c : Cell) (P Q : State → Prop)
    (hign : ∀ t q, MooreAdj c q → InBounds n q →
      cellAt t.grid q.x q.y = some STATES.TREE → P t → P (ignite t q))
    (hout : ∀ t, (∀ q, MooreAdj c q → InBounds n q →
      cellAt t.grid q.x q.y ≠ some STATES.TREE) → P t → Q (burnOut t c))
    (s : State) (hs : P s) : Q (burnCell n s c) := by
  have hNo : ∀ (t : State) (dy dx : Int),
      NoNewTree t.grid (igniteNeighbour n c dy t dx).grid := by
    intro t dy dx
    rcases igniteNeighbour_eq n c dy t dx with h | h
    · rw [h.1]
      exact noNewTree_setCell _ _ _ _ (by decide)
    · rw [h.1]
      exact noNewTree_refl _
  -- inner loop, for a fixed `dy`
  have inner : ∀ (dy : Int), dy ∈ offsets → ∀ t, P t →
      P (offsets.foldl (igniteNeighbour n c dy) t) ∧
      ∀ dx ∈ offsets, (¬ (dx = 0 ∧ dy = 0) → InBounds n ⟨c.x + dx, c.y + dy⟩ →
        cellAt (offsets.foldl (igniteNeighbour n c dy) t).grid (c.x + dx) (c.y + dy)
          ≠ some STATES.TREE) := by
    intro dy hdy t ht
    refine foldl_track (igniteNeighbour n c dy) P
      (fun dx t => ¬ (dx = 0 ∧ dy = 0) → InBounds n ⟨c.x + dx, c.y + dy⟩ →
        cellAt t.grid (c.x + dx) (c.y + dy) ≠ some STATES.TREE)
      offsets ?_ ?_ t ht
    · intro b dx hdx hb
      rcases igniteNeighbour_eq n c dy b dx with h | h
      · rw [h.1]
        refine ⟨hign b _ (mooreAdj_offset c dx dy hdx hdy h.2.1) h.2.2.1 h.2.2.2 hb, ?_⟩
        intro _ _
        show cellAt (setCell b.grid (c.x + dx) (c.y + dy) STATES.BURNING) _ _ ≠ _
        rw [cellAt_setCell_self _ h.2.2.2]
        decide
      · rw [h.1]
        exact ⟨hb, h.2⟩
    · intro b dx dx' _ _ hg h1 h2
      exact hNo b dy dx _ _ (hg h1 h2)
  -- outer loop over `dy`
  have outer := foldl_track (fun t dy => offsets.foldl (igniteNeighbour n c dy) t) P
      (fun dy t => ∀ dx ∈ offsets, ¬ (dx = 0 ∧ dy = 0) → InBounds n ⟨c.x + dx, c.y + dy⟩ →
        cellAt t.grid (c.x + dx) (c.y + dy) ≠ some STATES.TREE)
      offsets
      (fun b dy hdy hb => inner dy hdy b hb)
      (by
        intro b dy dy' _ _ hg dx hdx h1 h2
        have hNo' : NoNewTree b.grid (offsets.foldl (igniteNeighbour n c dy) b).grid := by
          refine foldl_keep (igniteNeighbour n c dy) (fun _ => True)
            (fun t => NoNewTree b.grid t.grid) offsets (fun _ _ _ _ => trivial) ?_ b trivial
            (noNewTree_refl _)
          intro t dx' _ _ ht
          exact noNewTree_trans ht (hNo t dy dx')
        exact hNo' _ _ (hg dx hdx h1 h2))
      s hs
  unfold burnCell
  apply hout _ _ outer.1
  intro q hadj hb
  obtain ⟨dx, dy, hdx, hdy, h0, rfl⟩ := offset_of_mooreAdj hadj
  exact outer.2 dy hdy dx hdx h0 hb

/-- Induction principle for the loop over the frontier: a property kept by
every ignition from a frontier cell and by every burn-out of a frontier cell
holds after the whole frontier has been processed. -/
theorem frontier_ind (n : Nat) (F : List Cell) (P : State → Prop)
    (hign : ∀ t c q, c ∈ F → MooreAdj c q → InBounds n q →
      cellAt t.grid q.x q.y = some STATES.TREE → P t → P (ignite t q))
    (hout : ∀ t c, c ∈ F → (∀ q, MooreAdj c q → InBounds n q →
      cellAt t.grid q.x q.y ≠ some STATES.TREE) → P t → P (burnOut t c))
    (s : State) (hs : P s) : P (F.foldl (burnCell n) s) := by
  refine foldl_keep (burnCell n) (fun _ => True) P F (fun _ _ _ _ => trivial) ?_ s trivial hs
  intro t c hc _ ht
  exact burnCell_ind n c P P (fun t q => hign t c q hc) (fun t => hout t c hc) t ht

/-- The state in which the loop over the frontier ends during one expansion. -/
theorem fireExpansion_eq (n : Nat) (s : State) :
    fireExpansion n s =
      if (s.fireQueue.foldl (burnCell n) { s with nextFireQueue := [] }).nextFireQueue.length = 0
      then endFire { s.fireQueue.foldl (burnCell n) { s with nextFireQueue := [] } with
        fireQueue := (s.fireQueue.foldl (burnCell n)
          { s with nextFireQueue := [] }).nextFireQueue }
      else { s.fireQueue.foldl (burnCell n) { s with nextFireQueue := [] } with
        fireQueue := (s.fireQueue.foldl (burnCell n)
          { s with nextFireQueue := [] }).nextFireQueue } := rfl

/-- Induction principle for one wavefront expansion. -/
theorem fireExpansion_ind (n : Nat) (s : State) (P Q : State → Prop)
    (h0 : P { s with nextFireQueue := [] })
    (hign : ∀ t c q, c ∈ s.fireQueue → MooreAdj c q → InBounds n q →
      cellAt t.grid q.x q.y = some STATES.TREE → P t → P (ignite t q))
    (hout : ∀ t c, c ∈ s.fireQueue → (∀ q, MooreAdj c q → InBounds n q →
      cellAt t.grid q.x q.y ≠ some STATES.TREE) → P t → P (burnOut t c))
    (hgo : ∀ t, P t → t.nextFireQueue ≠ [] → Q { t with fireQueue := t.nextFireQueue })
    (hend : ∀ t, P t → t.nextFireQueue = [] →
      Q (endFire { t with fireQueue := t.nextFireQueue })) :
    Q (fireExpansion n s) := by
  rw [fireExpansion_eq]
  have ht := frontier_ind n s.fireQueue P hign hout _ h0
  split
  · rename_i h
    exact hend _ ht (List.length_eq_zero.mp h)
  · rename_i h
    exact hgo _ ht (fun hc => h (by rw [hc]; rfl))

theorem runFireInstantly_inv (n : Nat) (Inv : State → Prop)
    (hstep : ∀ t, Inv t → t.isFireActive = true → Inv (fireExpansion n t)) :
    ∀ (fuel : Nat) (s s' : State), runFireInstantly n fuel s = some s' → Inv s →
      Inv s' ∧ s'.isFireActive = false
  | 0, _, _, h, _ => by simp [runFireInstantly] at h
  | fuel + 1, s, s', h, hs => by
    unfold runFireInstantly at h
    split at h
    · rename_i hact
      exact runFireInstantly_inv n Inv hstep fuel _ s' h (hstep s hs hact)
    · rename_i hact
      injection h with h
      subst h
      exact ⟨hs, by simpa using hact⟩

theorem endFire_grid (s : State) : (endFire s).grid = s.grid := by
  unfold endFire recordFireStatistics
  simp only
  split <;> rfl

theorem endFire_isFireActive (s : State) : (endFire s).isFireActive = false := by
  unfold endFire recordFireStatistics
  simp only
  split <;> rfl

/-- Every expansion burns at least as many Trees as it leaves cells in the new frontier. -/
theorem fireExpansion_measure (n : Nat) (s : State) (hact : s.isFireActive = true) :
    countTrees (fireExpansion n s).grid +
      (if (fireExpansion n s).isFireActive = true then 1 else 0) ≤ countTrees s.grid := by
  refine fireExpansion_ind n s
    (fun t => countTrees t.grid + t.nextFireQueue.length ≤ countTrees s.grid ∧
      t.isFireActive = true)
    (fun t => countTrees t.grid + (if t.isFireActive = true then 1 else 0) ≤ countTrees s.grid)
    ⟨by simp, hact⟩ ?_ ?_ ?_ ?_
  · intro t c q _ _ _ hq ht
    have h := countTrees_setCell STATES.BURNING hq
    simp only [STATES.BURNING, STATES.TREE] at h
    simp only [ignite, List.length_append, List.length_singleton, STATES.BURNING]
    norm_num at h
    exact ⟨by omega, ht.2⟩
  · intro t c _ _ ht
    refine ⟨?_, ht.2⟩
    simp only [burnOut]
    cases hc : cellAt t.grid c.x c.y with
    | none => rw [setCell_of_none _ hc]; exact ht.1
    | some old =>
      have h := countTrees_setCell (RECENTLY_BURNED_STATE - BURN_DECAY_FRAMES + 1) hc
      have : ¬ (RECENTLY_BURNED_STATE - BURN_DECAY_FRAMES + 1 = STATES.TREE) := by decide
      rw [if_neg this] at h
      have := ht.1
      omega
  · intro t ht hne
    simp only
    have : 0 < t.nextFireQueue.length := List.length_pos.mpr hne
    rw [if_pos ht.2]
    omega
  · intro t ht _
    rw [endFire_grid, endFire_isFireActive]
    simp only
    have := ht.1
    simp
    omega

/-- The loop of `runFireInstantly` ends: with at least two more units of fuel
than there are Trees on the grid it returns a state. -/
theorem runFireInstantly_terminates (n : Nat) :
    ∀ (k : Nat) (s : State), countTrees s.grid ≤ k →
      ∃ s', ∀ fuel, k + 2 ≤ fuel → runFireInstantly n fuel s = some s'
  | 0, s, hk => by
    by_cases hact : s.isFireActive = true
    · have hm := fireExpansion_measure n s hact
      have hin : (fireExpansion n s).isFireActive = false := by
        by_contra hc
        rw [if_pos (by simpa using hc)] at hm
        omega
      refine ⟨fireExpansion n s, ?_⟩
      intro fuel hfuel
      obtain ⟨f, rfl⟩ : ∃ f, fuel = f + 2 := ⟨fuel - 2, by omega⟩
      simp [runFireInstantly, hact, hin]
    · refine ⟨s, ?_⟩
      intro fuel hfuel
      obtain ⟨f, rfl⟩ : ∃ f, fuel = f + 1 := ⟨fuel - 1, by omega⟩
      simp [runFireInstantly, hact]
  | k + 1, s, hk => by
    by_cases hact : s.isFireActive = true
    · have hm := fireExpansion_measure n s hact
      by_cases hin : (fireExpansion n s).isFireActive = true
      · rw [if_pos hin] at hm
        obtain ⟨s', hs'⟩ := runFireInstantly_terminates n k (fireExpansion n s) (by omega)
        refine ⟨s', ?_⟩
        intro fuel hfuel
        obtain ⟨f, rfl⟩ : ∃ f, fuel = f + 1 := ⟨fuel - 1, by omega⟩
        rw [runFireInstantly, if_pos hact]
        exact hs' f (by omega)
      · refine ⟨fireExpansion n s, ?_⟩
        intro fuel hfuel
        obtain ⟨f, rfl⟩ : ∃ f, fuel = f + 2 := ⟨fuel - 2, by omega⟩
        simp [runFireInstantly, hact, hin]
    · refine ⟨s, ?_⟩
      intro fuel hfuel
      obtain ⟨f, rfl⟩ : ∃ f, fuel = f + 1 := ⟨fuel - 1, by omega⟩
      simp [runFireInstantly, hact]

theorem rng_eq (s : State) : (rng s).2 = { s with rng := (rngNext s.rng).2 } := rfl

theorem getRandomInt_eq (max : Nat) (s : State) :
    (getRandomInt max s).2 = { s with rng := (rngNext s.rng).2 } := rfl

theorem treeInv_rng {n : Nat} {s : State} (g : RngState) (h : TreeInv n s) :
    TreeInv n { s with rng := g } := h

theorem treeInv_startFire {n : Nat} {s : State} {x y : Int} (h : TreeInv n s)
    (ht : cellAt s.grid x y = some STATES.TREE) : TreeInv n (startFire s x y) := by
  obtain ⟨hwf, hcount, hq⟩ := h
  refine ⟨wellFormed_setCell _ _ _ hwf, ?_, ?_⟩
  · have h := countTrees_setCell STATES.BURNING ht
    simp only [STATES.BURNING, STATES.TREE] at h
    norm_num at h
    show s.treeCount - 1 = (countTrees (setCell s.grid x y STATES.BURNING) : Int)
    rw [hcount, STATES.BURNING]
    omega
  · intro c hc
    show cellAt (setCell s.grid x y STATES.BURNING) c.x c.y = some STATES.BURNING
    rcases List.mem_append.mp hc with h1 | h1
    · rw [cellAt_setCell]
      split
      · rfl
      · exact hq c h1
    · rw [List.mem_singleton.mp h1]
      exact cellAt_setCell_self _ ht

theorem treeInv_growthAttempt {n : Nat} {s : State} (h : TreeInv n s) :
    TreeInv n (growthAttempt n s) := by
  unfold growthAttempt
  simp only
  split
  · rename_i hv
    split
    · obtain ⟨hwf, hcount, hq⟩ := h
      refine ⟨wellFormed_setCell _ _ _ hwf, ?_, ?_⟩
      · have hv' : cellAt s.grid (getRandomInt n s).1 (getRandomInt n (getRandomInt n s).2).1
            = some STATES.VACANT := hv
        have h := countTrees_setCell STATES.TREE hv'
        simp only [STATES.VACANT, STATES.TREE] at h
        norm_num at h
        show s.treeCount + 1 = (countTrees (setCell s.grid _ _ STATES.TREE) : Int)
        rw [hcount, STATES.TREE]
        omega
      · intro c hc
        show cellAt (setCell s.grid _ _ STATES.TREE) c.x c.y = some STATES.BURNING
        rw [cellAt_setCell]
        split
        · rename_i heq
          have h1 := hq c hc
          rw [heq.1, heq.2.1] at h1
          have : cellAt s.grid (getRandomInt n s).1 (getRandomInt n (getRandomInt n s).2).1
              = some STATES.VACANT := hv
          rw [this] at h1
          exact absurd h1 (by decide)
        · exact hq c hc
    · exact h
  · exact h

theorem treeInv_ignitionAttempt {n : Nat} {s : State} (h : TreeInv n s) :
    TreeInv n (ignitionAttempt n s).1 := by
  unfold ignitionAttempt
  simp only
  split
  · rename_i hv
    split
    · exact treeInv_startFire (s := (rng (getRandomInt n (getRandomInt n s).2).2).2) h hv
    · exact h
  · exact h

theorem treeInv_runSimulationStepsLoop {n : Nat} :
    ∀ (k : Nat) (s : State), TreeInv n s → TreeInv n (runSimulationStepsLoop n k s)
  | 0, _, h => h
  | k + 1, s, h => by
    unfold runSimulationStepsLoop
    have h2 := treeInv_ignitionAttempt (treeInv_growthAttempt h)
    simp only
    split
    · exact h2
    · exact treeInv_runSimulationStepsLoop k _ h2

theorem endFire_treeCount (s : State) : (endFire s).treeCount = s.treeCount := by
  unfold endFire recordFireStatistics
  simp only
  split <;> rfl

theorem endFire_fireQueue (s : State) : (endFire s).fireQueue = s.fireQueue := by
  unfold endFire recordFireStatistics
  simp only
  split <;> rfl

theorem treeInv_fireExpansion {n : Nat} {s : State} (h : TreeInv n s) :
    TreeInv n (fireExpansion n s) := by
  obtain ⟨hwf, hcount, hq⟩ := h
  refine fireExpansion_ind n s
    (fun t => WellFormed n t.grid ∧ t.treeCount = (countTrees t.grid : Int) ∧
      (∀ c ∈ s.fireQueue, cellAt t.grid c.x c.y ≠ some STATES.TREE) ∧
      (∀ q ∈ t.nextFireQueue, cellAt t.grid q.x q.y = some STATES.BURNING ∧ q ∉ s.fireQueue))
    (TreeInv n) ?_ ?_ ?_ ?_ ?_
  · refine ⟨hwf, hcount, ?_, ?_⟩
    · intro c hc
      rw [hq c hc]
      decide
    · intro q hq'
      cases hq'
  · intro t c q _ _ _ htree ⟨h1, h2, h3, h4⟩
    refine ⟨wellFormed_setCell _ _ _ h1, ?_, ?_, ?_⟩
    · have h := countTrees_setCell STATES.BURNING htree
      simp only [STATES.BURNING, STATES.TREE] at h
      norm_num at h
      show t.treeCount - 1 = (countTrees (setCell t.grid q.x q.y STATES.BURNING) : Int)
      rw [h2, STATES.BURNING]
      omega
    · intro c' hc'
      exact noNewTree_setCell _ _ _ _ (by decide) _ _ (h3 c' hc')
    · intro q' hq'
      show cellAt (setCell t.grid q.x q.y STATES.BURNING) q'.x q'.y = some STATES.BURNING ∧ _
      rcases List.mem_append.mp hq' with h5 | h5
      · refine ⟨?_, (h4 q' h5).2⟩
        rw [cellAt_setCell]
        split
        · rfl
        · exact (h4 q' h5).1
      · rw [List.mem_singleton.mp h5]
        refine ⟨cellAt_setCell_self _ htree, ?_⟩
        intro hmem
        exact h3 q hmem htree
  · intro t c hc _ ⟨h1, h2, h3, h4⟩
    have hval : RECENTLY_BURNED_STATE - BURN_DECAY_FRAMES + 1 ≠ STATES.TREE := by decide
    refine ⟨wellFormed_setCell _ _ _ h1, ?_, ?_, ?_⟩
    · show t.treeCount = (countTrees (setCell t.grid c.x c.y _) : Int)
      cases hcell : cellAt t.grid c.x c.y with
      | none => rw [setCell_of_none _ hcell]; exact h2
      | some old =>
        have h := countTrees_setCell (RECENTLY_BURNED_STATE - BURN_DECAY_FRAMES + 1) hcell
        rw [if_neg hval] at h
        have hold : old ≠ STATES.TREE := by
          intro ho
          apply h3 c hc
          rw [hcell, ho]
        rw [if_neg hold] at h
        rw [h2]
        omega
    · intro c' hc'
      exact noNewTree_setCell _ _ _ _ hval _ _ (h3 c' hc')
    · intro q' hq'
      refine ⟨?_, (h4 q' hq').2⟩
      show cellAt (setCell t.grid c.x c.y _) q'.x q'.y = some STATES.BURNING
      rw [cellAt_setCell_ne]
      · exact (h4 q' hq').1
      · intro heq
        apply (h4 q' hq').2
        have : q' = c := by
          cases q'; cases c
          simp only at heq
          rw [heq.1, heq.2]
        rw [this]
        exact hc
  · intro t ⟨h1, h2, _, h4⟩ _
    exact ⟨h1, h2, fun c hc => (h4 c hc).1⟩
  · intro t ⟨h1, h2, _, h4⟩ _
    refine ⟨?_, ?_, ?_⟩
    · rw [endFire_grid]; exact h1
    · rw [endFire_grid, endFire_treeCount]; exact h2
    · rw [endFire_grid, endFire_fireQueue]
      exact fun c hc => (h4 c hc).1

theorem runFireStepAnimated_eq (n : Nat) (s : State) :
    runFireStepAnimated n s = if s.isFireActive = true then fireExpansion n s else s := by
  unfold runFireStepAnimated FIRE_ANIMATION_SPEED runFireStepAnimatedLoop
  split
  · rfl
  · rfl

theorem treeInv_decayCell {n : Nat} {K : Nat} {Q : List Cell} (x y : Int) (g : Grid)
    (h : WellFormed n g ∧ countTrees g = K ∧
      ∀ c ∈ Q, cellAt g c.x c.y = some STATES.BURNING) :
    WellFormed n (decayCell y g x) ∧ countTrees (decayCell y g x) = K ∧
      ∀ c ∈ Q, cellAt (decayCell y g x) c.x c.y = some STATES.BURNING := by
  obtain ⟨hwf, hcount, hq⟩ := h
  unfold decayCell
  cases hv : cellAt g x y with
  | none => exact ⟨hwf, hcount, hq⟩
  | some v =>
    simp only
    split
    · rename_i hle
      have hle' : v ≤ -1 := hle
      have h1 := countTrees_setCell (v + 1) hv
      have hv1 : ¬ (v = STATES.TREE) := by simp only [STATES.TREE]; omega
      have hv2 : ¬ (v + 1 = STATES.TREE) := by simp only [STATES.TREE]; omega
      rw [if_neg hv1, if_neg hv2] at h1
      have hq1 : ∀ c ∈ Q, cellAt (setCell g x y (v + 1)) c.x c.y = some STATES.BURNING := by
        intro c hc
        rw [cellAt_setCell]
        split
        · rename_i heq
          have := hq c hc
          rw [heq.1, heq.2.1, hv] at this
          injection this with this
          simp only [STATES.BURNING] at this
          omega
        · exact hq c hc
      split
      · have hself := cellAt_setCell_self (v + 1) hv
        have h2 := countTrees_setCell STATES.VACANT hself
        have hv3 : ¬ (STATES.VACANT = STATES.TREE) := by decide
        rw [if_neg hv2, if_neg hv3] at h2
        refine ⟨wellFormed_setCell _ _ _ (wellFormed_setCell _ _ _ hwf), by omega, ?_⟩
        intro c hc
        rw [cellAt_setCell]
        split
        · rename_i heq
          have := hq1 c hc
          rw [heq.1, heq.2.1, hself] at this
          injection this with this
          simp only [STATES.BURNING] at this
          omega
        · exact hq1 c hc
      · exact ⟨wellFormed_setCell _ _ _ hwf, by omega, hq1⟩
    · exact ⟨hwf, hcount, hq⟩

theorem treeInv_decayRecentlyBurned {n : Nat} {s : State} (h : TreeInv n s) :
    TreeInv n (decayRecentlyBurned n s) := by
  obtain ⟨hwf, hcount, hq⟩ := h
  have key : WellFormed n (decayRecentlyBurned n s).grid ∧
      countTrees (decayRecentlyBurned n s).grid = countTrees s.grid ∧
      ∀ c ∈ s.fireQueue, cellAt (decayRecentlyBurned n s).grid c.x c.y
        = some STATES.BURNING := by
    unfold decayRecentlyBurned
    simp only
    refine foldl_keep _ (fun _ => True)
      (fun g => WellFormed n g ∧ countTrees g = countTrees s.grid ∧
        ∀ c ∈ s.fireQueue, cellAt g c.x c.y = some STATES.BURNING)
      (List.range n) (fun _ _ _ _ => trivial) ?_ s.grid trivial ⟨hwf, rfl, hq⟩
    intro g y _ _ hg
    refine foldl_keep _ (fun _ => True)
      (fun g => WellFormed n g ∧ countTrees g = countTrees s.grid ∧
        ∀ c ∈ s.fireQueue, cellAt g c.x c.y = some STATES.BURNING)
      (List.range n) (fun _ _ _ _ => trivial) ?_ g trivial hg
    intro g' x _ _ hg'
    exact treeInv_decayCell (x : Int) (y : Int) g' hg'
  refine ⟨key.1, ?_, key.2.2⟩
  rw [key.2.1]
  exact hcount

theorem treeInv_of_reachable {n : Nat} {s : State} (h : Reachable n s) : TreeInv n s := by
  induction h with
  | init ui s0 =>
    refine ⟨wellFormed_emptyGrid n, ?_, ?_⟩
    · show (0 : Int) = (countTrees (emptyGrid n) : Int)
      rw [countTrees_emptyGrid]
      rfl
    · intro c hc
      cases hc
  | steps _ ih => exact treeInv_runSimulationStepsLoop _ _ ih
  | fire x y _ ht ih => exact treeInv_startFire ih ht
  | animated _ ih =>
    rw [runFireStepAnimated_eq]
    split
    · exact treeInv_fireExpansion ih
    · exact ih
  | instantly fuel _ hrun ih =>
    exact (runFireInstantly_inv n (TreeInv n) (fun t ht _ => treeInv_fireExpansion ht)
      fuel _ _ hrun ih).1
  | decay _ ih => exact treeInv_decayRecentlyBurned ih

/-- Claim C1. In every state reachable from `initializeSimulation` by any sequence of
`runSimulationSteps`, `startFire` on a Tree cell, `runFireStepAnimated`,
`runFireInstantly` and `decayRecentlyBurned`, the counter `treeCount` equals
the number of grid cells whose value is `STATES.TREE`. -/
theorem treeCount_eq_countTrees_of_reachable (n : Nat) (s : State) (h : Reachable n s) :
    s.treeCount = (countTrees s.grid : Int) :=
  (treeInv_of_reachable h).2.1

/-- Witness for C1: one batch of ten elementary steps after initialisation
with the seed "test" on a grid of side 3. -/
theorem treeCount_eq_countTrees_of_reachable_witness :
    (runSimulationSteps 3 (initializeSimulation 3
        ⟨1 / 100, 1 / 2000, 10, [116, 101, 115, 116], false⟩ (quietState [] 0))).treeCount =
      (countTrees (runSimulationSteps 3 (initializeSimulation 3
        ⟨1 / 100, 1 / 2000, 10, [116, 101, 115, 116], false⟩ (quietState [] 0))).grid : Int) :=
  treeCount_eq_countTrees_of_reachable 3 _ (Reachable.steps (Reachable.init _ _))

/-- The loop over the frontier with a ghost list of the cells burnt out so far. -/
theorem frontier_ghost (n : Nat) (F : List Cell) (P : List Cell → State → Prop)
    (hign : ∀ d t c q, c ∈ F → MooreAdj c q → InBounds n q →
      cellAt t.grid q.x q.y = some STATES.TREE → P d t → P d (ignite t q))
    (hout : ∀ d t c, c ∈ F → (∀ q, MooreAdj c q → InBounds n q →
      cellAt t.grid q.x q.y ≠ some STATES.TREE) → P d t → P (c :: d) (burnOut t c)) :
    ∀ (l : List Cell), (∀ c ∈ l, c ∈ F) → ∀ (d : List Cell) (s : State), P d s →
      ∃ d', (∀ c, c ∈ d' ↔ c ∈ d ∨ c ∈ l) ∧ P d' (l.foldl (burnCell n) s)
  | [], _, d, s, hs => ⟨d, fun c => by simp, hs⟩
  | c :: l, hl, d, s, hs => by
    have hc : c ∈ F := hl c (List.mem_cons_self _ _)
    have h1 : P (c :: d) (burnCell n s c) :=
      burnCell_ind n c (P d) (P (c :: d)) (fun t q => hign d t c q hc)
        (fun t => hout d t c hc) s hs
    obtain ⟨d', hd', hP⟩ := frontier_ghost n F P hign hout l
      (fun c' h => hl c' (List.mem_cons_of_mem _ h)) (c :: d) (burnCell n s c) h1
    refine ⟨d', ?_, hP⟩
    intro c'
    rw [hd', List.mem_cons, List.mem_cons]
    tauto

theorem cellAt_of_inComponent {G : Grid} {start c : Cell} (h : InComponent G start c) :
    cellAt G c.x c.y = some STATES.TREE := by
  cases h with
  | base h => exact h
  | step _ _ h => exact h

theorem cell_eq_of {c q : Cell} (h : c.x = q.x ∧ c.y = q.y) : c = q := by
  cases c; cases q
  simp only at h
  rw [h.1, h.2]

theorem cellAt_isSome_of_wellFormed {n : Nat} {g g' : Grid} (h : WellFormed n g)
    (h' : WellFormed n g') {x y : Int} {v : Int} (hv : cellAt g x y = some v) :
    (cellAt g' x y).isSome := by
  rw [cellAt_isSome_iff h']
  rw [← cellAt_isSome_iff h, hv]
  rfl

theorem contentInv_ignite {G : Grid} {start : Cell} {F d : List Cell} {t : State}
    {c q : Cell} (hc : c ∈ F) (hadj : MooreAdj c q)
    (hq : cellAt t.grid q.x q.y = some STATES.TREE) (h : ContentInv G start F d t) :
    ContentInv G start F d (ignite t q) := by
  obtain ⟨h1, h2, h3, h4, h5, h6⟩ := h
  have hqL : ¬ (q ∈ d ∨ q ∈ F ∨ q ∈ t.nextFireQueue) := by
    rintro (hm | hm)
    · have := h2 q hm
      rw [hq] at this
      exact absurd this (by decide)
    · exact h3 q hm hq
  have hmem : ∀ c' : Cell, c' ∈ (ignite t q).nextFireQueue ↔ c' ∈ t.nextFireQueue ∨ c' = q := by
    intro c'
    show c' ∈ t.nextFireQueue ++ [q] ↔ _
    rw [List.mem_append, List.mem_singleton]
  have hgrid : (ignite t q).grid = setCell t.grid q.x q.y STATES.BURNING := rfl
  have hNo := noNewTree_setCell t.grid q.x q.y STATES.BURNING (by decide)
  refine ⟨?_, ?_, ?_, ?_, ?_, ?_⟩
  · intro c' hc'
    rw [hmem] at hc'
    rcases hc' with hc' | hc' | hc' | hc'
    · exact h1 c' (Or.inl hc')
    · exact h1 c' (Or.inr (Or.inl hc'))
    · exact h1 c' (Or.inr (Or.inr hc'))
    · rw [hc']
      refine InComponent.step (h1 c (Or.inr (Or.inl hc))) hadj ?_
      rw [← h4 q hqL]
      exact hq
  · intro c' hc'
    rw [hgrid, cellAt_setCell_ne]
    · exact h2 c' hc'
    · intro heq
      exact hqL (Or.inl (cell_eq_of heq ▸ hc'))
  · intro c' hc'
    rw [hmem] at hc'
    rw [hgrid]
    rcases hc' with hc' | hc' | hc'
    · exact hNo _ _ (h3 c' (Or.inl hc'))
    · exact hNo _ _ (h3 c' (Or.inr hc'))
    · rw [hc', cellAt_setCell_self _ hq]
      decide
  · intro c' hc'
    rw [hmem] at hc'
    rw [hgrid, cellAt_setCell_ne]
    · apply h4 c'
      tauto
    · intro heq
      apply hc'
      right; right; right
      exact cell_eq_of heq
  · intro c' hc' q' hadj'
    rw [hgrid]
    exact hNo _ _ (h5 c' hc' q' hadj')
  · rw [hmem]
    tauto

theorem contentInv_burnOut {n : Nat} {G : Grid} {start : Cell} {F d : List Cell} {t : State}
    {c : Cell} (hG : WellFormed n G) (ht : WellFormed n t.grid) (hc : c ∈ F)
    (hnb : ∀ q, MooreAdj c q → InBounds n q → cellAt t.grid q.x q.y ≠ some STATES.TREE)
    (h : ContentInv G start F d t) :
    ContentInv G start F (c :: d) (burnOut t c) := by
  obtain ⟨h1, h2, h3, h4, h5, h6⟩ := h
  have hgrid : (burnOut t c).grid =
      setCell t.grid c.x c.y (RECENTLY_BURNED_STATE - BURN_DECAY_FRAMES + 1) := rfl
  have hNo := noNewTree_setCell t.grid c.x c.y
    (RECENTLY_BURNED_STATE - BURN_DECAY_FRAMES + 1) (by decide)
  have hcG := cellAt_of_inComponent (h1 c (Or.inr (Or.inl hc)))
  have hsome := cellAt_isSome_of_wellFormed hG ht hcG
  obtain ⟨old, hold⟩ := Option.isSome_iff_exists.mp hsome
  refine ⟨?_, ?_, ?_, ?_, ?_, ?_⟩
  · intro c' hc'
    apply h1 c'
    rcases hc' with hc' | hc' | hc'
    · rcases List.mem_cons.mp hc' with h7 | h7
      · rw [h7]; exact Or.inr (Or.inl hc)
      · exact Or.inl h7
    · exact Or.inr (Or.inl hc')
    · exact Or.inr (Or.inr hc')
  · intro c' hc'
    rw [hgrid]
    by_cases heq : c'.x = c.x ∧ c'.y = c.y
    · rw [heq.1, heq.2, cellAt_setCell_self _ hold]
      rfl
    · rw [cellAt_setCell_ne _ heq]
      rcases List.mem_cons.mp hc' with h7 | h7
      · exact absurd (by rw [h7]; exact ⟨rfl, rfl⟩) heq
      · exact h2 c' h7
  · intro c' hc'
    rw [hgrid]
    exact hNo _ _ (h3 c' hc')
  · intro c' hc'
    rw [hgrid, cellAt_setCell_ne]
    · apply h4 c'
      intro hm
      apply hc'
      rcases hm with hm | hm
      · exact Or.inl (List.mem_cons_of_mem _ hm)
      · exact Or.inr hm
    · intro heq
      apply hc'
      right; left
      rw [cell_eq_of heq]
      exact hc
  · intro c' hc' q hadj
    rw [hgrid]
    apply hNo
    rcases List.mem_cons.mp hc' with h7 | h7
    · rw [h7] at hadj
      by_cases hb : InBounds n q
      · exact hnb q hadj hb
      · intro hq
        apply hb
        have := (cellAt_isSome_iff ht q.x q.y).mp (by rw [hq]; rfl)
        exact this
    · exact h5 c' h7 q hadj
  · rcases h6 with h6 | h6
    · exact Or.inl (List.mem_cons_of_mem _ h6)
    · exact Or.inr h6

theorem fireInv_ignite {n : Nat} {G : Grid} {start : Cell} {K1 : Int} {K2 : Nat}
    {fs : FireStats} {tf : Nat} {F d : List Cell} {t : State} {c q : Cell}
    (hc : c ∈ F) (hadj : MooreAdj c q)
    (hq : cellAt t.grid q.x q.y = some STATES.TREE)
    (h : FireInv n G start K1 K2 fs tf F d t) :
    FireInv n G start K1 K2 fs tf F d (ignite t q) := by
  obtain ⟨h1, h2, h3, h4, h5, h6, h7, h8⟩ := h
  have hcnt := countTrees_setCell STATES.BURNING hq
  simp only [STATES.BURNING, STATES.TREE] at hcnt
  norm_num at hcnt
  refine ⟨wellFormed_setCell _ _ _ h1, contentInv_ignite hc hadj hq h2, ?_, ?_, ?_, h6, h7, h8⟩
  · show t.treeCount - 1 - (countTrees (setCell t.grid q.x q.y STATES.BURNING) : Int) = K1
    rw [STATES.BURNING]
    omega
  · show t.currentFireSize + 1 + countTrees (setCell t.grid q.x q.y STATES.BURNING) = K2
    rw [STATES.BURNING]
    omega
  · show 1 ≤ t.currentFireSize + 1
    omega

theorem fireInv_burnOut {n : Nat} {G : Grid} {start : Cell} {K1 : Int} {K2 : Nat}
    {fs : FireStats} {tf : Nat} {F d : List Cell} {t : State} {c : Cell}
    (hG : WellFormed n G) (hc : c ∈ F)
    (hnb : ∀ q, MooreAdj c q → InBounds n q → cellAt t.grid q.x q.y ≠ some STATES.TREE)
    (h : FireInv n G start K1 K2 fs tf F d t) :
    FireInv n G start K1 K2 fs tf F (c :: d) (burnOut t c) := by
  obtain ⟨h1, h2, h3, h4, h5, h6, h7, h8⟩ := h
  have hval : RECENTLY_BURNED_STATE - BURN_DECAY_FRAMES + 1 ≠ STATES.TREE := by decide
  have hcnt : countTrees (setCell t.grid c.x c.y
      (RECENTLY_BURNED_STATE - BURN_DECAY_FRAMES + 1)) = countTrees t.grid := by
    cases hcell : cellAt t.grid c.x c.y with
    | none => rw [setCell_of_none _ hcell]
    | some old =>
      have h := countTrees_setCell (RECENTLY_BURNED_STATE - BURN_DECAY_FRAMES + 1) hcell
      rw [if_neg hval] at h
      have hold : old ≠ STATES.TREE := by
        intro ho
        apply h2.2.2.1 c (Or.inl hc)
        rw [hcell, ho]
      rw [if_neg hold] at h
      omega
  refine ⟨wellFormed_setCell _ _ _ h1, contentInv_burnOut hG h1 hc hnb h2, ?_, ?_, h5, h6, h7, h8⟩
  · show t.treeCount - (countTrees (setCell t.grid c.x c.y _) : Int) = K1
    rw [hcnt]
    exact h3
  · show t.currentFireSize + countTrees (setCell t.grid c.x c.y _) = K2
    rw [hcnt]
    exact h4

theorem endFire_eq_of_pos (s : State) (h : s.currentFireSize ≠ 0) :
    endFire s = { s with
      isFireActive := false
      fireStats := mapSet s.fireStats s.currentFireSize
        ((mapGet s.fireStats s.currentFireSize).getD 0 + 1)
      totalFires := s.totalFires + 1
      currentFireSize := 0 } := by
  unfold endFire recordFireStatistics
  simp only
  rw [if_neg h]

/-- One expansion of a spreading fire either leaves it spreading or ends it. -/
theorem midFire_fireExpansion {n : Nat} {G : Grid} {start : Cell} {K1 : Int} {K2 : Nat}
    {fs : FireStats} {tf : Nat} {s : State} (hG : WellFormed n G)
    (h : MidFire n G start K1 K2 fs tf s) :
    ((fireExpansion n s).isFireActive = true ∧
        MidFire n G start K1 K2 fs tf (fireExpansion n s)) ∨
      ((fireExpansion n s).isFireActive = false ∧
        EndFire n G start K1 K2 fs tf (fireExpansion n s)) := by
  obtain ⟨d, hd⟩ := h
  obtain ⟨d', hd', hP⟩ := frontier_ghost n s.fireQueue
    (fun d t => FireInv n G start K1 K2 fs tf s.fireQueue d t)
    (fun d t c q hc hadj _ hq h => fireInv_ignite hc hadj hq h)
    (fun d t c hc hnb h => fireInv_burnOut hG hc hnb h)
    s.fireQueue (fun _ h => h) d _ hd
  rw [fireExpansion_eq]
  generalize s.fireQueue.foldl (burnCell n) { s with nextFireQueue := [] } = t at hP
  obtain ⟨h1, ⟨c1, c2, c3, c4, c5, c6⟩, h3, h4, h5, h6, h7, h8⟩ := hP
  have hF : ∀ c, c ∈ s.fireQueue → c ∈ d' := fun c hc => (hd' c).mpr (Or.inr hc)
  have hcontent : ContentInv G start t.nextFireQueue d'
      { t with fireQueue := t.nextFireQueue, nextFireQueue := [] } := by
    refine ⟨?_, c2, ?_, ?_, c5, ?_⟩
    · intro c hc
      rcases hc with hc | hc | hc
      · exact c1 c (Or.inl hc)
      · exact c1 c (Or.inr (Or.inr hc))
      · cases hc
    · intro c hc
      rcases hc with hc | hc
      · exact c3 c (Or.inr hc)
      · cases hc
    · intro c hc
      apply c4 c
      rintro (hm | hm | hm)
      · exact hc (Or.inl hm)
      · exact hc (Or.inl (hF c hm))
      · exact hc (Or.inr (Or.inl hm))
    · rcases c6 with hm | hm | hm
      · exact Or.inl hm
      · exact Or.inl (hF _ hm)
      · exact Or.inr (Or.inl hm)
  split
  · rename_i hlen
    right
    have hnil : t.nextFireQueue = [] := List.length_eq_zero.mp hlen
    rw [endFire_eq_of_pos _ (by show t.currentFireSize ≠ 0; omega)]
    refine ⟨rfl, h1, hnil, rfl, ⟨d', ?_⟩, t.currentFireSize, h5, h4, h3, ?_, ?_⟩
    · rw [hnil] at hcontent
      exact hcontent
    · show mapSet t.fireStats _ _ = _
      rw [h6]
    · show t.totalFires + 1 = tf + 1
      rw [h7]
  · left
    exact ⟨h8, d', h1, hcontent, h3, h4, h5, h6, h7, h8⟩

/-- When the fire has ended, the cells burnt are those of the component. -/
theorem endFire_content {G : Grid} {start : Cell} {d : List Cell} {t : State}
    (h : ContentInv G start [] d { t with nextFireQueue := [] }) :
    (∀ c, c ∈ d ↔ InComponent G start c) ∧
    (∀ c, InComponent G start c → cellAt t.grid c.x c.y = some (-15)) ∧
    (∀ c, ¬ InComponent G start c → cellAt t.grid c.x c.y = cellAt G c.x c.y) := by
  obtain ⟨c1, c2, c3, c4, c5, c6⟩ := h
  have hstart : start ∈ d := by
    rcases c6 with h | h | h
    · exact h
    · cases h
    · cases h
  have hin : ∀ c, InComponent G start c → c ∈ d := by
    intro c hc
    induction hc with
    | base _ => exact hstart
    | @step c q _ hadj hq ih =>
      by_contra hqd
      have := c4 q (by
        rintro (h | h | h)
        · exact hqd h
        · cases h
        · cases h)
      apply c5 c ih q hadj
      show cellAt t.grid q.x q.y = some STATES.TREE
      have h' : cellAt t.grid q.x q.y = cellAt G q.x q.y := this
      rw [h', hq]
  refine ⟨fun c => ⟨fun h => c1 c (Or.inl h), hin c⟩, ?_, ?_⟩
  · intro c hc
    exact c2 c (hin c hc)
  · intro c hc
    apply c4 c
    rintro (h | h | h)
    · exact hc (c1 c (Or.inl h))
    · cases h
    · cases h

theorem cellAt_natCast (g : Grid) (i j : Nat) (hi : i < g.length) (hj : j < (g[i]).length) :
    cellAt g (j : Int) (i : Int) = some ((g[i])[j]) := by
  unfold cellAt
  rw [if_pos ⟨Int.natCast_nonneg j, Int.natCast_nonneg i⟩]
  simp only [Int.toNat_ofNat]
  rw [List.getElem?_eq_getElem hi]
  simp only
  rw [List.getElem?_eq_getElem hj]

theorem grid_ext {n : Nat} {g g' : Grid} (h : WellFormed n g) (h' : WellFormed n g')
    (heq : ∀ x y, cellAt g' x y = cellAt g x y) : g' = g := by
  apply List.ext_getElem (by rw [h.1, h'.1])
  intro i hi' hi
  have hl' : (g'[i]).length = n := h'.2 _ (List.getElem_mem hi')
  have hl : (g[i]).length = n := h.2 _ (List.getElem_mem hi)
  apply List.ext_getElem (by rw [hl, hl'])
  intro j hj' hj
  have e := heq (j : Int) (i : Int)
  rw [cellAt_natCast g i j hi hj, cellAt_natCast g' i j hi' hj'] at e
  exact Option.some.inj e

/-- Two `n` by `n` grids that differ exactly on a duplicate-free list of cells,
Trees in the first and no Trees in the second, differ in their number of Trees
by the length of the list. -/
theorem countTrees_diff {n : Nat} :
    ∀ (L : List Cell), L.Nodup → ∀ (g g' : Grid), WellFormed n g → WellFormed n g' →
      (∀ c ∈ L, cellAt g c.x c.y = some STATES.TREE ∧ cellAt g' c.x c.y ≠ some STATES.TREE) →
      (∀ c : Cell, c ∉ L → cellAt g' c.x c.y = cellAt g c.x c.y) →
      countTrees g = countTrees g' + L.length
  | [], _, g, g', h, h', _, hout => by
    have : g' = g := grid_ext h h' (fun x y => hout ⟨x, y⟩ (List.not_mem_nil _))
    rw [this]
    rfl
  | c :: L, hnd, g, g', h, h', hin, hout => by
    have hcin := hin c (List.mem_cons_self _ _)
    have hsome := cellAt_isSome_of_wellFormed h h' hcin.1
    obtain ⟨old, hold⟩ := Option.isSome_iff_exists.mp hsome
    have hold' : old ≠ STATES.TREE := by
      intro ho
      apply hcin.2
      rw [hold, ho]
    have hcnt := countTrees_setCell STATES.TREE hold
    rw [if_neg hold', if_pos rfl] at hcnt
    have hnd' := List.nodup_cons.mp hnd
    have ih := countTrees_diff L hnd'.2 g (setCell g' c.x c.y STATES.TREE) h
      (wellFormed_setCell _ _ _ h') ?_ ?_
    · rw [ih, List.length_cons]
      omega
    · intro c' hc'
      refine ⟨(hin c' (List.mem_cons_of_mem _ hc')).1, ?_⟩
      rw [cellAt_setCell_ne]
      · exact (hin c' (List.mem_cons_of_mem _ hc')).2
      · intro heq
        apply hnd'.1
        rw [← cell_eq_of heq]
        exact hc'
    · intro c' hc'
      by_cases heq : c'.x = c.x ∧ c'.y = c.y
      · rw [heq.1, heq.2, cellAt_setCell_self _ hold, hcin.1]
      · rw [cellAt_setCell_ne _ heq]
        apply hout c'
        intro hm
        rcases List.mem_cons.mp hm with h1 | h1
        · apply heq
          rw [h1]
          exact ⟨rfl, rfl⟩
        · exact hc' h1

/-! ## The statistics table -/

theorem mapGet_mapSet (m : FireStats) (k v k' : Nat) :
    mapGet (mapSet m k v) k' = if k' = k then some v else mapGet m k' := by
  induction m with
  | nil =>
    unfold mapSet mapGet
    by_cases h : k' = k
    · subst h
      simp [List.lookup]
    · have : (k' == k) = false := by simpa using h
      simp [List.lookup, this, h]
  | cons e m ih =>
    obtain ⟨k0, v0⟩ := e
    unfold mapSet
    unfold mapGet at ih ⊢
    by_cases h0 : k0 = k
    · rw [if_pos h0]
      subst h0
      by_cases h : k' = k0
      · subst h
        simp [List.lookup]
      · have : (k' == k0) = false := by simpa using h
        simp [List.lookup, this, h]
    · rw [if_neg h0]
      by_cases h : k' = k0
      · subst h
        have hne : ¬ (k' = k) := h0
        simp [List.lookup, hne]
      · have : (k' == k0) = false := by simpa using h
        simp only [List.lookup, this]
        exact ih

/-- The outcome of a fire lit on a Tree cell of a grid with an empty frontier. -/
theorem fire_outcome {n : Nat} {s : State} {x y : Int} (hwf : WellFormed n s.grid)
    (hq : s.fireQueue = []) (ht : cellAt s.grid x y = some STATES.TREE) :
    ∃ (s' : State) (comp : List Cell) (size : Nat),
      (∀ fuel, countTrees s.grid + 1 ≤ fuel →
        runFireInstantly n fuel (startFire s x y) = some s') ∧
      comp.Nodup ∧ (∀ c, c ∈ comp ↔ InComponent s.grid ⟨x, y⟩ c) ∧
      (∀ c, c ∈ comp → cellAt s'.grid c.x c.y = some (-15)) ∧
      (∀ c, c ∉ comp → cellAt s'.grid c.x c.y = cellAt s.grid c.x c.y) ∧
      WellFormed n s'.grid ∧ s'.isFireActive = false ∧ s'.fireQueue = [] ∧
      s'.currentFireSize = 0 ∧ size = comp.length ∧ 1 ≤ size ∧
      size + countTrees s'.grid = countTrees s.grid ∧
      s'.treeCount = s.treeCount - (size : Int) ∧
      s'.fireStats = mapSet s.fireStats size ((mapGet s.fireStats size).getD 0 + 1) ∧
      s'.totalFires = s.totalFires + 1 := by
  have hcnt := countTrees_setCell STATES.BURNING ht
  simp only [STATES.BURNING, STATES.TREE] at hcnt
  norm_num at hcnt
  have hgrid1 : (startFire s x y).grid = setCell s.grid x y 2 := rfl
  -- the invariant holds after ignition
  have hmid : MidFire n s.grid ⟨x, y⟩ (s.treeCount - (countTrees s.grid : Int))
      (countTrees s.grid) s.fireStats s.totalFires (startFire s x y) := by
    refine ⟨[], wellFormed_setCell _ _ _ hwf, ⟨?_, ?_, ?_, ?_, ?_, ?_⟩, ?_, ?_, ?_, rfl, rfl, rfl⟩
    · intro c hc
      have hc' : c ∈ s.fireQueue ++ [⟨x, y⟩] := by
        rcases hc with hc | hc | hc
        · cases hc
        · exact hc
        · cases hc
      rw [hq, List.nil_append, List.mem_singleton] at hc'
      rw [hc']
      exact InComponent.base ht
    · intro c hc
      cases hc
    · intro c hc
      have hc' : c ∈ s.fireQueue ++ [⟨x, y⟩] := by
        rcases hc with hc | hc
        · exact hc
        · cases hc
      rw [hq, List.nil_append, List.mem_singleton] at hc'
      rw [hc']
      show cellAt (setCell s.grid x y STATES.BURNING) x y ≠ _
      rw [cellAt_setCell_self _ ht]
      decide
    · intro c hc
      show cellAt (setCell s.grid x y STATES.BURNING) c.x c.y = _
      rw [cellAt_setCell_ne]
      intro heq
      apply hc
      right; left
      show c ∈ s.fireQueue ++ [⟨x, y⟩]
      rw [hq, List.nil_append, List.mem_singleton]
      exact cell_eq_of heq
    · intro c hc
      cases hc
    · right; left
      show (⟨x, y⟩ : Cell) ∈ s.fireQueue ++ [⟨x, y⟩]
      simp
    · show s.treeCount - 1 - (countTrees (setCell s.grid x y STATES.BURNING) : Int) = _
      rw [STATES.BURNING]
      omega
    · show 1 + countTrees (setCell s.grid x y STATES.BURNING) = _
      rw [STATES.BURNING]
      omega
    · show 1 ≤ 1
      omega
  -- the loop ends
  obtain ⟨s', hs'⟩ := runFireInstantly_terminates n (countTrees (startFire s x y).grid)
    (startFire s x y) (Nat.le_refl _)
  have hfuel : ∀ fuel, countTrees s.grid + 1 ≤ fuel →
      runFireInstantly n fuel (startFire s x y) = some s' := by
    intro fuel hf
    apply hs'
    rw [hgrid1]
    omega
  -- and the invariant is carried to its end
  have hinv := runFireInstantly_inv n
    (fun t => (t.isFireActive = true ∧
        MidFire n s.grid ⟨x, y⟩ (s.treeCount - (countTrees s.grid : Int))
          (countTrees s.grid) s.fireStats s.totalFires t) ∨
      (t.isFireActive = false ∧
        EndFire n s.grid ⟨x, y⟩ (s.treeCount - (countTrees s.grid : Int))
          (countTrees s.grid) s.fireStats s.totalFires t))
    (by
      intro t ht hact
      rcases ht with ht | ht
      · exact midFire_fireExpansion hwf ht.2
      · rw [ht.1] at hact
        cases hact)
    _ (startFire s x y) s' (hs' _ (Nat.le_refl _)) (Or.inl ⟨rfl, hmid⟩)
  obtain ⟨hfin, hinact⟩ := hinv
  have hend : EndFire n s.grid ⟨x, y⟩ (s.treeCount - (countTrees s.grid : Int))
      (countTrees s.grid) s.fireStats s.totalFires s' := by
    rcases hfin with h | h
    · rw [hinact] at h
      cases h.1
    · exact h.2
  obtain ⟨e1, e2, e3, ⟨d, econt⟩, size, e5, e6, e7, e8, e9⟩ := hend
  obtain ⟨m1, m2, m3⟩ := endFire_content econt
  have hcomp : ∀ c, c ∈ d.dedup ↔ InComponent s.grid ⟨x, y⟩ c := by
    intro c
    rw [List.mem_dedup]
    exact m1 c
  have hdiff := countTrees_diff d.dedup (List.nodup_dedup d) s.grid s'.grid hwf e1
    (by
      intro c hc
      have hin := (hcomp c).mp hc
      refine ⟨cellAt_of_inComponent hin, ?_⟩
      rw [m2 c hin]
      decide)
    (by
      intro c hc
      exact m3 c (fun h => hc ((hcomp c).mpr h)))
  refine ⟨s', d.dedup, size, hfuel, List.nodup_dedup d, hcomp, ?_, ?_, e1, hinact, e2, e3,
    by omega, e5, e6, by omega, e8, e9⟩
  · intro c hc
    exact m2 c ((hcomp c).mp hc)
  · intro c hc
    exact m3 c (fun h => hc ((hcomp c).mpr h))

/-- A successful run of `runFireInstantly` is a run of `runFireStepAnimated`
repeated until the fire is over. -/
theorem animated_of_instantly (n : Nat) :
    ∀ (fuel : Nat) (s s' : State), runFireInstantly n fuel s = some s' →
      ∃ k, Nat.iterate (runFireStepAnimated n) k s = s' ∧
        ∀ j, j < k → (Nat.iterate (runFireStepAnimated n) j s).isFireActive = true
  | 0, _, _, h => by simp [runFireInstantly] at h
  | fuel + 1, s, s', h => by
    unfold runFireInstantly at h
    split at h
    · rename_i hact
      obtain ⟨k, hk, hj⟩ := animated_of_instantly n fuel _ s' h
      refine ⟨k + 1, ?_, ?_⟩
      · rw [Function.iterate_succ_apply, runFireStepAnimated_eq, if_pos hact]
        exact hk
      · intro j hjk
        cases j with
        | zero => exact hact
        | succ j =>
          rw [Function.iterate_succ_apply, runFireStepAnimated_eq, if_pos hact]
          exact hj j (by omega)
    · injection h with h
      exact ⟨0, h, fun j hj => by omega⟩

theorem wellFormed_replicate (n : Nat) (v : Int) :
    WellFormed n (List.replicate n (List.replicate n v)) := by
  refine ⟨by simp, ?_⟩
  intro row hrow
  rw [List.eq_of_mem_replicate hrow]
  simp

theorem cellAt_replicate (n : Nat) (v : Int) (c : Cell) (h : InBounds n c) :
    cellAt (List.replicate n (List.replicate n v)) c.x c.y = some v := by
  obtain ⟨hx0, hxn, hy0, hyn⟩ := h
  unfold cellAt
  rw [if_pos ⟨hx0, hy0⟩]
  have hy : c.y.toNat < n := by omega
  have hx : c.x.toNat < n := by omega
  rw [List.getElem?_replicate, if_pos hy]
  simp only
  rw [List.getElem?_replicate, if_pos hx]

theorem countTrees_allTreeGrid (n : Nat) : countTrees (allTreeGrid n) = n * n := by
  unfold countTrees allTreeGrid
  simp [List.count_replicate]

theorem countTrees_eq_zero (g : Grid) (h : ∀ x y, cellAt g x y ≠ some STATES.TREE) :
    countTrees g = 0 := by
  unfold countTrees
  apply List.sum_eq_zero
  intro k hk
  obtain ⟨row, hrow, rfl⟩ := List.mem_map.mp hk
  rw [List.count_eq_zero]
  intro hmem
  obtain ⟨i, hi, hgi⟩ := List.mem_iff_getElem.mp hrow
  obtain ⟨j, hj, hrj⟩ := List.mem_iff_getElem.mp hmem
  subst hgi
  apply h (j : Int) (i : Int)
  rw [cellAt_natCast g i j hi hj, hrj]

/-- On the all-Tree grid every cell within bounds is in the component of every other. -/
theorem inComponent_allTreeGrid (n : Nat) (start : Cell) (hs : InBounds n start) :
    ∀ (k : Nat) (q : Cell), InBounds n q →
      (q.x - start.x).natAbs + (q.y - start.y).natAbs ≤ k →
      InComponent (allTreeGrid n) start q
  | 0, q, _, hk => by
    have : q = start := by
      apply cell_eq_of
      constructor <;> omega
    rw [this]
    exact InComponent.base (cellAt_replicate n _ start hs)
  | k + 1, q, hq, hk => by
    obtain ⟨hx0, hxn, hy0, hyn⟩ := hq
    obtain ⟨sx0, sxn, sy0, syn⟩ := hs
    have hqt := cellAt_replicate n STATES.TREE q ⟨hx0, hxn, hy0, hyn⟩
    by_cases hx : q.x = start.x
    · by_cases hy : q.y = start.y
      · rw [cell_eq_of ⟨hx, hy⟩]
        exact InComponent.base (cellAt_replicate n _ start ⟨sx0, sxn, sy0, syn⟩)
      · by_cases hlt : q.y < start.y
        · have ih := inComponent_allTreeGrid n start ⟨sx0, sxn, sy0, syn⟩ k ⟨q.x, q.y + 1⟩
            ⟨hx0, hxn, by show 0 ≤ q.y + 1; omega, by show q.y + 1 < (n : Int); omega⟩
            (by show (q.x - start.x).natAbs + (q.y + 1 - start.y).natAbs ≤ k; omega)
          refine InComponent.step ih ?_ hqt
          unfold MooreAdj
          simp only
          omega
        · have ih := inComponent_allTreeGrid n start ⟨sx0, sxn, sy0, syn⟩ k ⟨q.x, q.y - 1⟩
            ⟨hx0, hxn, by show 0 ≤ q.y - 1; omega, by show q.y - 1 < (n : Int); omega⟩
            (by show (q.x - start.x).natAbs + (q.y - 1 - start.y).natAbs ≤ k; omega)
          refine InComponent.step ih ?_ hqt
          unfold MooreAdj
          simp only
          omega
    · by_cases hlt : q.x < start.x
      · have ih := inComponent_allTreeGrid n start ⟨sx0, sxn, sy0, syn⟩ k ⟨q.x + 1, q.y⟩
          ⟨by show 0 ≤ q.x + 1; omega, by show q.x + 1 < (n : Int); omega, hy0, hyn⟩
          (by show (q.x + 1 - start.x).natAbs + (q.y - start.y).natAbs ≤ k; omega)
        refine InComponent.step ih ?_ hqt
        unfold MooreAdj
        simp only
        omega
      · have ih := inComponent_allTreeGrid n start ⟨sx0, sxn, sy0, syn⟩ k ⟨q.x - 1, q.y⟩
          ⟨by show 0 ≤ q.x - 1; omega, by show q.x - 1 < (n : Int); omega, hy0, hyn⟩
          (by show (q.x - 1 - start.x).natAbs + (q.y - start.y).natAbs ≤ k; omega)
        refine InComponent.step ih ?_ hqt
        unfold MooreAdj
        simp only
        omega

/-- Claim C2. On an `n` by `n` grid with an empty frontier, `startFire(x, y)` on a
Tree cell followed by `runFireInstantly` (which returns for every fuel above
the number of Trees) burns exactly the 8-connected component of Tree cells
containing `(x, y)`: the component is listed without repetition by `comp`,
each of its cells ends with the decay value `-15`, every other cell is
unchanged, `treeCount` drops by the size of the component, and the count kept
in `fireStats` under that size goes up by one, all other counts staying. The
premise that no cell is Burning is not needed. -/
theorem startFire_runFireInstantly_burns_component (n : Nat) (s : State) (x y : Int)
    (hwf : WellFormed n s.grid) (hq : s.fireQueue = [])
    (ht : cellAt s.grid x y = some STATES.TREE) :
    ∃ (s' : State) (comp : List Cell),
      (∀ fuel, countTrees s.grid + 1 ≤ fuel →
        runFireInstantly n fuel (startFire s x y) = some s') ∧
      comp.Nodup ∧ (∀ c, c ∈ comp ↔ InComponent s.grid ⟨x, y⟩ c) ∧
      (∀ c, c ∈ comp → cellAt s'.grid c.x c.y = some (-15)) ∧
      (∀ c, c ∉ comp → cellAt s'.grid c.x c.y = cellAt s.grid c.x c.y) ∧
      s'.treeCount = s.treeCount - (comp.length : Int) ∧
      mapGet s'.fireStats comp.length =
        some ((mapGet s.fireStats comp.length).getD 0 + 1) ∧
      (∀ k, k ≠ comp.length → mapGet s'.fireStats k = mapGet s.fireStats k) := by
  obtain ⟨s', comp, size, h1, h2, h3, h4, h5, _, _, _, _, h6, _, _, h7, h8, _⟩ :=
    fire_outcome hwf hq ht
  subst h6
  refine ⟨s', comp, h1, h2, h3, h4, h5, h7, ?_, ?_⟩
  · rw [h8, mapGet_mapSet, if_pos rfl]
  · intro k hk
    rw [h8, mapGet_mapSet, if_neg hk]

/-- Witness for C2: the grid `[[1,1,0],[0,0,1],[1,0,0]]` lit at `(0, 0)`. -/
theorem startFire_runFireInstantly_burns_component_witness :
    ∃ (s' : State) (comp : List Cell),
      (∀ fuel, countTrees [[1, 1, 0], [0, 0, 1], [1, 0, 0]] + 1 ≤ fuel →
        runFireInstantly 3 fuel
          (startFire (quietState [[1, 1, 0], [0, 0, 1], [1, 0, 0]] 4) 0 0) = some s') ∧
      comp.Nodup ∧
      (∀ c, c ∈ comp ↔ InComponent [[1, 1, 0], [0, 0, 1], [1, 0, 0]] ⟨0, 0⟩ c) ∧
      (∀ c, c ∈ comp → cellAt s'.grid c.x c.y = some (-15)) ∧
      (∀ c, c ∉ comp →
        cellAt s'.grid c.x c.y = cellAt [[1, 1, 0], [0, 0, 1], [1, 0, 0]] c.x c.y) ∧
      s'.treeCount = 4 - (comp.length : Int) ∧
      mapGet s'.fireStats comp.length = some ((mapGet [] comp.length).getD 0 + 1) ∧
      (∀ k, k ≠ comp.length → mapGet s'.fireStats k = mapGet [] k) :=
  startFire_runFireInstantly_burns_component 3
    (quietState [[1, 1, 0], [0, 0, 1], [1, 0, 0]] 4) 0 0 ⟨rfl, by decide⟩ rfl (by decide)

/-- Claim C3. Stepwise and instantaneous propagation agree: from every state,
`runFireInstantly` returns a state `s'` (for every fuel above the number of
Trees plus one), and calling `runFireStepAnimated` again and again reaches
that very state `s'`, the first one in which `isFireActive` is false, after
`k` calls. The two final states are equal, hence have the same grid,
`treeCount`, `fireStats` and `totalFires`. -/
theorem runFireStepAnimated_agrees_with_runFireInstantly (n : Nat) (s : State) :
    ∃ (s' : State) (k : Nat),
      (∀ fuel, countTrees s.grid + 2 ≤ fuel → runFireInstantly n fuel s = some s') ∧
      Nat.iterate (runFireStepAnimated n) k s = s' ∧
      (∀ j, j < k → (Nat.iterate (runFireStepAnimated n) j s).isFireActive = true) ∧
      s'.isFireActive = false := by
  obtain ⟨s', hs'⟩ := runFireInstantly_terminates n (countTrees s.grid) s (Nat.le_refl _)
  have hrun := hs' _ (Nat.le_refl _)
  obtain ⟨k, hk, hj⟩ := animated_of_instantly n _ s s' hrun
  exact ⟨s', k, hs', hk, hj,
    (runFireInstantly_inv n (fun _ => True) (fun _ _ _ => trivial) _ s s' hrun trivial).2⟩

/-- Claim C4. A fire started by `startFire` on a Tree cell (frontier empty before)
and run to completion, in either mode, records a size `size` through
`recordFireStatistics` (the table gets one more event under `size`) with
`size >= 1`; `size` is the number of cells that went from Tree to Burning
during the fire, listed without repetition by `burned` (the cells that were
Tree before and are not afterwards, the ignited cell among them, all other
cells unchanged), and `treeCount` decreased by `size`, as did a re-scan. -/
theorem recorded_size_counts_burned_cells (n : Nat) (s : State) (x y : Int)
    (hwf : WellFormed n s.grid) (hq : s.fireQueue = [])
    (ht : cellAt s.grid x y = some STATES.TREE) :
    ∃ (s' : State) (size : Nat) (burned : List Cell) (k : Nat),
      (∀ fuel, countTrees s.grid + 1 ≤ fuel →
        runFireInstantly n fuel (startFire s x y) = some s') ∧
      Nat.iterate (runFireStepAnimated n) k (startFire s x y) = s' ∧
      (∀ j, j < k →
        (Nat.iterate (runFireStepAnimated n) j (startFire s x y)).isFireActive = true) ∧
      s'.isFireActive = false ∧
      s'.fireStats = mapSet s.fireStats size ((mapGet s.fireStats size).getD 0 + 1) ∧
      s'.totalFires = s.totalFires + 1 ∧
      1 ≤ size ∧ size = burned.length ∧ burned.Nodup ∧ (⟨x, y⟩ : Cell) ∈ burned ∧
      (∀ c, c ∈ burned ↔ (cellAt s.grid c.x c.y = some STATES.TREE ∧
        cellAt s'.grid c.x c.y ≠ some STATES.TREE)) ∧
      (∀ c, c ∉ burned → cellAt s'.grid c.x c.y = cellAt s.grid c.x c.y) ∧
      s.treeCount - s'.treeCount = (size : Int) ∧
      size + countTrees s'.grid = countTrees s.grid := by
  obtain ⟨s', comp, size, h1, h2, h3, h4, h5, _, hin, _, _, h6, h9, h10, h7, h8, h11⟩ :=
    fire_outcome hwf hq ht
  obtain ⟨k, hk, hj⟩ := animated_of_instantly n _ _ s' (h1 _ (Nat.le_refl _))
  refine ⟨s', size, comp, k, h1, hk, hj, hin, h8, h11, h9, h6, h2,
    (h3 _).mpr (InComponent.base ht), ?_, h5, by omega, h10⟩
  intro c
  constructor
  · intro hc
    refine ⟨cellAt_of_inComponent ((h3 c).mp hc), ?_⟩
    rw [h4 c hc]
    decide
  · intro hc
    by_contra hn
    apply hc.2
    rw [h5 c hn]
    exact hc.1

/-- Witness for C4: the grid `[[1,1,0],[0,0,1],[1,0,0]]` lit at `(0, 0)`. -/
theorem recorded_size_counts_burned_cells_witness :
    ∃ (s' : State) (size : Nat),
      (∀ fuel, countTrees [[1, 1, 0], [0, 0, 1], [1, 0, 0]] + 1 ≤ fuel →
        runFireInstantly 3 fuel
          (startFire (quietState [[1, 1, 0], [0, 0, 1], [1, 0, 0]] 4) 0 0) = some s') ∧
      s'.fireStats = mapSet [] size ((mapGet [] size).getD 0 + 1) ∧
      1 ≤ size ∧ (4 : Int) - s'.treeCount = (size : Int) := by
  obtain ⟨s', size, _, _, h1, _, _, _, h2, _, h3, _, _, _, _, _, h4, _⟩ :=
    recorded_size_counts_burned_cells 3
      (quietState [[1, 1, 0], [0, 0, 1], [1, 0, 0]] 4) 0 0 ⟨rfl, by decide⟩ rfl (by decide)
  exact ⟨s', size, h1, h2, h3, h4⟩

/-- Claim C5. On the all-Tree grid of any side `n`, lighting any cell within bounds
and running propagation to completion burns all `n * n` cells in one fire:
`treeCount` ends at 0, every cell holds the decay value `-15` (so none is Tree
or Burning), and one fire of size `n * n` is recorded. -/
theorem all_tree_grid_burns_whole (n : Nat) (s : State) (x y : Int)
    (hgrid : s.grid = allTreeGrid n) (htc : s.treeCount = ((n * n : Nat) : Int))
    (hq : s.fireQueue = []) (hin : InBounds n ⟨x, y⟩) :
    ∃ s', (∀ fuel, n * n + 1 ≤ fuel →
        runFireInstantly n fuel (startFire s x y) = some s') ∧
      s'.isFireActive = false ∧ s'.treeCount = 0 ∧
      (∀ c, InBounds n c → cellAt s'.grid c.x c.y = some (-15)) ∧
      (∀ x' y', cellAt s'.grid x' y' ≠ some STATES.TREE ∧
        cellAt s'.grid x' y' ≠ some STATES.BURNING) ∧
      s'.fireStats = mapSet s.fireStats (n * n) ((mapGet s.fireStats (n * n)).getD 0 + 1) ∧
      s'.totalFires = s.totalFires + 1 := by
  have hwf : WellFormed n s.grid := by
    rw [hgrid]
    exact wellFormed_replicate n _
  have ht : cellAt s.grid x y = some STATES.TREE := by
    rw [hgrid]
    exact cellAt_replicate n _ ⟨x, y⟩ hin
  obtain ⟨s', comp, size, h1, h2, h3, h4, h5, hwf', hact, _, _, h6, h9, h10, h7, h8, h11⟩ :=
    fire_outcome hwf hq ht
  have hall : ∀ c, InBounds n c → cellAt s'.grid c.x c.y = some (-15) := by
    intro c hc
    apply h4 c
    rw [h3 c, hgrid]
    exact inComponent_allTreeGrid n ⟨x, y⟩ hin _ c hc (Nat.le_refl _)
  have hnone : ∀ x' y', cellAt s'.grid x' y' ≠ some STATES.TREE ∧
      cellAt s'.grid x' y' ≠ some STATES.BURNING := by
    intro x' y'
    by_cases hb : InBounds n ⟨x', y'⟩
    · have := hall ⟨x', y'⟩ hb
      simp only at this
      rw [this]
      exact ⟨by decide, by decide⟩
    · have hn : cellAt s'.grid x' y' = none := by
        rw [← Option.not_isSome_iff_eq_none, cellAt_isSome_iff hwf']
        exact hb
      rw [hn]
      exact ⟨by simp, by simp⟩
  have hzero := countTrees_eq_zero s'.grid (fun x' y' => (hnone x' y').1)
  have hcount : countTrees s.grid = n * n := by
    rw [hgrid]
    exact countTrees_allTreeGrid n
  have hsize : size = n * n := by omega
  refine ⟨s', ?_, hact, ?_, hall, hnone, ?_, h11⟩
  · rw [← hcount]
    exact h1
  · rw [h7, htc, hsize]
    omega
  · rw [h8, hsize]

/-- Witness for C5, the instance of the specification: side 8, `ignite(4, 4)`,
one fire of size 64. -/
theorem all_tree_grid_burns_whole_witness :
    ∃ s', (∀ fuel, 8 * 8 + 1 ≤ fuel →
        runFireInstantly 8 fuel (startFire (quietState (allTreeGrid 8) 64) 4 4) = some s') ∧
      s'.treeCount = 0 ∧ s'.fireStats = [(64, 1)] ∧ s'.totalFires = 1 := by
  obtain ⟨s', h1, _, h2, _, _, h3, h4⟩ :=
    all_tree_grid_burns_whole 8 (quietState (allTreeGrid 8) 64) 4 4 rfl rfl rfl
      ⟨by decide, by decide, by decide, by decide⟩
  exact ⟨s', h1, h2, h3, h4⟩

/-- Claim C6. `recordFireStatistics` with `currentFireSize = 0` leaves the state,
hence `fireStats` and `totalFires`, unchanged; with `currentFireSize = k > 0`
it raises the count stored under `k` by exactly one (from 0 when `k` was
absent), leaves the count of every other size unchanged, and raises
`totalFires` by exactly one. -/
theorem recordFireStatistics_counts (s : State) :
    (s.currentFireSize = 0 → recordFireStatistics s = s) ∧
    (0 < s.currentFireSize →
      mapGet (recordFireStatistics s).fireStats s.currentFireSize =
        some ((mapGet s.fireStats s.currentFireSize).getD 0 + 1) ∧
      (∀ k, k ≠ s.currentFireSize →
        mapGet (recordFireStatistics s).fireStats k = mapGet s.fireStats k) ∧
      (recordFireStatistics s).totalFires = s.totalFires + 1) := by
  constructor
  · intro h
    unfold recordFireStatistics
    rw [if_pos h]
  · intro h
    have hne : ¬ s.currentFireSize = 0 := by omega
    unfold recordFireStatistics
    rw [if_neg hne]
    simp only
    refine ⟨?_, ?_, trivial⟩
    · rw [mapGet_mapSet, if_pos rfl]
    · intro k hk
      rw [mapGet_mapSet, if_neg hk]

/-! ## Rounding and the bin edges -/

theorem mathRound_eq (q : ℚ) (z : Int) (h1 : (z : ℚ) ≤ q + 1 / 2) (h2 : q + 1 / 2 < (z : ℚ) + 1) :
    mathRound q = z := by
  unfold mathRound
  rw [Int.floor_eq_iff]
  exact ⟨h1, h2⟩

theorem mathRound_mono {p q : ℚ} (h : p ≤ q) : mathRound p ≤ mathRound q := by
  unfold mathRound
  exact Int.floor_mono (by linarith)

theorem mathRound_gt (q : ℚ) : q - 1 / 2 < (mathRound q : ℚ) := by
  unfold mathRound
  have := Int.lt_floor_add_one (q + 1 / 2)
  linarith

theorem mathRound_one : mathRound 1 = 1 := mathRound_eq 1 1 (by norm_num) (by norm_num)

theorem sorted_le_getLast {α : Type} [Preorder α] {l : List α} {z : α}
    (hs : l.Sorted (fun a b => a ≤ b))
    (hl : l.getLast? = some z) : ∀ a ∈ l, a ≤ z := by
  obtain ⟨ys, rfl⟩ := List.getLast?_eq_some_iff.mp hl
  rw [List.Sorted, List.pairwise_append] at hs
  intro a ha
  rcases List.mem_append.mp ha with h | h
  · exact hs.2.2 a h z (List.mem_singleton_self z)
  · rw [List.mem_singleton.mp h]

theorem binEdgesLoop_mono (binBase : ℚ) (maxFire : Nat) :
    ∀ (fuel : Nat) (e : ℚ) (l : List Int) (r : ℚ × List Int),
      binEdgesLoop binBase maxFire fuel e l = some r →
      ∀ fuel', fuel ≤ fuel' → binEdgesLoop binBase maxFire fuel' e l = some r
  | 0, _, _, _, h, _, _ => by simp [binEdgesLoop] at h
  | fuel + 1, e, l, r, h, fuel', hf => by
    obtain ⟨f, rfl⟩ : ∃ f, fuel' = f + 1 := ⟨fuel' - 1, by omega⟩
    unfold binEdgesLoop at h ⊢
    split
    · rename_i hle
      rw [if_pos hle] at h
      exact binEdgesLoop_mono binBase maxFire fuel _ _ r h f (by omega)
    · rename_i hle
      rw [if_neg hle] at h
      exact h

/-- With `binBase = 3/2` the edge loop ends once `e * (3/2)^j` exceeds `maxFire`. -/
theorem binEdgesLoop_terminates (maxFire : Nat) :
    ∀ (j : Nat) (e : ℚ) (l : List Int), 0 < e → (maxFire : ℚ) < e * (3 / 2) ^ j →
      ∃ r, binEdgesLoop (3 / 2) maxFire (j + 1) e l = some r
  | 0, e, l, _, h => by
    unfold binEdgesLoop
    rw [if_neg (by simpa using h)]
    exact ⟨_, rfl⟩
  | j + 1, e, l, he, h => by
    unfold binEdgesLoop
    split
    · apply binEdgesLoop_terminates maxFire j
      · positivity
      · rw [pow_succ] at h
        linarith
    · exact ⟨_, rfl⟩

theorem binEdgesLoop_terminates_from_one (maxFire : Nat) (l : List Int) :
    ∃ r, binEdgesLoop (3 / 2) maxFire (2 * maxFire + 1) 1 l = some r := by
  apply binEdgesLoop_terminates maxFire (2 * maxFire) 1 l (by norm_num)
  have h := one_add_mul_le_pow (show (-2 : ℚ) ≤ 1 / 2 by norm_num) (2 * maxFire)
  have e : (1 : ℚ) + 1 / 2 = 3 / 2 := by norm_num
  rw [e] at h
  push_cast at h
  linarith

/-- What the edge loop keeps: the edges are non-decreasing, start at 1, and
the last one is the rounded current edge, which is at least 1. -/
theorem binEdgesLoop_inv (maxFire : Nat) :
    ∀ (fuel : Nat) (e : ℚ) (l : List Int) (r : ℚ × List Int),
      binEdgesLoop (3 / 2) maxFire fuel e l = some r →
      1 ≤ e → l.Sorted (fun a b => a ≤ b) → l.head? = some 1 →
      l.getLast? = some (mathRound e) →
      (maxFire : ℚ) < r.1 ∧ 1 ≤ r.1 ∧ r.2.Sorted (fun a b => a ≤ b) ∧ r.2.head? = some 1 ∧
        r.2.getLast? = some (mathRound r.1)
  | 0, _, _, _, h, _, _, _, _ => by simp [binEdgesLoop] at h
  | fuel + 1, e, l, r, h, he, hs, hh, hl => by
    unfold binEdgesLoop at h
    split at h
    · refine binEdgesLoop_inv maxFire fuel _ _ r h (by linarith) ?_ ?_ ?_
      · rw [List.Sorted, List.pairwise_append]
        refine ⟨hs, List.pairwise_singleton _ _, ?_⟩
        intro a ha b hb
        rw [List.mem_singleton] at hb
        subst hb
        have hlast : a ≤ mathRound e := sorted_le_getLast hs hl a ha
        exact le_trans hlast (mathRound_mono (by linarith))
      · cases l with
        | nil => simp at hh
        | cons a l => simpa using hh
      · simp
    · rename_i hgt
      injection h with h
      subst h
      exact ⟨by simpa using hgt, he, hs, hh, hl⟩

/-! ## The loop over the bins -/

theorem countSum_nil (t : FireStats) : countSum t [] = 0 := rfl

theorem countSum_cons (t : FireStats) (s : Nat) (S : List Nat) :
    countSum t (s :: S) = (mapGet t s).getD 0 + countSum t S := rfl

theorem weightSum_cons (t : FireStats) (s : Nat) (S : List Nat) :
    weightSum t (s :: S) = s * (mapGet t s).getD 0 + weightSum t S := rfl

theorem inBin_cons (lo hi : Int) (s : Nat) (S : List Nat) :
    inBin lo hi (s :: S) =
      if lo ≤ (s : Int) ∧ (s : Int) < hi then s :: inBin lo hi S else inBin lo hi S := by
  unfold inBin
  rw [List.filter_cons]
  simp only [decide_eq_true_eq]

theorem mem_inBin {lo hi : Int} {S : List Nat} {s : Nat} :
    s ∈ inBin lo hi S ↔ s ∈ S ∧ lo ≤ (s : Int) ∧ (s : Int) < hi := by
  unfold inBin
  rw [List.mem_filter]
  simp only [decide_eq_true_eq]

theorem inBin_eq_nil {lo hi : Int} {S : List Nat}
    (h : ∀ s ∈ S, ¬ (lo ≤ (s : Int) ∧ (s : Int) < hi)) : inBin lo hi S = [] := by
  unfold inBin
  rw [List.filter_eq_nil_iff]
  intro s hs
  simpa using h s hs

/-- The inner accumulation over a sorted list whose sizes are at least `lo`
sums exactly the sizes of the bin `[lo, binMax)`. -/
theorem accumulateBin_eq (t : FireStats) (lo binMax : Int) :
    ∀ (S : List Nat) (acc : Nat × Nat), S.Sorted (fun a b => a ≤ b) →
      (∀ s ∈ S, lo ≤ (s : Int)) →
      accumulateBin t binMax S acc =
        (acc.1 + countSum t (inBin lo binMax S), acc.2 + weightSum t (inBin lo binMax S))
  | [], acc, _, _ => rfl
  | s :: S, acc, hs, hlo => by
    unfold accumulateBin
    have hs' := List.sorted_cons.mp hs
    split
    · rename_i hlt
      rw [accumulateBin_eq t lo binMax S _ hs'.2 (fun s' h => hlo s' (List.mem_cons_of_mem _ h))]
      rw [inBin_cons, if_pos ⟨hlo s (List.mem_cons_self _ _), hlt⟩, countSum_cons,
        weightSum_cons]
      simp only [Prod.mk.injEq]
      constructor <;> omega
    · rename_i hlt
      rw [inBin_eq_nil]
      · rfl
      · intro s' hs'' hc
        rcases List.mem_cons.mp hs'' with h | h
        · rw [h] at hc
          exact hlt hc.2
        · have := hs'.1 s' h
          omega

theorem inBin_dropWhile (a lo hi : Int) (h : a ≤ lo) :
    ∀ (S : List Nat), inBin lo hi (S.dropWhile (fun (size : Nat) => decide ((size : Int) < a)))
      = inBin lo hi S
  | [] => rfl
  | s :: S => by
    rw [List.dropWhile_cons]
    split
    · rename_i h'
      have h'' : (s : Int) < a := by simpa using h'
      rw [inBin_dropWhile a lo hi h S, inBin_cons, if_neg]
      omega
    · rfl

theorem le_of_mem_dropWhile (lo : Int) :
    ∀ (S : List Nat), S.Sorted (fun a b => a ≤ b) →
      ∀ s ∈ S.dropWhile (fun (size : Nat) => decide ((size : Int) < lo)), lo ≤ (s : Int)
  | [], _, s, h => by cases h
  | s0 :: S, hs, s, h => by
    rw [List.dropWhile_cons] at h
    have hs' := List.sorted_cons.mp hs
    split at h
    · exact le_of_mem_dropWhile lo S hs'.2 s h
    · rename_i hn
      have hn' : ¬ ((s0 : Int) < lo) := by simpa using hn
      rcases List.mem_cons.mp h with h1 | h1
      · rw [h1]; omega
      · have := hs'.1 s h1
        omega

theorem sorted_dropWhile (lo : Int) (S : List Nat) (hs : S.Sorted (fun a b => a ≤ b)) :
    (S.dropWhile (fun (size : Nat) => decide ((size : Int) < lo))).Sorted (fun a b => a ≤ b) :=
  List.Pairwise.sublist (List.dropWhile_sublist _) hs

/-- Splitting a bin at an inner edge splits the counts. -/
theorem countSum_inBin_split (t : FireStats) (lo mid hi : Int) (h1 : lo ≤ mid) (h2 : mid ≤ hi) :
    ∀ (S : List Nat), countSum t (inBin lo mid S) + countSum t (inBin mid hi S)
      = countSum t (inBin lo hi S)
  | [] => rfl
  | s :: S => by
    have ih := countSum_inBin_split t lo mid hi h1 h2 S
    rw [inBin_cons, inBin_cons, inBin_cons]
    by_cases ha : lo ≤ (s : Int) ∧ (s : Int) < mid
    · rw [if_pos ha, if_neg (by omega), if_pos ⟨ha.1, by omega⟩, countSum_cons, countSum_cons]
      omega
    · by_cases hb : mid ≤ (s : Int) ∧ (s : Int) < hi
      · rw [if_neg ha, if_pos hb, if_pos ⟨by omega, hb.2⟩, countSum_cons, countSum_cons]
        omega
      · rw [if_neg ha, if_neg hb, if_neg (by omega)]
        exact ih

/-- In a bin the weighted sum lies between `lo` times and `hi - 1` times the count. -/
theorem weightSum_bounds (t : FireStats) (lo hi : Int) :
    ∀ (B : List Nat), (∀ s ∈ B, lo ≤ (s : Int) ∧ (s : Int) < hi) →
      lo * (countSum t B : Int) ≤ (weightSum t B : Int) ∧
      (weightSum t B : Int) + (countSum t B : Int) ≤ hi * (countSum t B : Int)
  | [], _ => by simp [countSum, weightSum]
  | s :: B, h => by
    have ih := weightSum_bounds t lo hi B (fun s' hs' => h s' (List.mem_cons_of_mem _ hs'))
    have hs := h s (List.mem_cons_self _ _)
    rw [countSum_cons, weightSum_cons]
    push_cast
    have hc : (0 : Int) ≤ ((mapGet t s).getD 0 : Nat) := Int.natCast_nonneg _
    constructor
    · nlinarith [mul_le_mul_of_nonneg_right hs.1 hc]
    · have : ((s : Int) + 1) * ((mapGet t s).getD 0 : Nat) ≤ hi * ((mapGet t s).getD 0 : Nat) :=
        mul_le_mul_of_nonneg_right (by omega) hc
      nlinarith

theorem binLoop_step (t : FireStats) (a b : Int) (rest : List Int) (S : List Nat)
    (acc : List Point) (hab : a < b) (hS : S.Sorted (fun a b => a ≤ b)) :
    binLoop t (a :: b :: rest) S acc =
      if 0 < countSum t (inBin a b S) then
        binLoop t (b :: rest) (S.dropWhile (fun (size : Nat) => decide ((size : Int) < a)))
          (acc ++ [{ x := (weightSum t (inBin a b S) : ℚ) / (countSum t (inBin a b S) : ℚ),
                     y := (countSum t (inBin a b S) : ℚ) / ((b - a : Int) : ℚ) }])
      else
        binLoop t (b :: rest) (S.dropWhile (fun (size : Nat) => decide ((size : Int) < a))) acc := by
  rw [binLoop]
  rw [if_neg (by omega)]
  simp only
  rw [accumulateBin_eq t a b _ (0, 0) (sorted_dropWhile a S hS) (le_of_mem_dropWhile a S hS)]
  rw [inBin_dropWhile a a b (le_refl a)]
  simp only [Nat.zero_add, gt_iff_lt]

theorem binLoop_skip (t : FireStats) (a b : Int) (rest : List Int) (S : List Nat)
    (acc : List Point) (hab : a ≥ b) :
    binLoop t (a :: b :: rest) S acc = binLoop t (b :: rest) S acc := by
  rw [binLoop]
  rw [if_pos hab]

theorem binLoop_single (t : FireStats) (a : Int) (S : List Nat) (acc : List Point) :
    binLoop t [a] S acc = acc := by
  rw [binLoop]
  intro _ _ _ h
  cases h

theorem binLoop_nil (t : FireStats) (S : List Nat) (acc : List Point) :
    binLoop t [] S acc = acc := by
  rw [binLoop]
  intro _ _ _ h
  cases h

/-- What the loop over the bins appends: one point per non-degenerate bin
that holds a recorded size with a positive total count; the point lies in its
bin, its density is positive, the abscissas do not decrease, and density times
width summed over the points is the total count of the sizes between the first
and the last edge. -/
theorem binLoop_spec (t : FireStats) :
    ∀ (E : List Int) (S : List Nat) (acc : List Point),
      E.Sorted (fun a b => a ≤ b) → S.Sorted (fun a b => a ≤ b) →
      ∃ (new : List Point) (bins : List (Int × Int)),
        binLoop t E S acc = acc ++ new ∧
        List.Forall₂ (fun p b => b ∈ E.zip E.tail ∧ b.1 < b.2 ∧ (b.1 : ℚ) ≤ p.x ∧
          p.x < (b.2 : ℚ) ∧ 0 < p.y) new bins ∧
        (∀ lo, E.head? = some lo → ∀ p ∈ new, (lo : ℚ) ≤ p.x) ∧
        new.Pairwise (fun p q => p.x ≤ q.x) ∧
        (∀ lo hi, E.head? = some lo → E.getLast? = some hi →
          (List.zipWith (fun p b => p.y * ((b.2 : ℚ) - (b.1 : ℚ))) new bins).sum
            = (countSum t (inBin lo hi S) : ℚ))
  | [], S, acc, _, _ => by
    refine ⟨[], [], by rw [binLoop_nil, List.append_nil], List.Forall₂.nil, ?_, List.Pairwise.nil, ?_⟩
    · intro lo _ p hp
      cases hp
    · intro lo hi h
      cases h
  | [a], S, acc, _, _ => by
    refine ⟨[], [], by rw [binLoop_single, List.append_nil], List.Forall₂.nil, ?_,
      List.Pairwise.nil, ?_⟩
    · intro lo _ p hp
      cases hp
    · intro lo hi h1 h2
      simp only [List.head?_cons, Option.some.injEq, List.getLast?_singleton] at h1 h2
      subst h1
      subst h2
      rw [inBin_eq_nil]
      · simp [countSum]
      · intro s _
        omega
  | a :: b :: rest, S, acc, hE, hS => by
    have hE' := List.sorted_cons.mp hE
    have hab : a ≤ b := hE'.1 b (List.mem_cons_self _ _)
    by_cases hlt : a < b
    · -- a bin of positive width
      have hS1 := sorted_dropWhile a S hS
      rw [binLoop_step t a b rest S acc hlt hS]
      split
      · rename_i hpos
        obtain ⟨new, bins, h1, h2, h3, h4, h5⟩ := binLoop_spec t (b :: rest)
          (S.dropWhile (fun (size : Nat) => decide ((size : Int) < a)))
          (acc ++ [{ x := (weightSum t (inBin a b S) : ℚ) / (countSum t (inBin a b S) : ℚ),
                     y := (countSum t (inBin a b S) : ℚ) / ((b - a : Int) : ℚ) }]) hE'.2 hS1
        have hbnd := weightSum_bounds t a b (inBin a b S) (fun s hs => (mem_inBin.mp hs).2)
        have hT : (0 : ℚ) < (countSum t (inBin a b S) : ℚ) := by exact_mod_cast hpos
        have hw : (0 : ℚ) < ((b - a : Int) : ℚ) := by
          have : (0 : Int) < b - a := by omega
          exact_mod_cast this
        have hx1 : (a : ℚ) ≤ (weightSum t (inBin a b S) : ℚ) / (countSum t (inBin a b S) : ℚ) := by
          rw [le_div_iff₀ hT]
          exact_mod_cast hbnd.1
        have hx2 : (weightSum t (inBin a b S) : ℚ) / (countSum t (inBin a b S) : ℚ) < (b : ℚ) := by
          rw [div_lt_iff₀ hT]
          have h' : (weightSum t (inBin a b S) : ℚ) + (countSum t (inBin a b S) : ℚ)
              ≤ (b : ℚ) * (countSum t (inBin a b S) : ℚ) := by exact_mod_cast hbnd.2
          linarith
        refine ⟨({ x := (weightSum t (inBin a b S) : ℚ) / (countSum t (inBin a b S) : ℚ),
                   y := (countSum t (inBin a b S) : ℚ) / ((b - a : Int) : ℚ) } : Point) :: new,
          (a, b) :: bins, ?_, ?_, ?_, ?_, ?_⟩
        · rw [h1, List.append_assoc, List.singleton_append]
        · refine List.Forall₂.cons ⟨?_, hlt, hx1, hx2, div_pos hT hw⟩ ?_
          · simp
          · refine List.Forall₂.imp ?_ h2
            intro p q hq
            refine ⟨?_, hq.2⟩
            have := hq.1
            simp only [List.tail_cons] at this ⊢
            rw [List.zip_cons_cons]
            exact List.mem_cons_of_mem _ this
        · intro lo hlo p hp
          simp only [List.head?_cons, Option.some.injEq] at hlo
          subst hlo
          rcases List.mem_cons.mp hp with h | h
          · rw [h]
            exact hx1
          · have := h3 b rfl p h
            have hab' : (a : ℚ) ≤ (b : ℚ) := by exact_mod_cast hab
            linarith
        · rw [List.pairwise_cons]
          refine ⟨?_, h4⟩
          intro p hp
          have := h3 b rfl p hp
          simp only
          linarith
        · intro lo hi hlo hhi
          simp only [List.head?_cons, Option.some.injEq] at hlo
          subst hlo
          have hhi' : (b :: rest).getLast? = some hi := by
            rw [List.getLast?_cons_cons] at hhi
            exact hhi
          have hbhi : b ≤ hi := sorted_le_getLast hE'.2 hhi' b (List.mem_cons_self _ _)
          rw [List.zipWith_cons_cons, List.sum_cons, h5 b hi rfl hhi',
            inBin_dropWhile a b hi hab]
          have hsplit := countSum_inBin_split t a b hi hab hbhi S
          rw [← hsplit]
          have hw' : ((b : ℚ) - (a : ℚ)) ≠ 0 := by
            have := hw
            push_cast at this
            linarith
          have : (countSum t (inBin a b S) : ℚ) / ((b : ℚ) - (a : ℚ)) * ((b : ℚ) - (a : ℚ))
              = (countSum t (inBin a b S) : ℚ) := by
            field_simp
          simp only
          push_cast
          rw [this]
      · rename_i hpos
        obtain ⟨new, bins, h1, h2, h3, h4, h5⟩ := binLoop_spec t (b :: rest)
          (S.dropWhile (fun (size : Nat) => decide ((size : Int) < a))) acc hE'.2 hS1
        refine ⟨new, bins, h1, ?_, ?_, h4, ?_⟩
        · refine List.Forall₂.imp ?_ h2
          intro p q hq
          refine ⟨?_, hq.2⟩
          have := hq.1
          simp only [List.tail_cons] at this ⊢
          rw [List.zip_cons_cons]
          exact List.mem_cons_of_mem _ this
        · intro lo hlo p hp
          simp only [List.head?_cons, Option.some.injEq] at hlo
          subst hlo
          have := h3 b rfl p hp
          have hab' : (a : ℚ) ≤ (b : ℚ) := by exact_mod_cast hab
          linarith
        · intro lo hi hlo hhi
          simp only [List.head?_cons, Option.some.injEq] at hlo
          subst hlo
          have hhi' : (b :: rest).getLast? = some hi := by
            rw [List.getLast?_cons_cons] at hhi
            exact hhi
          have hbhi : b ≤ hi := sorted_le_getLast hE'.2 hhi' b (List.mem_cons_self _ _)
          rw [h5 b hi rfl hhi', inBin_dropWhile a b hi hab]
          have hsplit := countSum_inBin_split t a b hi hab hbhi S
          have hz : countSum t (inBin a b S) = 0 := by omega
          rw [← hsplit, hz, Nat.zero_add]
    · -- a degenerate bin
      have hba : a = b := by omega
      subst hba
      rw [binLoop_skip t a a rest S acc (le_refl a)]
      obtain ⟨new, bins, h1, h2, h3, h4, h5⟩ := binLoop_spec t (a :: rest) S acc hE'.2 hS
      refine ⟨new, bins, h1, ?_, ?_, h4, ?_⟩
      · refine List.Forall₂.imp ?_ h2
        intro p q hq
        refine ⟨?_, hq.2⟩
        have := hq.1
        simp only [List.tail_cons] at this ⊢
        rw [List.zip_cons_cons]
        exact List.mem_cons_of_mem _ this
      · intro lo hlo p hp
        simp only [List.head?_cons, Option.some.injEq] at hlo
        exact h3 lo (by simpa using hlo) p hp
      · intro lo hi hlo hhi
        simp only [List.head?_cons, Option.some.injEq] at hlo
        have hhi' : (a :: rest).getLast? = some hi := by
          rw [List.getLast?_cons_cons] at hhi
          exact hhi
        exact h5 lo hi (by simpa using hlo) hhi'

/-! ## `performLogBinning` as a whole -/

theorem sortedSizes_sorted (t : FireStats) :
    ((mapKeys t).insertionSort (fun a b => a ≤ b)).Sorted (fun a b => a ≤ b) :=
  List.sorted_insertionSort (fun a b : Nat => a ≤ b) (mapKeys t)

theorem sortedSizes_perm (t : FireStats) :
    ((mapKeys t).insertionSort (fun a b => a ≤ b)).Perm (mapKeys t) :=
  List.perm_insertionSort (fun a b : Nat => a ≤ b) (mapKeys t)

theorem sortedSizes_getLast (t : FireStats) (hne : t ≠ []) :
    ∃ maxFire, ((mapKeys t).insertionSort (fun a b => a ≤ b)).getLast? = some maxFire := by
  have hlen : ((mapKeys t).insertionSort (fun a b => a ≤ b)).length = t.length := by
    rw [(sortedSizes_perm t).length_eq]
    simp [mapKeys]
  have hne' : (mapKeys t).insertionSort (fun a b => a ≤ b) ≠ [] := by
    intro h
    rw [h] at hlen
    exact hne (List.length_eq_zero.mp hlen.symm)
  exact ⟨_, List.getLast?_eq_getLast _ hne'⟩

/-- The result of `performLogBinning` once the edge loop has returned. -/
theorem performLogBinning_eq (fuel : Nat) (t : FireStats) (binBase : ℚ) (hne : t ≠ [])
    {maxFire : Nat} {r : ℚ × List Int}
    (hm : ((mapKeys t).insertionSort (fun a b => a ≤ b)).getLast? = some maxFire)
    (hr : binEdgesLoop binBase maxFire fuel 1 [1] = some r) :
    binEdgesOf fuel t binBase = some (r.2 ++ [mathRound (r.1 * binBase)]) ∧
    performLogBinning fuel t binBase =
      some (binLoop t (r.2 ++ [mathRound (r.1 * binBase)])
        ((mapKeys t).insertionSort (fun a b => a ≤ b)) []) := by
  have hlen : ¬ t.length = 0 := fun h => hne (List.length_eq_zero.mp h)
  unfold binEdgesOf performLogBinning
  rw [if_neg hlen]
  simp only [hm, hr]
  exact ⟨trivial, trivial⟩

/-- The edges built for `binBase = 3/2`: the loop returns for every fuel above
`2 * maxFire`, the edges are non-decreasing, start at 1 and end above `maxFire`. -/
theorem edges_spec (maxFire : Nat) :
    ∃ r : ℚ × List Int,
      (∀ fuel, 2 * maxFire + 1 ≤ fuel → binEdgesLoop (3 / 2) maxFire fuel 1 [1] = some r) ∧
      (r.2 ++ [mathRound (r.1 * (3 / 2))]).Sorted (fun a b => a ≤ b) ∧
      (r.2 ++ [mathRound (r.1 * (3 / 2))]).head? = some 1 ∧
      (r.2 ++ [mathRound (r.1 * (3 / 2))]).getLast? = some (mathRound (r.1 * (3 / 2))) ∧
      (maxFire : Int) < mathRound (r.1 * (3 / 2)) := by
  obtain ⟨r, hr⟩ := binEdgesLoop_terminates_from_one maxFire [1]
  obtain ⟨h1, h2, h3, h4, h5⟩ := binEdgesLoop_inv maxFire _ 1 [1] r hr (le_refl 1)
    (List.sorted_singleton 1) rfl (by rw [mathRound_one]; rfl)
  refine ⟨r, fun fuel hf => binEdgesLoop_mono _ _ _ _ _ r hr fuel hf, ?_, ?_, ?_, ?_⟩
  · rw [List.Sorted, List.pairwise_append]
    refine ⟨h3, List.pairwise_singleton _ _, ?_⟩
    intro a ha b hb
    rw [List.mem_singleton] at hb
    subst hb
    exact le_trans (sorted_le_getLast h3 h5 a ha) (mathRound_mono (by linarith))
  · cases hr2 : r.2 with
    | nil => rw [hr2] at h4; simp at h4
    | cons a l => rw [hr2] at h4; simpa using h4
  · simp
  · have hgt := mathRound_gt (r.1 * (3 / 2))
    have : (maxFire : ℚ) < (mathRound (r.1 * (3 / 2)) : ℚ) := by linarith
    exact_mod_cast this

/-- In a non-decreasing list of edges consecutive pairs follow one another. -/
theorem pairwise_zip_tail :
    ∀ (E : List Int), E.Sorted (fun a b => a ≤ b) →
      (E.zip E.tail).Pairwise (fun p q => p.2 ≤ q.1)
  | [], _ => List.Pairwise.nil
  | [_], _ => List.Pairwise.nil
  | a :: b :: rest, h => by
    have h' := List.sorted_cons.mp h
    have ih := pairwise_zip_tail (b :: rest) h'.2
    simp only [List.tail_cons] at ih ⊢
    rw [List.zip_cons_cons, List.pairwise_cons]
    refine ⟨?_, ih⟩
    intro q hq
    obtain ⟨q1, q2⟩ := q
    have hq1 : q1 ∈ b :: rest := (List.of_mem_zip hq).1
    rcases List.mem_cons.mp hq1 with h1 | h1
    · exact le_of_eq h1.symm
    · exact (List.sorted_cons.mp h'.2).1 q1 h1

/-- Every value between the first and the last edge lies in a bin. -/
theorem exists_bin :
    ∀ (E : List Int) (lo hi x : Int), E.head? = some lo → E.getLast? = some hi →
      lo ≤ x → x < hi → ∃ b, b ∈ E.zip E.tail ∧ b.1 ≤ x ∧ x < b.2
  | [], _, _, _, h, _, _, _ => by cases h
  | [a], lo, hi, x, h1, h2, h3, h4 => by
    simp only [List.head?_cons, Option.some.injEq, List.getLast?_singleton] at h1 h2
    omega
  | a :: b :: rest, lo, hi, x, h1, h2, h3, h4 => by
    simp only [List.head?_cons, Option.some.injEq] at h1
    subst h1
    by_cases hx : x < b
    · exact ⟨(a, b), by simp, h3, hx⟩
    · rw [List.getLast?_cons_cons] at h2
      obtain ⟨q, hq, hq1, hq2⟩ := exists_bin (b :: rest) b hi x rfl h2 (by omega) h4
      refine ⟨q, ?_, hq1, hq2⟩
      simp only [List.tail_cons] at hq ⊢
      rw [List.zip_cons_cons]
      exact List.mem_cons_of_mem _ hq

/-- Every value between the first and the last edge lies in exactly one
non-degenerate bin. -/
theorem existsUnique_bin (E : List Int) (hE : E.Sorted (fun a b => a ≤ b)) (lo hi x : Int)
    (h1 : E.head? = some lo) (h2 : E.getLast? = some hi) (h3 : lo ≤ x) (h4 : x < hi) :
    ∃! b, b ∈ E.zip E.tail ∧ b.1 < b.2 ∧ b.1 ≤ x ∧ x < b.2 := by
  obtain ⟨b, hb, hb1, hb2⟩ := exists_bin E lo hi x h1 h2 h3 h4
  refine ⟨b, ⟨hb, by omega, hb1, hb2⟩, ?_⟩
  intro q ⟨hq, _, hq1, hq2⟩
  by_contra hne
  have hpw := (pairwise_zip_tail E hE).imp
    (fun {p q : Int × Int} (h : p.2 ≤ q.1) => (Or.inl h : p.2 ≤ q.1 ∨ q.2 ≤ p.1))
  have hsym : Symmetric (fun p q : Int × Int => p.2 ≤ q.1 ∨ q.2 ≤ p.1) := by
    intro p q h
    exact h.symm
  have := List.Pairwise.forall hsym hpw hq hb hne
  omega

theorem mapGet_cons_ne (k v k' : Nat) (t : FireStats) (h : k' ≠ k) :
    mapGet ((k, v) :: t) k' = mapGet t k' := by
  unfold mapGet
  have : (k' == k) = false := by simpa using h
  simp [List.lookup, this]

theorem mapGet_cons_self (k v : Nat) (t : FireStats) : mapGet ((k, v) :: t) k = some v := by
  unfold mapGet
  simp [List.lookup]

/-- Over the keys of a table without repeated keys the counts add up to the
sum of the stored counts. -/
theorem countSum_keys :
    ∀ (t : FireStats), (mapKeys t).Nodup → countSum t (mapKeys t) = (t.map Prod.snd).sum
  | [], _ => rfl
  | (k, v) :: t, h => by
    have h' : k ∉ mapKeys t ∧ (mapKeys t).Nodup := List.nodup_cons.mp h
    have ih := countSum_keys t h'.2
    have hrest : countSum ((k, v) :: t) (mapKeys t) = countSum t (mapKeys t) := by
      unfold countSum
      congr 1
      apply List.map_congr_left
      intro k' hk'
      rw [mapGet_cons_ne]
      intro hc
      rw [hc] at hk'
      exact h'.1 hk'
    show countSum ((k, v) :: t) (k :: mapKeys t) = v + (t.map Prod.snd).sum
    rw [countSum_cons, mapGet_cons_self, hrest, ih]
    rfl

theorem countSum_perm (t : FireStats) {S S' : List Nat} (h : S.Perm S') :
    countSum t S = countSum t S' := by
  unfold countSum
  exact (h.map _).sum_eq

theorem inBin_eq_self {lo hi : Int} {S : List Nat}
    (h : ∀ s ∈ S, lo ≤ (s : Int) ∧ (s : Int) < hi) : inBin lo hi S = S := by
  unfold inBin
  rw [List.filter_eq_self]
  intro s hs
  simpa using h s hs

theorem mathRound_pow1 : mathRound (3 / 2) = 2 := mathRound_eq _ 2 (by norm_num) (by norm_num)

theorem mathRound_pow2 : mathRound (9 / 4) = 2 := mathRound_eq _ 2 (by norm_num) (by norm_num)

theorem mathRound_pow3 : mathRound (27 / 8) = 3 := mathRound_eq _ 3 (by norm_num) (by norm_num)

theorem mathRound_pow4 : mathRound (81 / 16) = 5 := mathRound_eq _ 5 (by norm_num) (by norm_num)

theorem mathRound_pow5 : mathRound (243 / 32) = 8 := mathRound_eq _ 8 (by norm_num) (by norm_num)

theorem performLogBinning_mono (t : FireStats) (binBase : ℚ) (fuel fuel' : Nat)
    (pts : List Point) (h : performLogBinning fuel t binBase = some pts) (hf : fuel ≤ fuel') :
    performLogBinning fuel' t binBase = some pts := by
  unfold performLogBinning at h ⊢
  split
  · rename_i h0
    rw [if_pos h0] at h
    exact h
  · rename_i h0
    rw [if_neg h0] at h
    simp only at h ⊢
    cases hl : ((mapKeys t).insertionSort (fun a b => a ≤ b)).getLast? with
    | none => rw [hl] at h; exact h
    | some maxFire =>
      rw [hl] at h
      simp only at h ⊢
      cases hr : binEdgesLoop binBase maxFire fuel 1 [1] with
      | none => rw [hr] at h; cases h
      | some r =>
        rw [hr] at h
        rw [binEdgesLoop_mono binBase maxFire fuel 1 [1] r hr fuel' hf]
        exact h

theorem binEdgesOf_mono (t : FireStats) (binBase : ℚ) (fuel fuel' : Nat)
    (E : List Int) (h : binEdgesOf fuel t binBase = some E) (hf : fuel ≤ fuel') :
    binEdgesOf fuel' t binBase = some E := by
  unfold binEdgesOf at h ⊢
  simp only at h ⊢
  cases hl : ((mapKeys t).insertionSort (fun a b => a ≤ b)).getLast? with
  | none => rw [hl] at h; cases h
  | some maxFire =>
    rw [hl] at h
    simp only at h ⊢
    cases hr : binEdgesLoop binBase maxFire fuel 1 [1] with
    | none => rw [hr] at h; cases h
    | some r =>
      rw [hr] at h
      rw [binEdgesLoop_mono binBase maxFire fuel 1 [1] r hr fuel' hf]
      exact h

theorem getD_mapGet_eq_zero :
    ∀ (t : FireStats), (t.map Prod.snd).sum = 0 → ∀ k, (mapGet t k).getD 0 = 0
  | [], _, _ => rfl
  | (k0, v0) :: t, h, k => by
    have h' : v0 + (t.map Prod.snd).sum = 0 := h
    by_cases hk : k = k0
    · subst hk
      rw [mapGet_cons_self]
      show v0 = 0
      omega
    · rw [mapGet_cons_ne _ _ _ _ hk]
      exact getD_mapGet_eq_zero t (by omega) k

theorem countSum_eq_zero (t : FireStats) (h : (t.map Prod.snd).sum = 0) :
    ∀ (S : List Nat), countSum t S = 0
  | [] => rfl
  | s :: S => by
    rw [countSum_cons, getD_mapGet_eq_zero t h s, countSum_eq_zero t h S]

/-- Without any recorded event no bin yields a point. -/
theorem binLoop_no_points (t : FireStats) (h : (t.map Prod.snd).sum = 0) :
    ∀ (E : List Int) (S : List Nat) (acc : List Point), S.Sorted (fun a b => a ≤ b) →
      binLoop t E S acc = acc
  | [], S, acc, _ => binLoop_nil t S acc
  | [a], S, acc, _ => binLoop_single t a S acc
  | a :: b :: rest, S, acc, hS => by
    by_cases hlt : a < b
    · rw [binLoop_step t a b rest S acc hlt hS, countSum_eq_zero t h, if_neg (by omega)]
      exact binLoop_no_points t h (b :: rest) _ acc (sorted_dropWhile a S hS)
    · rw [binLoop_skip t a b rest S acc (by omega)]
      exact binLoop_no_points t h (b :: rest) S acc hS

/-- Counterexample to C7 as stated: the table `{2: 1}` holds one recorded
event (its counts sum to 1), yet `performLogBinning` returns one point. -/
theorem performLogBinning_single_event_nonempty :
    (([(2, 1)] : FireStats).map Prod.snd).sum = 1 ∧
    performLogBinning 3 [(2, 1)] (3 / 2) = some [⟨2, 1⟩] ∧
    ∀ fuel, performLogBinning fuel [(2, 1)] (3 / 2) ≠ some [] := by
  have hs : List.insertionSort (fun a b => a ≤ b) (mapKeys [(2, 1)]) = [2] := by decide
  have g1 : mapGet [(2, 1)] 2 = some 1 := by decide
  have hrun : performLogBinning 3 [(2, 1)] (3 / 2) = some [⟨2, 1⟩] := by
    unfold performLogBinning
    simp only [hs, List.getLast?, List.getLast]
    norm_num [binEdgesLoop, mathRound_pow1, mathRound_pow2, mathRound_pow3, binLoop,
      accumulateBin, g1, List.dropWhile]
  refine ⟨by decide, hrun, ?_⟩
  intro fuel hfuel
  have h1 := performLogBinning_mono _ _ fuel (fuel + 3) _ hfuel (by omega)
  have h2 := performLogBinning_mono _ _ 3 (fuel + 3) _ hrun (by omega)
  rw [h1] at h2
  cases h2

/-- Claim C7, amended. `performLogBinning` returns the empty sequence for the empty
table (whatever the base) and, with `binBase = 1.5`, for every table whose
counts sum to 0. The threshold of two recorded events is kept by `updatePlots`,
which leaves the state (and the plotted data) as it is when `totalFires < 2`. -/
theorem performLogBinning_empty_without_events :
    (∀ (fuel : Nat) (binBase : ℚ), performLogBinning fuel [] binBase = some []) ∧
    (∀ t : FireStats, (t.map Prod.snd).sum = 0 →
      ∃ fuel0, ∀ fuel, fuel0 ≤ fuel → performLogBinning fuel t (3 / 2) = some []) ∧
    (∀ (fuel : Nat) (s : State), s.totalFires < 2 → updatePlots fuel s = some s) := by
  refine ⟨fun fuel binBase => rfl, ?_, ?_⟩
  · intro t hsum
    by_cases hne : t = []
    · subst hne
      exact ⟨0, fun fuel _ => rfl⟩
    · obtain ⟨maxFire, hm⟩ := sortedSizes_getLast t hne
      obtain ⟨r, hr, _⟩ := edges_spec maxFire
      refine ⟨2 * maxFire + 1, ?_⟩
      intro fuel hf
      rw [(performLogBinning_eq fuel t (3 / 2) hne hm (hr fuel hf)).2,
        binLoop_no_points t hsum _ _ [] (sortedSizes_sorted t)]
  · intro fuel s h
    unfold updatePlots
    rw [if_pos h]

/-- Conservation of events with exact quotients. Log-binning with
`binBase = 1.5` loses and double-counts no event: for
a non-empty table without repeated keys whose sizes are positive, the edge loop
returns (for every fuel from `fuel0` on) the edges `E` and the points `pts`;
every recorded size lies in exactly one non-degenerate bin `[b.1, b.2)` of
consecutive edges; each point comes with such a bin (`bins`, in order, the
point lying inside it), and the sum over the points of `y * (binMax - binMin)`
is the total of all counts of the table. -/
theorem performLogBinning_conserves_events (t : FireStats) (hne : t ≠ [])
    (hnd : (mapKeys t).Nodup) (hpos : ∀ k ∈ mapKeys t, 1 ≤ k) :
    ∃ (E : List Int) (pts : List Point) (bins : List (Int × Int)) (fuel0 : Nat),
      (∀ fuel, fuel0 ≤ fuel → binEdgesOf fuel t (3 / 2) = some E ∧
        performLogBinning fuel t (3 / 2) = some pts) ∧
      (∀ k ∈ mapKeys t, ∃! b, b ∈ E.zip E.tail ∧ b.1 < b.2 ∧
        b.1 ≤ (k : Int) ∧ (k : Int) < b.2) ∧
      List.Forall₂ (fun p b => b ∈ E.zip E.tail ∧ b.1 < b.2 ∧ (b.1 : ℚ) ≤ p.x ∧
        p.x < (b.2 : ℚ)) pts bins ∧
      (List.zipWith (fun p b => p.y * ((b.2 : ℚ) - (b.1 : ℚ))) pts bins).sum
        = (((t.map Prod.snd).sum : Nat) : ℚ) := by
  obtain ⟨maxFire, hm⟩ := sortedSizes_getLast t hne
  obtain ⟨r, hr, hsorted, hhead, hlast, hgt⟩ := edges_spec maxFire
  obtain ⟨new, bins, h1, h2, _, _, h5⟩ := binLoop_spec t (r.2 ++ [mathRound (r.1 * (3 / 2))])
    ((mapKeys t).insertionSort (fun a b => a ≤ b)) [] hsorted (sortedSizes_sorted t)
  have hrange : ∀ k ∈ mapKeys t, (1 : Int) ≤ (k : Int) ∧
      (k : Int) < mathRound (r.1 * (3 / 2)) := by
    intro k hk
    have hk' : k ∈ (mapKeys t).insertionSort (fun a b => a ≤ b) :=
      (sortedSizes_perm t).mem_iff.mpr hk
    have hle : k ≤ maxFire := sorted_le_getLast (sortedSizes_sorted t) hm k hk'
    have := hpos k hk
    omega
  refine ⟨r.2 ++ [mathRound (r.1 * (3 / 2))], new, bins, 2 * maxFire + 1, ?_, ?_, ?_, ?_⟩
  · intro fuel hf
    have := performLogBinning_eq fuel t (3 / 2) hne hm (hr fuel hf)
    rw [this.1, this.2, h1, List.nil_append]
    exact ⟨rfl, rfl⟩
  · intro k hk
    exact existsUnique_bin _ hsorted 1 _ k hhead hlast (hrange k hk).1 (hrange k hk).2
  · exact List.Forall₂.imp (fun _ _ h => ⟨h.1, h.2.1, h.2.2.1, h.2.2.2.1⟩) h2
  · rw [h5 1 _ hhead hlast, inBin_eq_self, countSum_perm t (sortedSizes_perm t),
      countSum_keys t hnd]
    intro s hs
    exact hrange s ((sortedSizes_perm t).mem_iff.mp hs)

/-- Conservation with exact quotients on the table `{1: 10, 2: 5, 4: 2}`. -/
theorem performLogBinning_conserves_events_witness :
    ∃ (E : List Int) (pts : List Point) (bins : List (Int × Int)) (fuel0 : Nat),
      (∀ fuel, fuel0 ≤ fuel → binEdgesOf fuel [(1, 10), (2, 5), (4, 2)] (3 / 2) = some E ∧
        performLogBinning fuel [(1, 10), (2, 5), (4, 2)] (3 / 2) = some pts) ∧
      (∀ k ∈ mapKeys [(1, 10), (2, 5), (4, 2)], ∃! b, b ∈ E.zip E.tail ∧ b.1 < b.2 ∧
        b.1 ≤ (k : Int) ∧ (k : Int) < b.2) ∧
      List.Forall₂ (fun p b => b ∈ E.zip E.tail ∧ b.1 < b.2 ∧ (b.1 : ℚ) ≤ p.x ∧
        p.x < (b.2 : ℚ)) pts bins ∧
      (List.zipWith (fun p b => p.y * ((b.2 : ℚ) - (b.1 : ℚ))) pts bins).sum
        = (((([(1, 10), (2, 5), (4, 2)] : FireStats).map Prod.snd).sum : Nat) : ℚ) :=
  performLogBinning_conserves_events [(1, 10), (2, 5), (4, 2)] (by decide) (by decide)
    (by decide)

/-- Claim C9. For every table, with `binBase = 1.5`, `performLogBinning` returns
(for every fuel from `fuel0` on) points whose `x` values do not decrease from
first to last, whose `y` values are strictly positive, and each of which lies
in the bin `[b.1, b.2)` of consecutive edges that produced it. Positive sizes
and counts are not needed for this. -/
theorem performLogBinning_points_ordered (t : FireStats) :
    ∃ (E : List Int) (pts : List Point) (bins : List (Int × Int)) (fuel0 : Nat),
      (∀ fuel, fuel0 ≤ fuel → performLogBinning fuel t (3 / 2) = some pts) ∧
      (t = [] ∨ ∀ fuel, fuel0 ≤ fuel → binEdgesOf fuel t (3 / 2) = some E) ∧
      pts.Pairwise (fun p q => p.x ≤ q.x) ∧
      (∀ p ∈ pts, 0 < p.y) ∧
      List.Forall₂ (fun p b => b ∈ E.zip E.tail ∧ b.1 < b.2 ∧ (b.1 : ℚ) ≤ p.x ∧
        p.x < (b.2 : ℚ)) pts bins := by
  by_cases hne : t = []
  · subst hne
    exact ⟨[], [], [], 0, fun fuel _ => rfl, Or.inl rfl, List.Pairwise.nil,
      fun p hp => absurd hp (List.not_mem_nil p), List.Forall₂.nil⟩
  · obtain ⟨maxFire, hm⟩ := sortedSizes_getLast t hne
    obtain ⟨r, hr, hsorted, hhead, hlast, hgt⟩ := edges_spec maxFire
    obtain ⟨new, bins, h1, h2, _, h4, _⟩ := binLoop_spec t (r.2 ++ [mathRound (r.1 * (3 / 2))])
      ((mapKeys t).insertionSort (fun a b => a ≤ b)) [] hsorted (sortedSizes_sorted t)
    refine ⟨r.2 ++ [mathRound (r.1 * (3 / 2))], new, bins, 2 * maxFire + 1, ?_, Or.inr ?_,
      h4, ?_, ?_⟩
    · intro fuel hf
      rw [(performLogBinning_eq fuel t (3 / 2) hne hm (hr fuel hf)).2, h1, List.nil_append]
    · intro fuel hf
      exact (performLogBinning_eq fuel t (3 / 2) hne hm (hr fuel hf)).1
    · intro p hp
      have hall := List.forall₂_iff_get.mp h2
      obtain ⟨i, hi, rfl⟩ := List.mem_iff_getElem.mp hp
      exact (hall.2 i hi (by rw [← hall.1]; exact hi)).2.2.2.2
    · exact List.Forall₂.imp (fun _ _ h => ⟨h.1, h.2.1, h.2.2.1, h.2.2.2.1⟩) h2

/-- Claim C10. For the table `{1: 10, 2: 5, 4: 2}` and `binBase = 1.5`,
`performLogBinning` builds the edges `[1, 2, 2, 3, 5, 8]` and returns exactly
the points `(1, 10)`, `(2, 5)`, `(4, 1)`, for every fuel from 5 on: the
degenerate bin `[2, 2)` and the empty bin `[5, 8)` give no point, each `x` is
the count-weighted mean size of its bin and each `y` the total count of the bin
divided by its width. -/
theorem performLogBinning_example :
    (∀ fuel, 5 ≤ fuel →
      binEdgesOf fuel [(1, 10), (2, 5), (4, 2)] (3 / 2) = some [1, 2, 2, 3, 5, 8] ∧
      performLogBinning fuel [(1, 10), (2, 5), (4, 2)] (3 / 2)
        = some [⟨1, 10⟩, ⟨2, 5⟩, ⟨4, 1⟩]) ∧
    ([⟨1, 10⟩, ⟨2, 5⟩, ⟨4, 1⟩] : List Point) =
      [⟨(1 * 10 : ℚ) / 10, (10 : ℚ) / (2 - 1)⟩, ⟨(2 * 5 : ℚ) / 5, (5 : ℚ) / (3 - 2)⟩,
        ⟨(4 * 2 : ℚ) / 2, (2 : ℚ) / (5 - 3)⟩] := by
  have hs : List.insertionSort (fun a b => a ≤ b) (mapKeys [(1, 10), (2, 5), (4, 2)])
      = [1, 2, 4] := by decide
  have g1 : mapGet [(1, 10), (2, 5), (4, 2)] 1 = some 10 := by decide
  have g2 : mapGet [(1, 10), (2, 5), (4, 2)] 2 = some 5 := by decide
  have g4 : mapGet [(1, 10), (2, 5), (4, 2)] 4 = some 2 := by decide
  have hedges : binEdgesOf 5 [(1, 10), (2, 5), (4, 2)] (3 / 2) = some [1, 2, 2, 3, 5, 8] := by
    unfold binEdgesOf
    simp only [hs, List.getLast?, List.getLast]
    norm_num [binEdgesLoop, mathRound_pow1, mathRound_pow2, mathRound_pow3, mathRound_pow4,
      mathRound_pow5]
  have hrun : performLogBinning 5 [(1, 10), (2, 5), (4, 2)] (3 / 2)
      = some [⟨1, 10⟩, ⟨2, 5⟩, ⟨4, 1⟩] := by
    unfold performLogBinning
    simp only [hs, List.getLast?, List.getLast]
    norm_num [binEdgesLoop, mathRound_pow1, mathRound_pow2, mathRound_pow3, mathRound_pow4,
      mathRound_pow5, binLoop, accumulateBin, g1, g2, g4, List.dropWhile]
  refine ⟨fun fuel hf => ⟨binEdgesOf_mono _ _ 5 fuel _ hedges hf,
    performLogBinning_mono _ _ 5 fuel _ hrun hf⟩, ?_⟩
  norm_num

/-! ## Worked examples -/

/-- The seed "test" gives these four words. -/
theorem seedableRNG_test :
    seedableRNG [116, 101, 115, 116] =
      { a := 2133112089, b := 1806532473, c := 3444201875, d := 3653473267 } := by
  decide

/-- A fire lit at `(0, 0)` burns the three Trees connected to it and leaves the
fourth, which no Moore neighbour links to them. -/
theorem runFireInstantly_example :
    (runFireInstantly 3 4 (startFire (quietState [[1, 1, 0], [0, 0, 1], [1, 0, 0]] 4) 0 0)).map
        (fun s => (s.grid, s.treeCount, s.fireStats, s.totalFires))
      = some ([[-15, -15, 0], [0, 0, -15], [1, 0, 0]], 1, [(3, 1)], 1) := rfl

/-- One pass of the decay: countdown values move up by one, `-1` becomes vacant. -/
theorem decayRecentlyBurned_example :
    (decayRecentlyBurned 3 (quietState [[-15, -1, 0], [1, 2, -2], [0, 0, 0]] 1)).grid
      = [[-14, 0, 0], [1, 2, -1], [0, 0, 0]] := rfl

/-! ## The generator -/

theorem rngNext_fst (r : RngState) :
    (rngNext r).1 = (((r.a % U32 + r.b % U32 + r.d % U32) % U32 : Nat) : ℚ) / 4294967296 := rfl

theorem rngNext_word_lt (r : RngState) :
    (r.a % U32 + r.b % U32 + r.d % U32) % U32 < 4294967296 :=
  Nat.mod_lt _ (by decide)

theorem rngNext_nonneg (r : RngState) : 0 ≤ (rngNext r).1 := by
  rw [rngNext_fst]
  positivity

theorem rngNext_lt_one (r : RngState) : (rngNext r).1 < 1 := by
  rw [rngNext_fst, div_lt_one (by norm_num)]
  exact_mod_cast rngNext_word_lt r

theorem getRandomInt_fst (max : Nat) (s : State) :
    (getRandomInt max s).1 = Int.floor ((rngNext s.rng).1 * (max : ℚ)) := rfl

theorem getRandomInt_nonneg (max : Nat) (s : State) : 0 ≤ (getRandomInt max s).1 := by
  rw [getRandomInt_fst]
  apply Int.floor_nonneg.mpr
  exact mul_nonneg (rngNext_nonneg _) (Nat.cast_nonneg _)

theorem getRandomInt_lt (max : Nat) (s : State) (h : 0 < max) :
    (getRandomInt max s).1 < (max : Int) := by
  rw [getRandomInt_fst, Int.floor_lt]
  have h1 := rngNext_lt_one s.rng
  have h2 : (0 : ℚ) < (max : ℚ) := by exact_mod_cast h
  push_cast
  nlinarith

/-- Claim C13. For every seed string and every position `k` in the stream, the
generator built by `seedableRNG` yields `t / 2^32` for a natural `t < 2^32`,
hence a value in `[0, 1)`; and for every positive `max`, `getRandomInt(max)`,
the floor of the draw times `max`, is an integer from 0 to `max - 1`. -/
theorem seedableRNG_draws_in_unit_interval :
    (∀ (seedStr : List Nat) (k : Nat), ∃ t : Nat, t < 4294967296 ∧
      (rngNext (Nat.iterate (fun g => (rngNext g).2) k (seedableRNG seedStr))).1
        = (t : ℚ) / 4294967296 ∧
      0 ≤ (rngNext (Nat.iterate (fun g => (rngNext g).2) k (seedableRNG seedStr))).1 ∧
      (rngNext (Nat.iterate (fun g => (rngNext g).2) k (seedableRNG seedStr))).1 < 1) ∧
    (∀ (max : Nat) (s : State), 0 < max →
      (getRandomInt max s).1 = Int.floor ((rng s).1 * (max : ℚ)) ∧
      0 ≤ (getRandomInt max s).1 ∧ (getRandomInt max s).1 < (max : Int)) := by
  constructor
  · intro seedStr k
    exact ⟨_, rngNext_word_lt _, rngNext_fst _, rngNext_nonneg _, rngNext_lt_one _⟩
  · intro max s h
    exact ⟨rfl, getRandomInt_nonneg max s, getRandomInt_lt max s h⟩

/-! ## The growth attempt -/

theorem afterTwoDraws_eq (n : Nat) (s : State) :
    afterTwoDraws n s = { s with rng := (rngNext (rngNext s.rng).2).2 } := rfl

theorem growthAttempt_of_not_vacant (n : Nat) (s : State)
    (h : cellAt s.grid (growthCell n s).x (growthCell n s).y ≠ some STATES.VACANT) :
    growthAttempt n s = afterTwoDraws n s := by
  unfold growthAttempt
  simp only
  rw [if_neg]
  · rfl
  · exact h

theorem growthAttempt_of_vacant (n : Nat) (s : State)
    (h : cellAt s.grid (growthCell n s).x (growthCell n s).y = some STATES.VACANT) :
    growthAttempt n s =
      if (rng (afterTwoDraws n s)).1 < s.probabilityP then
        { (rng (afterTwoDraws n s)).2 with
          grid := setCell s.grid (growthCell n s).x (growthCell n s).y STATES.TREE
          treeCount := s.treeCount + 1 }
      else (rng (afterTwoDraws n s)).2 := by
  unfold growthAttempt
  simp only
  rw [if_pos]
  · rfl
  · exact h

theorem getRandomInt_one (s : State) : (getRandomInt 1 s).1 = 0 := by
  have h1 := getRandomInt_nonneg 1 s
  have h2 := getRandomInt_lt 1 s (by decide)
  omega

/-- Counterexample to C11 as stated: on the one-cell grid whose cell is
decaying, with growth probability 1, the growth attempt selects the decaying
cell and a uniform value would be below `probabilityP`, yet the grid and
`treeCount` stay as they are and only the two coordinate draws are taken. -/
theorem growthAttempt_skips_decaying_cell :
    cellAt decayingDemo.grid (growthCell 1 decayingDemo).x (growthCell 1 decayingDemo).y
      = some (-5) ∧
    (rng (afterTwoDraws 1 decayingDemo)).1 < decayingDemo.probabilityP ∧
    (growthAttempt 1 decayingDemo).grid = [[-5]] ∧
    (growthAttempt 1 decayingDemo).treeCount = 0 ∧
    (growthAttempt 1 decayingDemo).rng = (rngNext (rngNext decayingDemo.rng).2).2 := by
  have hcell : cellAt decayingDemo.grid (growthCell 1 decayingDemo).x
      (growthCell 1 decayingDemo).y = some (-5) := by
    unfold growthCell
    simp only [getRandomInt_one]
    rfl
  have hrun := growthAttempt_of_not_vacant 1 decayingDemo (by rw [hcell]; decide)
  refine ⟨hcell, rngNext_lt_one _, ?_, ?_, ?_⟩
  · rw [hrun]; rfl
  · rw [hrun]; rfl
  · rw [hrun]; rfl

/-- Claim C11, amended. In a growth attempt only a cell holding exactly
`STATES.VACANT` is grown: for it a uniform value is drawn and, when it is below
`probabilityP`, the cell becomes Tree and `treeCount` goes up by one. A
selected cell holding any other value, a decaying countdown value in
particular, is left alone: no uniform value is drawn and the state after the
two coordinate draws is the result. -/
theorem growthAttempt_grows_only_vacant (n : Nat) (s : State) :
    (∀ v, cellAt s.grid (growthCell n s).x (growthCell n s).y = some v → v < 0 →
      growthAttempt n s = { s with rng := (rngNext (rngNext s.rng).2).2 }) ∧
    (cellAt s.grid (growthCell n s).x (growthCell n s).y ≠ some STATES.VACANT →
      growthAttempt n s = { s with rng := (rngNext (rngNext s.rng).2).2 }) ∧
    (cellAt s.grid (growthCell n s).x (growthCell n s).y = some STATES.VACANT →
      (rng (afterTwoDraws n s)).1 < s.probabilityP →
      growthAttempt n s =
        { s with
          rng := (rngNext (rngNext (rngNext s.rng).2).2).2
          grid := setCell s.grid (growthCell n s).x (growthCell n s).y STATES.TREE
          treeCount := s.treeCount + 1 }) ∧
    (cellAt s.grid (growthCell n s).x (growthCell n s).y = some STATES.VACANT →
      ¬ (rng (afterTwoDraws n s)).1 < s.probabilityP →
      growthAttempt n s = { s with rng := (rngNext (rngNext (rngNext s.rng).2).2).2 }) := by
  refine ⟨?_, ?_, ?_, ?_⟩
  · intro v hv hneg
    rw [growthAttempt_of_not_vacant n s, afterTwoDraws_eq]
    rw [hv]
    intro hc
    injection hc with hc
    rw [hc] at hneg
    exact absurd hneg (by decide)
  · intro h
    rw [growthAttempt_of_not_vacant n s h, afterTwoDraws_eq]
  · intro h hr
    rw [growthAttempt_of_vacant n s h, if_pos hr]
    rfl
  · intro h hr
    rw [growthAttempt_of_vacant n s h, if_neg hr]
    rfl

/-! ## The batch of elementary steps -/

theorem growthAttempt_fields (n : Nat) (s : State) :
    (growthAttempt n s).isFireActive = s.isFireActive ∧
    (growthAttempt n s).fireQueue = s.fireQueue ∧
    (growthAttempt n s).N_s = s.N_s ∧
    (growthAttempt n s).currentFireSize = s.currentFireSize ∧
    (growthAttempt n s).fireStats = s.fireStats ∧
    (growthAttempt n s).totalFires = s.totalFires := by
  unfold growthAttempt
  simp only
  split
  · split
    · exact ⟨rfl, rfl, rfl, rfl, rfl, rfl⟩
    · exact ⟨rfl, rfl, rfl, rfl, rfl, rfl⟩
  · exact ⟨rfl, rfl, rfl, rfl, rfl, rfl⟩

theorem ignitionAttempt_of_false (n : Nat) (s : State) (h : (ignitionAttempt n s).2 = false) :
    (ignitionAttempt n s).1.isFireActive = s.isFireActive ∧
    (ignitionAttempt n s).1.fireQueue = s.fireQueue ∧
    (ignitionAttempt n s).1.N_s = s.N_s ∧
    (ignitionAttempt n s).1.currentFireSize = s.currentFireSize ∧
    (ignitionAttempt n s).1.grid = s.grid ∧
    (ignitionAttempt n s).1.treeCount = s.treeCount ∧
    (ignitionAttempt n s).1.fireStats = s.fireStats ∧
    (ignitionAttempt n s).1.totalFires = s.totalFires := by
  unfold ignitionAttempt at h ⊢
  simp only at h ⊢
  split
  · rename_i hc
    rw [if_pos hc] at h
    split
    · rename_i hr
      rw [if_pos hr] at h
      cases h
    · exact ⟨rfl, rfl, rfl, rfl, rfl, rfl, rfl, rfl⟩
  · exact ⟨rfl, rfl, rfl, rfl, rfl, rfl, rfl, rfl⟩

theorem ignitionAttempt_of_true (n : Nat) (s : State) (h : (ignitionAttempt n s).2 = true) :
    ∃ c : Cell, cellAt s.grid c.x c.y = some STATES.TREE ∧
      (ignitionAttempt n s).1.isFireActive = true ∧
      (ignitionAttempt n s).1.currentFireSize = 1 ∧
      (ignitionAttempt n s).1.fireQueue = s.fireQueue ++ [c] ∧
      (ignitionAttempt n s).1.N_s = s.N_s ∧
      (ignitionAttempt n s).1.grid = setCell s.grid c.x c.y STATES.BURNING ∧
      (ignitionAttempt n s).1.treeCount = s.treeCount - 1 ∧
      (ignitionAttempt n s).1.fireStats = s.fireStats ∧
      (ignitionAttempt n s).1.totalFires = s.totalFires := by
  unfold ignitionAttempt at h ⊢
  simp only at h ⊢
  split
  · rename_i hc
    rw [if_pos hc] at h
    split
    · exact ⟨⟨(getRandomInt n s).1, (getRandomInt n (getRandomInt n s).2).1⟩, hc,
        rfl, rfl, rfl, rfl, rfl, rfl, rfl, rfl⟩
    · rename_i hr
      rw [if_neg hr] at h
      cases h
  · rename_i hc
    rw [if_neg hc] at h
    cases h

theorem runSimulationStepsLoop_succ (n k : Nat) (s : State) :
    runSimulationStepsLoop n (k + 1) s =
      if ignites n s = true then (ignitionAttempt n (growthAttempt n s)).1
      else runSimulationStepsLoop n k (quietStep n s) := by
  rw [runSimulationStepsLoop]
  simp only [ignites, quietStep]

/-- The loop of `runSimulationSteps` either runs all its `k` steps without
igniting, or stops at the first step that ignites. -/
theorem runSimulationStepsLoop_spec (n : Nat) :
    ∀ (k : Nat) (s : State),
      ((∀ j, j < k → ignites n (Nat.iterate (quietStep n) j s) = false) ∧
        runSimulationStepsLoop n k s = Nat.iterate (quietStep n) k s) ∨
      (∃ i, i < k ∧ (∀ j, j < i → ignites n (Nat.iterate (quietStep n) j s) = false) ∧
        ignites n (Nat.iterate (quietStep n) i s) = true ∧
        runSimulationStepsLoop n k s =
          (ignitionAttempt n (growthAttempt n (Nat.iterate (quietStep n) i s))).1)
  | 0, s => Or.inl ⟨fun j hj => by omega, rfl⟩
  | k + 1, s => by
    rw [runSimulationStepsLoop_succ]
    by_cases hig : ignites n s = true
    · right
      rw [if_pos hig]
      exact ⟨0, by omega, fun j hj => by omega, hig, rfl⟩
    · rw [if_neg hig]
      have hig' : ignites n s = false := by simpa using hig
      rcases runSimulationStepsLoop_spec n k (quietStep n s) with ⟨h1, h2⟩ | ⟨i, hi, h1, h2, h3⟩
      · left
        refine ⟨?_, ?_⟩
        · intro j hj
          cases j with
          | zero => exact hig'
          | succ j =>
            rw [Function.iterate_succ_apply]
            exact h1 j (by omega)
        · rw [Function.iterate_succ_apply]
          exact h2
      · right
        refine ⟨i + 1, by omega, ?_, ?_, ?_⟩
        · intro j hj
          cases j with
          | zero => exact hig'
          | succ j =>
            rw [Function.iterate_succ_apply]
            exact h1 j (by omega)
        · rw [Function.iterate_succ_apply]
          exact h2
        · rw [Function.iterate_succ_apply]
          exact h3

/-- Steps that do not ignite leave the fire flags alone and count in `N_s`. -/
theorem iterate_quietStep_fields (n : Nat) (s : State) :
    ∀ (k : Nat), (∀ j, j < k → ignites n (Nat.iterate (quietStep n) j s) = false) →
      (Nat.iterate (quietStep n) k s).isFireActive = s.isFireActive ∧
      (Nat.iterate (quietStep n) k s).fireQueue = s.fireQueue ∧
      (Nat.iterate (quietStep n) k s).N_s = s.N_s + k ∧
      (Nat.iterate (quietStep n) k s).currentFireSize = s.currentFireSize
  | 0, _ => ⟨rfl, rfl, rfl, rfl⟩
  | k + 1, h => by
    obtain ⟨h1, h2, h3, h4⟩ := iterate_quietStep_fields n s k (fun j hj => h j (by omega))
    have hk := h k (by omega)
    rw [Function.iterate_succ_apply']
    obtain ⟨g1, g2, g3, g4, _, _⟩ := growthAttempt_fields n (Nat.iterate (quietStep n) k s)
    obtain ⟨i1, i2, i3, i4, _, _, _, _⟩ := ignitionAttempt_of_false n _ hk
    refine ⟨?_, ?_, ?_, ?_⟩
    · show (ignitionAttempt n (growthAttempt n _)).1.isFireActive = _
      rw [i1, g1, h1]
    · show (ignitionAttempt n (growthAttempt n _)).1.fireQueue = _
      rw [i2, g2, h2]
    · show (ignitionAttempt n (growthAttempt n _)).1.N_s + 1 = _
      rw [i3, g3, h3]
      omega
    · show (ignitionAttempt n (growthAttempt n _)).1.currentFireSize = _
      rw [i4, g4, h4]

/-- Claim C12. Called with no fire active and an empty frontier, one call of
`runSimulationSteps` (for every `stepsPerFrame`) either ignites nothing: every
step is a growth attempt followed by an ignition attempt that fails, `N_s`
grows by `stepsPerFrame` and no fire is active afterwards; or it ignites at
its step `i` (0-based, `i < stepsPerFrame`): the result is the state right
after the ignition attempt of that step (no further step is run, no further
draw taken), `N_s` has grown by `i`, a fire is active with
`currentFireSize = 1`, and the ignited cell, a Tree after the growth attempt
of the step and Burning afterwards, is the only frontier cell. -/
theorem runSimulationSteps_batch (n : Nat) (s : State) (hact : s.isFireActive = false)
    (hq : s.fireQueue = []) :
    ((∀ j, j < s.stepsPerFrame → ignites n (Nat.iterate (quietStep n) j s) = false) ∧
      runSimulationSteps n s = Nat.iterate (quietStep n) s.stepsPerFrame s ∧
      (runSimulationSteps n s).N_s = s.N_s + s.stepsPerFrame ∧
      (runSimulationSteps n s).isFireActive = false) ∨
    (∃ i, i < s.stepsPerFrame ∧
      (∀ j, j < i → ignites n (Nat.iterate (quietStep n) j s) = false) ∧
      ignites n (Nat.iterate (quietStep n) i s) = true ∧
      runSimulationSteps n s =
        (ignitionAttempt n (growthAttempt n (Nat.iterate (quietStep n) i s))).1 ∧
      (runSimulationSteps n s).N_s = s.N_s + i ∧
      (runSimulationSteps n s).isFireActive = true ∧
      (runSimulationSteps n s).currentFireSize = 1 ∧
      ∃ c : Cell, (runSimulationSteps n s).fireQueue = [c] ∧
        cellAt (growthAttempt n (Nat.iterate (quietStep n) i s)).grid c.x c.y
          = some STATES.TREE ∧
        cellAt (runSimulationSteps n s).grid c.x c.y = some STATES.BURNING) := by
  unfold runSimulationSteps
  rcases runSimulationStepsLoop_spec n s.stepsPerFrame s with ⟨h1, h2⟩ | ⟨i, hi, h1, h2, h3⟩
  · left
    obtain ⟨f1, _, f3, _⟩ := iterate_quietStep_fields n s s.stepsPerFrame h1
    refine ⟨h1, h2, ?_, ?_⟩
    · rw [h2, f3]
    · rw [h2, f1, hact]
  · right
    obtain ⟨f1, f2, f3, _⟩ := iterate_quietStep_fields n s i h1
    obtain ⟨g1, g2, g3, _, _, _⟩ := growthAttempt_fields n (Nat.iterate (quietStep n) i s)
    obtain ⟨c, hc, e1, e2, e3, e4, e5, _, _, _⟩ := ignitionAttempt_of_true n _ h2
    refine ⟨i, hi, h1, h2, h3, ?_, ?_, ?_, c, ?_, hc, ?_⟩
    · rw [h3, e4, g3, f3]
    · rw [h3, e1]
    · rw [h3, e2]
    · rw [h3, e3, g2, f2, hq]
      rfl
    · rw [h3, e5]
      exact cellAt_setCell_self _ hc

/-- Witness for C12: one step on a one-cell grid, taken from a quiet state. -/
theorem runSimulationSteps_batch_witness :
    ((∀ j, j < (quietState [[0]] 0).stepsPerFrame →
        ignites 1 (Nat.iterate (quietStep 1) j (quietState [[0]] 0)) = false) ∧
      (runSimulationSteps 1 (quietState [[0]] 0)).N_s = 0 + 1) ∨
    (∃ i, i < (quietState [[0]] 0).stepsPerFrame ∧
      (runSimulationSteps 1 (quietState [[0]] 0)).N_s = 0 + i ∧
      (runSimulationSteps 1 (quietState [[0]] 0)).currentFireSize = 1) := by
  rcases runSimulationSteps_batch 1 (quietState [[0]] 0) rfl rfl with
    ⟨h1, _, h3, _⟩ | ⟨i, hi, _, _, _, h5, _, h7, _⟩
  · exact Or.inl ⟨h1, h3⟩
  · exact Or.inr ⟨i, hi, h5, h7⟩

/-! ## Decay of burned cells, cell by cell -/

/-- A loop whose body updates the cells it hits, each cell being hit by at
most one element of the list, updates exactly the cells hit. -/
theorem foldl_pointwise {α : Type} (f : Grid → α → Grid) (hit : α → Int → Int → Prop)
    (upd : Option Int → Option Int)
    (hf : ∀ g a x y, (hit a x y → cellAt (f g a) x y = upd (cellAt g x y)) ∧
      (¬ hit a x y → cellAt (f g a) x y = cellAt g x y)) :
    ∀ (l : List α), l.Pairwise (fun a b => ∀ x y, ¬ (hit a x y ∧ hit b x y)) →
      ∀ g x y, ((∃ a ∈ l, hit a x y) → cellAt (l.foldl f g) x y = upd (cellAt g x y)) ∧
        ((¬ ∃ a ∈ l, hit a x y) → cellAt (l.foldl f g) x y = cellAt g x y)
  | [], _, g, x, y => by simp
  | a :: l, hp, g, x, y => by
    have hp' := List.pairwise_cons.mp hp
    have ih := foldl_pointwise f hit upd hf l hp'.2 (f g a) x y
    rw [List.foldl_cons]
    constructor
    · rintro ⟨b, hb, hbx⟩
      rcases List.mem_cons.mp hb with h | h
      · rw [h] at hbx
        have hno : ¬ ∃ c ∈ l, hit c x y := by
          rintro ⟨c, hc, hcx⟩
          exact hp'.1 c hc x y ⟨hbx, hcx⟩
        rw [ih.2 hno, (hf g a x y).1 hbx]
      · have hna : ¬ hit a x y := fun ha => hp'.1 b h x y ⟨ha, hbx⟩
        rw [ih.1 ⟨b, h, hbx⟩, (hf g a x y).2 hna]
    · intro hno
      have hna : ¬ hit a x y := fun ha => hno ⟨a, List.mem_cons_self _ _, ha⟩
      have hnl : ¬ ∃ c ∈ l, hit c x y := by
        rintro ⟨c, hc, hcx⟩
        exact hno ⟨c, List.mem_cons_of_mem _ hc, hcx⟩
      rw [ih.2 hnl, (hf g a x y).2 hna]

theorem decayCell_cellAt_self (g : Grid) (x y : Int) :
    cellAt (decayCell y g x) x y = (cellAt g x y).map decayValue := by
  unfold decayCell
  cases hv : cellAt g x y with
  | none =>
    simp only
    rw [hv]
    rfl
  | some v =>
    simp only
    by_cases hle : v ≤ RECENTLY_BURNED_STATE
    · rw [if_pos hle]
      have h1 := cellAt_setCell_self (v + 1) hv
      by_cases hgt : v + 1 > RECENTLY_BURNED_STATE
      · rw [if_pos hgt, cellAt_setCell_self _ h1]
        simp only [Option.map_some', decayValue, if_pos hle, if_pos hgt]
      · rw [if_neg hgt, h1]
        simp only [Option.map_some', decayValue, if_pos hle, if_neg hgt]
    · rw [if_neg hle, hv]
      simp only [Option.map_some', decayValue, if_neg hle]

theorem decayCell_cellAt_ne (g : Grid) (x y x' y' : Int) (h : ¬ (x' = x ∧ y' = y)) :
    cellAt (decayCell y g x) x' y' = cellAt g x' y' := by
  unfold decayCell
  cases hv : cellAt g x y with
  | none => rfl
  | some v =>
    simp only
    split
    · split
      · rw [cellAt_setCell_ne _ h, cellAt_setCell_ne _ h]
      · rw [cellAt_setCell_ne _ h]
    · rfl

/-- One pass of `decayRecentlyBurned` over an `n` by `n` grid applies
`decayValue` to every cell. -/
theorem decayRecentlyBurned_cellAt (n : Nat) (s : State) (hwf : WellFormed n s.grid)
    (x y : Int) :
    cellAt (decayRecentlyBurned n s).grid x y = (cellAt s.grid x y).map decayValue := by
  have hrow := fun (yy : Nat) => foldl_pointwise
      (fun (g : Grid) (xx : Nat) => decayCell (yy : Int) g (xx : Int))
      (fun xx x' y' => x' = (xx : Int) ∧ y' = (yy : Int)) (Option.map decayValue)
      (fun g xx x' y' => ⟨fun h => by rw [h.1, h.2]; exact decayCell_cellAt_self g xx yy,
        fun h => decayCell_cellAt_ne g xx yy x' y' h⟩) (List.range n)
      (by
        refine List.Pairwise.imp_of_mem ?_ (List.nodup_range n)
        intro a b _ _ hab x0 y0 ⟨h1, h2⟩
        apply hab
        have := h1.1.symm.trans h2.1
        exact_mod_cast this)
  have hall := foldl_pointwise
    (fun (g : Grid) (yy : Nat) =>
      (List.range n).foldl (fun (g : Grid) (xx : Nat) => decayCell (yy : Int) g (xx : Int)) g)
    (fun yy x' y' => ∃ xx ∈ List.range n, x' = (xx : Int) ∧ y' = (yy : Int))
    (Option.map decayValue) (fun g yy x' y' => hrow yy g x' y') (List.range n)
    (by
      refine List.Pairwise.imp_of_mem ?_ (List.nodup_range n)
      intro a b _ _ hab x0 y0 ⟨⟨_, _, _, h1⟩, ⟨_, _, _, h2⟩⟩
      apply hab
      have := h1.symm.trans h2
      exact_mod_cast this)
    s.grid x y
  show cellAt ((List.range n).foldl _ s.grid) x y = _
  by_cases hin : 0 ≤ x ∧ x < (n : Int) ∧ 0 ≤ y ∧ y < (n : Int)
  · apply hall.1
    exact ⟨y.toNat, List.mem_range.mpr (by omega), x.toNat, List.mem_range.mpr (by omega),
      by omega, by omega⟩
  · have hnone : cellAt s.grid x y = none := by
      rw [← Option.not_isSome_iff_eq_none, cellAt_isSome_iff hwf]
      exact hin
    rw [hall.2, hnone]
    · rfl
    · rintro ⟨yy, hyy, xx, hxx, h1, h2⟩
      apply hin
      have := List.mem_range.mp hyy
      have := List.mem_range.mp hxx
      omega

theorem wellFormed_decayRecentlyBurned (n : Nat) (s : State) (hwf : WellFormed n s.grid) :
    WellFormed n (decayRecentlyBurned n s).grid :=
  (treeInv_decayRecentlyBurned
    (s := { s with treeCount := (countTrees s.grid : Int), fireQueue := [] })
    ⟨hwf, rfl, fun c hc => by cases hc⟩).1

theorem decayValue_of_le (v : Int) (h : v ≤ -2) : decayValue v = v + 1 := by
  unfold decayValue RECENTLY_BURNED_STATE
  rw [if_pos (by omega), if_neg (by omega)]

theorem decayValue_neg_one : decayValue (-1) = STATES.VACANT := by
  decide

theorem decayValue_of_nonneg (v : Int) (h : 0 ≤ v) : decayValue v = v := by
  unfold decayValue RECENTLY_BURNED_STATE
  rw [if_neg (by omega)]

theorem iterate_decay_wellFormed (n : Nat) (t : State) (hwf : WellFormed n t.grid) :
    ∀ k, WellFormed n (Nat.iterate (decayRecentlyBurned n) k t).grid
  | 0 => hwf
  | k + 1 => by
    rw [Function.iterate_succ_apply']
    exact wellFormed_decayRecentlyBurned n _ (iterate_decay_wellFormed n t hwf k)

theorem iterate_decay_countdown (n : Nat) (t : State) (hwf : WellFormed n t.grid) (x y : Int)
    (h : cellAt t.grid x y = some (-15)) :
    ∀ k, k < 15 →
      cellAt (Nat.iterate (decayRecentlyBurned n) k t).grid x y = some (-15 + (k : Int))
  | 0, _ => by simpa using h
  | k + 1, hk => by
    have ih := iterate_decay_countdown n t hwf x y h k (by omega)
    rw [Function.iterate_succ_apply', decayRecentlyBurned_cellAt n _
      (iterate_decay_wellFormed n t hwf k), ih]
    simp only [Option.map_some']
    rw [decayValue_of_le _ (by omega)]
    push_cast
    congr 1
    omega

theorem burnCell_wellFormed_and_value (n : Nat) (s : State) (c : Cell)
    (hwf : WellFormed n s.grid) (hc : InBounds n c) :
    WellFormed n (burnCell n s c).grid ∧
    cellAt (burnCell n s c).grid c.x c.y
      = some (RECENTLY_BURNED_STATE - BURN_DECAY_FRAMES + 1) := by
  refine burnCell_ind n c (fun t => WellFormed n t.grid)
    (fun t => WellFormed n t.grid ∧
      cellAt t.grid c.x c.y = some (RECENTLY_BURNED_STATE - BURN_DECAY_FRAMES + 1))
    (fun t q _ _ _ ht => wellFormed_setCell _ _ _ ht) ?_ s hwf
  intro t _ ht
  refine ⟨wellFormed_setCell _ _ _ ht, ?_⟩
  have hsome : (cellAt t.grid c.x c.y).isSome := (cellAt_isSome_iff ht c.x c.y).mpr hc
  obtain ⟨old, hold⟩ := Option.isSome_iff_exists.mp hsome
  exact cellAt_setCell_self _ hold

/-- Claim C19. A frontier cell processed by propagation is given the value
`RECENTLY_BURNED_STATE - BURN_DECAY_FRAMES + 1 = -15`; a cell holding `-15`
then takes exactly 15 passes of `decayRecentlyBurned` to become vacant: after
`k < 15` passes its value is `-15 + k` and after the 15th pass it is
`STATES.VACANT`. A pass changes no Vacant, Tree or Burning cell. -/
theorem decay_takes_fifteen_passes (n : Nat) (s : State) (c : Cell)
    (hwf : WellFormed n s.grid) (hc : InBounds n c) :
    cellAt (burnCell n s c).grid c.x c.y
      = some (RECENTLY_BURNED_STATE - BURN_DECAY_FRAMES + 1) ∧
    RECENTLY_BURNED_STATE - BURN_DECAY_FRAMES + 1 = -15 ∧
    (cellAt s.grid c.x c.y = some (-15) →
      (∀ k, k < 15 →
        cellAt (Nat.iterate (decayRecentlyBurned n) k s).grid c.x c.y
          = some (-15 + (k : Int))) ∧
      cellAt (Nat.iterate (decayRecentlyBurned n) 15 s).grid c.x c.y = some STATES.VACANT) ∧
    (∀ v, cellAt s.grid c.x c.y = some v →
      v = STATES.VACANT ∨ v = STATES.TREE ∨ v = STATES.BURNING →
      cellAt (decayRecentlyBurned n s).grid c.x c.y = some v) := by
  refine ⟨(burnCell_wellFormed_and_value n s c hwf hc).2, by decide, ?_, ?_⟩
  · intro h
    refine ⟨iterate_decay_countdown n s hwf c.x c.y h, ?_⟩
    have h14 := iterate_decay_countdown n s hwf c.x c.y h 14 (by omega)
    rw [Function.iterate_succ_apply', decayRecentlyBurned_cellAt n _
      (iterate_decay_wellFormed n s hwf 14), h14]
    simp only [Option.map_some']
    exact congrArg some decayValue_neg_one
  · intro v hv hcases
    rw [decayRecentlyBurned_cellAt n s hwf, hv]
    simp only [Option.map_some']
    rw [decayValue_of_nonneg]
    rcases hcases with h | h | h <;> rw [h] <;> decide

/-- Witness for C19: a burnt-out cell on a grid of side 2. -/
theorem decay_takes_fifteen_passes_witness :
    cellAt (burnCell 2 (quietState [[-15, 1], [0, 2]] 1) ⟨0, 0⟩).grid 0 0
      = some (RECENTLY_BURNED_STATE - BURN_DECAY_FRAMES + 1) ∧
    (cellAt (quietState [[-15, 1], [0, 2]] 1).grid 0 0 = some (-15) →
      (∀ k, k < 15 →
        cellAt (Nat.iterate (decayRecentlyBurned 2) k (quietState [[-15, 1], [0, 2]] 1)).grid
          0 0 = some (-15 + (k : Int))) ∧
      cellAt (Nat.iterate (decayRecentlyBurned 2) 15 (quietState [[-15, 1], [0, 2]] 1)).grid
        0 0 = some STATES.VACANT) := by
  obtain ⟨h1, _, h3, _⟩ := decay_takes_fifteen_passes 2 (quietState [[-15, 1], [0, 2]] 1)
    ⟨0, 0⟩ ⟨rfl, by decide⟩ ⟨by decide, by decide, by decide, by decide⟩
  exact ⟨h1, h3⟩

/-! ## Rendering -/

theorem advanceRng_zero (s : State) : advanceRng 0 s = s := rfl

theorem advanceRng_advanceRng (a b : Nat) (s : State) :
    advanceRng a (advanceRng b s) = advanceRng (b + a) s := by
  unfold advanceRng
  simp only
  rw [Nat.add_comm b a, Function.iterate_add_apply]

theorem advanceRng_grid (k : Nat) (s : State) : (advanceRng k s).grid = s.grid := rfl

theorem drawPixel_fst (acc : State × List Pixel) (state : Option Int) :
    (drawPixel acc state).1 =
      advanceRng (if state = some STATES.BURNING then 1 else 0) acc.1 := by
  unfold drawPixel
  cases state with
  | none => rfl
  | some v =>
    simp only
    by_cases hb : v = STATES.BURNING
    · rw [if_pos hb, if_pos (by rw [hb])]
      rfl
    · have hne : ¬ (some v = some STATES.BURNING) := fun h => hb (Option.some.inj h)
      have h0 : (if some v = some STATES.BURNING then 1 else 0) = 0 := if_neg hne
      rw [if_neg hb, h0]
      split
      · rfl
      · split <;> rfl

/-- Drawing a row takes one draw for each of its Burning cells. -/
theorem drawRow_fst (y : Nat) :
    ∀ (xs : List Nat) (acc : State × List Pixel),
      (xs.foldl (fun (acc : State × List Pixel) (x : Nat) =>
          drawPixel acc (cellAt acc.1.grid (x : Int) (y : Int))) acc).1
        = advanceRng (burningInRow acc.1.grid y xs) acc.1
  | [], acc => rfl
  | x :: xs, acc => by
    rw [List.foldl_cons, drawRow_fst y xs, drawPixel_fst, advanceRng_grid,
      advanceRng_advanceRng]
    congr 1
    unfold burningInRow
    rw [List.filter_cons]
    by_cases hb : cellAt acc.1.grid (x : Int) (y : Int) = some STATES.BURNING
    · simp [hb]
      omega
    · simp [hb]

/-- Drawing the rows of a list takes one draw for each of their Burning cells. -/
theorem drawRows_fst (n : Nat) :
    ∀ (ys : List Nat) (acc : State × List Pixel),
      (ys.foldl (fun (acc : State × List Pixel) (y : Nat) =>
          (List.range n).foldl (fun (acc : State × List Pixel) (x : Nat) =>
            drawPixel acc (cellAt acc.1.grid (x : Int) (y : Int))) acc) acc).1
        = advanceRng ((ys.map (fun y => burningInRow acc.1.grid y (List.range n))).sum) acc.1
  | [], acc => rfl
  | y :: ys, acc => by
    rw [List.foldl_cons, drawRows_fst n ys, drawRow_fst, advanceRng_grid,
      advanceRng_advanceRng, List.map_cons, List.sum_cons]

theorem drawGrid_fst (n : Nat) (s : State) :
    (drawGrid n s).1 = advanceRng (burningCount n s.grid) s :=
  drawRows_fst n (List.range n) (s, [])

/-- Counterexample to C20 as stated: with one Burning cell on the grid,
`drawGrid` advances the generator, and the value the stepper draws next is not
the one it would have drawn without the rendering. -/
theorem drawGrid_advances_generator :
    (drawGrid 1 burningDemo).1.rng = (rngNext burningDemo.rng).2 ∧
    (drawGrid 1 burningDemo).1.rng ≠ burningDemo.rng ∧
    (rng (drawGrid 1 burningDemo).1).1 ≠ (rng burningDemo).1 := by
  have h1 : (drawGrid 1 burningDemo).1.rng = (rngNext burningDemo.rng).2 := by
    rw [drawGrid_fst]
    rfl
  refine ⟨h1, ?_, ?_⟩
  · rw [h1]
    decide
  · show (rngNext (drawGrid 1 burningDemo).1.rng).1 ≠ (rngNext burningDemo.rng).1
    rw [h1, rngNext_fst, rngNext_fst]
    intro hc
    have hc' := (div_left_inj' (by norm_num : (4294967296 : ℚ) ≠ 0)).mp hc
    have hc'' : ((rngNext burningDemo.rng).2.a % U32 + (rngNext burningDemo.rng).2.b % U32
        + (rngNext burningDemo.rng).2.d % U32) % U32
        = (burningDemo.rng.a % U32 + burningDemo.rng.b % U32 + burningDemo.rng.d % U32) % U32 := by
      exact_mod_cast hc'
    revert hc''
    decide

/-- Claim C20, amended. `drawGrid` leaves the grid, the counters and the
statistics table unchanged, and every other variable but the generator: the
state afterwards is the state before with the generator advanced by one draw
for each Burning cell of the grid (the flicker `getRandomInt(105)`). The
generator is unchanged when no cell is Burning. -/
theorem drawGrid_only_advances_generator (n : Nat) (s : State) :
    (drawGrid n s).1 =
      { s with rng := Nat.iterate (fun g => (rngNext g).2) (burningCount n s.grid) s.rng } ∧
    (drawGrid n s).1.grid = s.grid ∧ (drawGrid n s).1.N_s = s.N_s ∧
    (drawGrid n s).1.treeCount = s.treeCount ∧
    (drawGrid n s).1.totalFires = s.totalFires ∧
    (drawGrid n s).1.currentFireSize = s.currentFireSize ∧
    (drawGrid n s).1.fireStats = s.fireStats ∧
    (burningCount n s.grid = 0 → (drawGrid n s).1 = s) := by
  have h := drawGrid_fst n s
  refine ⟨h, ?_, ?_, ?_, ?_, ?_, ?_, ?_⟩
  all_goals first
    | (rw [h]; rfl)
    | (intro h0; rw [h, h0]; rfl)

/-! ## Configuration -/

theorem initializeSimulation_f_s_le (n : Nat) (ui : Controls) (s0 : State) :
    (initializeSimulation n ui s0).f_s ≤ (initializeSimulation n ui s0).probabilityP / 10 := by
  show (if ui.fSlider > ui.pSlider / 10 then ui.pSlider / 10 else ui.fSlider) ≤ ui.pSlider / 10
  split
  · exact le_refl _
  · rename_i h
    exact not_lt.mp h

theorem pSliderOnInput_f_s_le (value : ℚ) (sp : State × Page) :
    (pSliderOnInput value sp).1.f_s ≤ (pSliderOnInput value sp).1.probabilityP / 10 ∧
    (pSliderOnInput value sp).2.fSliderMax = (pSliderOnInput value sp).1.probabilityP / 10 := by
  unfold pSliderOnInput
  simp only
  split
  · exact ⟨le_refl _, rfl⟩
  · rename_i h
    exact ⟨not_lt.mp h, rfl⟩

/-- Counterexample to C14 as stated: after initialisation with growth
probability 0.01, the handler of the ignition slider run with the value 0.5
leaves `f_s = 0.5`, above `probabilityP / 10 = 0.001`. -/
theorem fSliderOnInput_can_exceed_bound :
    (fSliderOnInput (1 / 2)
        (initializeSimulation 3 demoControls (quietState [] 0), initializePage demoControls)).1.f_s
      = 1 / 2 ∧
    (fSliderOnInput (1 / 2)
        (initializeSimulation 3 demoControls (quietState [] 0),
          initializePage demoControls)).1.probabilityP / 10 = 1 / 1000 ∧
    ¬ (fSliderOnInput (1 / 2)
        (initializeSimulation 3 demoControls (quietState [] 0), initializePage demoControls)).1.f_s
      ≤ (fSliderOnInput (1 / 2)
        (initializeSimulation 3 demoControls (quietState [] 0),
          initializePage demoControls)).1.probabilityP / 10 := by
  have h1 : (fSliderOnInput (1 / 2)
      (initializeSimulation 3 demoControls (quietState [] 0), initializePage demoControls)).1.f_s
      = 1 / 2 := rfl
  have h2 : (fSliderOnInput (1 / 2)
      (initializeSimulation 3 demoControls (quietState [] 0),
        initializePage demoControls)).1.probabilityP = 1 / 100 := rfl
  rw [h1, h2]
  norm_num

/-- Claim C14, amended. After `initializeSimulation`, after every run of the
handler of the growth slider with any value, and after every run of the handler
of the ignition slider with a value up to the `max` attribute of that slider,
`f_s <= probabilityP / 10` holds; the script keeps that attribute at
`probabilityP / 10`. -/
theorem f_s_le_tenth_of_probabilityP (n : Nat) (sp : State × Page)
    (h : ConfigReachable n sp) :
    sp.1.f_s ≤ sp.1.probabilityP / 10 ∧ sp.2.fSliderMax = sp.1.probabilityP / 10 := by
  induction h with
  | init ui s0 => exact ⟨initializeSimulation_f_s_le n ui s0, rfl⟩
  | pInput value _ _ => exact pSliderOnInput_f_s_le value _
  | fInput value _ hle ih =>
    refine ⟨?_, ih.2⟩
    exact le_of_le_of_eq hle ih.2

/-- Witness for C14: initialisation, the growth slider moved to 0.02, then the
ignition slider moved to 0.001. -/
theorem f_s_le_tenth_of_probabilityP_witness :
    (fSliderOnInput (1 / 1000) (pSliderOnInput (1 / 50)
        (initializeSimulation 3 demoControls (quietState [] 0),
          initializePage demoControls))).1.f_s
      ≤ (fSliderOnInput (1 / 1000) (pSliderOnInput (1 / 50)
        (initializeSimulation 3 demoControls (quietState [] 0),
          initializePage demoControls))).1.probabilityP / 10 :=
  (f_s_le_tenth_of_probabilityP 3 _
    (ConfigReachable.fInput (1 / 1000)
      (ConfigReachable.pInput (1 / 50) (ConfigReachable.init demoControls (quietState [] 0)))
      (by
        rw [(pSliderOnInput_f_s_le (1 / 50) _).2]
        show (1 / 1000 : ℚ) ≤ (pSliderOnInput (1 / 50)
          (initializeSimulation 3 demoControls (quietState [] 0),
            initializePage demoControls)).1.probabilityP / 10
        have : (pSliderOnInput (1 / 50)
          (initializeSimulation 3 demoControls (quietState [] 0),
            initializePage demoControls)).1.probabilityP = 1 / 50 := by
          unfold pSliderOnInput
          simp only
          split <;> rfl
        rw [this]
        norm_num))).1

/-! ## The accesses of propagation -/

theorem foldl_fst {α β γ : Type} (f : β → α → β) (f' : β × γ → α → β × γ)
    (h : ∀ acc a, (f' acc a).1 = f acc.1 a) :
    ∀ (l : List α) (acc : β × γ), (l.foldl f' acc).1 = l.foldl f acc.1
  | [], _ => rfl
  | a :: l, acc => by
    rw [List.foldl_cons, List.foldl_cons, foldl_fst f f' h l, h]

theorem igniteNeighbourTrace_fst (n : Nat) (cell : Cell) (dy : Int)
    (acc : State × List Access) (dx : Int) :
    (igniteNeighbourTrace n cell dy acc dx).1 = igniteNeighbour n cell dy acc.1 dx := by
  unfold igniteNeighbourTrace igniteNeighbour
  by_cases h0 : dx = 0 ∧ dy = 0
  · rw [if_pos h0, if_pos h0]
  · rw [if_neg h0, if_neg h0]
    simp only
    by_cases hb : cell.x + dx ≥ 0 ∧ cell.x + dx < (n : Int) ∧ cell.y + dy ≥ 0 ∧
        cell.y + dy < (n : Int)
    · rw [if_pos hb]
      by_cases ht : cellAt acc.1.grid (cell.x + dx) (cell.y + dy) = some STATES.TREE
      · rw [if_pos ht, if_pos ⟨hb.1, hb.2.1, hb.2.2.1, hb.2.2.2, ht⟩]
      · rw [if_neg ht, if_neg (fun h => ht h.2.2.2.2)]
    · rw [if_neg hb, if_neg (fun h => hb ⟨h.1, h.2.1, h.2.2.1, h.2.2.2.1⟩)]

theorem burnCellTrace_fst (n : Nat) (acc : State × List Access) (cell : Cell) :
    (burnCellTrace n acc cell).1 = burnCell n acc.1 cell := by
  unfold burnCellTrace burnCell
  simp only
  have h : (offsets.foldl (fun a dy => offsets.foldl (igniteNeighbourTrace n cell dy) a) acc).1
      = offsets.foldl (fun s dy => offsets.foldl (igniteNeighbour n cell dy) s) acc.1 := by
    apply foldl_fst
    intro a dy
    exact foldl_fst _ _ (igniteNeighbourTrace_fst n cell dy) offsets a
  rw [h]

theorem fireExpansionTrace_fst (n : Nat) (acc : State × List Access) :
    (fireExpansionTrace n acc).1 = fireExpansion n acc.1 := by
  unfold fireExpansionTrace fireExpansion
  simp only
  have h : (acc.1.fireQueue.foldl (burnCellTrace n)
      ({ acc.1 with nextFireQueue := [] }, acc.2)).1
      = acc.1.fireQueue.foldl (burnCell n) { acc.1 with nextFireQueue := [] } :=
    foldl_fst _ _ (burnCellTrace_fst n) _ _
  rw [h]

/-- What the record of accesses keeps: every access so far is within bounds
and every cell pushed to the next frontier is within bounds. -/
theorem igniteNeighbourTrace_ok (n : Nat) (cell : Cell) (hc : InBounds n cell) (dy dx : Int)
    (hdy : dy ∈ offsets) (hdx : dx ∈ offsets) (acc : State × List Access)
    (h : (∀ a ∈ acc.2, AccessOk n a) ∧ ∀ q ∈ acc.1.nextFireQueue, InBounds n q) :
    (∀ a ∈ (igniteNeighbourTrace n cell dy acc dx).2, AccessOk n a) ∧
      ∀ q ∈ (igniteNeighbourTrace n cell dy acc dx).1.nextFireQueue, InBounds n q := by
  unfold igniteNeighbourTrace
  by_cases h0 : dx = 0 ∧ dy = 0
  · rw [if_pos h0]
    exact h
  · rw [if_neg h0]
    simp only
    by_cases hb : cell.x + dx ≥ 0 ∧ cell.x + dx < (n : Int) ∧ cell.y + dy ≥ 0 ∧
        cell.y + dy < (n : Int)
    · rw [if_pos hb]
      have hin : InBounds n ⟨cell.x + dx, cell.y + dy⟩ := ⟨hb.1, hb.2.1, hb.2.2.1, hb.2.2.2⟩
      have hadj := mooreAdj_offset cell dx dy hdx hdy h0
      have hread : AccessOk n ⟨cell, cell.x + dx, cell.y + dy, none⟩ :=
        ⟨hc, hin, Or.inl hadj, fun _ => hadj⟩
      have hwrite : AccessOk n ⟨cell, cell.x + dx, cell.y + dy, some STATES.BURNING⟩ :=
        ⟨hc, hin, Or.inl hadj, fun _ => hadj⟩
      by_cases ht : cellAt acc.1.grid (cell.x + dx) (cell.y + dy) = some STATES.TREE
      · rw [if_pos ht]
        constructor
        · intro a ha
          rcases List.mem_append.mp ha with h1 | h1
          · rcases List.mem_append.mp h1 with h2 | h2
            · exact h.1 a h2
            · rw [List.mem_singleton.mp h2]; exact hread
          · rw [List.mem_singleton.mp h1]; exact hwrite
        · intro q hq
          rcases List.mem_append.mp hq with h1 | h1
          · exact h.2 q h1
          · rw [List.mem_singleton.mp h1]; exact hin
      · rw [if_neg ht]
        constructor
        · intro a ha
          rcases List.mem_append.mp ha with h1 | h1
          · exact h.1 a h1
          · rw [List.mem_singleton.mp h1]; exact hread
        · exact h.2
    · rw [if_neg hb]
      exact h

theorem burnCellTrace_ok (n : Nat) (cell : Cell) (hc : InBounds n cell)
    (acc : State × List Access)
    (h : (∀ a ∈ acc.2, AccessOk n a) ∧ ∀ q ∈ acc.1.nextFireQueue, InBounds n q) :
    (∀ a ∈ (burnCellTrace n acc cell).2, AccessOk n a) ∧
      ∀ q ∈ (burnCellTrace n acc cell).1.nextFireQueue, InBounds n q := by
  have hloops : (∀ a ∈ (offsets.foldl
        (fun a dy => offsets.foldl (igniteNeighbourTrace n cell dy) a) acc).2, AccessOk n a) ∧
      ∀ q ∈ (offsets.foldl
        (fun a dy => offsets.foldl (igniteNeighbourTrace n cell dy) a) acc).1.nextFireQueue,
        InBounds n q := by
    refine foldl_keep _ (fun _ => True)
      (fun (acc : State × List Access) => (∀ a ∈ acc.2, AccessOk n a) ∧
        ∀ q ∈ acc.1.nextFireQueue, InBounds n q)
      offsets (fun _ _ _ _ => trivial) ?_ acc trivial h
    intro b dy hdy _ hb
    refine foldl_keep _ (fun _ => True)
      (fun (acc : State × List Access) => (∀ a ∈ acc.2, AccessOk n a) ∧
        ∀ q ∈ acc.1.nextFireQueue, InBounds n q)
      offsets (fun _ _ _ _ => trivial) ?_ b trivial hb
    intro b' dx hdx _ hb'
    exact igniteNeighbourTrace_ok n cell hc dy dx hdy hdx b' hb'
  unfold burnCellTrace
  simp only
  refine ⟨?_, hloops.2⟩
  intro a ha
  rcases List.mem_append.mp ha with h1 | h1
  · exact hloops.1 a h1
  · rw [List.mem_singleton.mp h1]
    refine ⟨hc, hc, Or.inr ⟨rfl, rfl, rfl⟩, ?_⟩
    intro hw
    exact absurd (Option.some.inj hw) (by decide)

theorem endFire_nextFireQueue (s : State) : (endFire s).nextFireQueue = s.nextFireQueue := by
  unfold endFire recordFireStatistics
  simp only
  split <;> rfl

/-- One expansion from a frontier within bounds makes only accesses within
bounds and leaves a frontier within bounds. -/
theorem fireExpansionTrace_ok (n : Nat) (acc : State × List Access)
    (hlog : ∀ a ∈ acc.2, AccessOk n a) (hin : ∀ c ∈ acc.1.fireQueue, InBounds n c) :
    (∀ a ∈ (fireExpansionTrace n acc).2, AccessOk n a) ∧
      ∀ c ∈ (fireExpansionTrace n acc).1.fireQueue, InBounds n c := by
  have hfold : (∀ a ∈ (acc.1.fireQueue.foldl (burnCellTrace n)
        ({ acc.1 with nextFireQueue := [] }, acc.2)).2, AccessOk n a) ∧
      ∀ q ∈ (acc.1.fireQueue.foldl (burnCellTrace n)
        ({ acc.1 with nextFireQueue := [] }, acc.2)).1.nextFireQueue, InBounds n q := by
    refine foldl_keep _ (fun _ => True)
      (fun (acc : State × List Access) => (∀ a ∈ acc.2, AccessOk n a) ∧
        ∀ q ∈ acc.1.nextFireQueue, InBounds n q)
      acc.1.fireQueue (fun _ _ _ _ => trivial) ?_ _ trivial
      ⟨hlog, fun q hq => absurd hq (List.not_mem_nil q)⟩
    intro b c hc _ hb
    exact burnCellTrace_ok n c (hin c hc) b hb
  unfold fireExpansionTrace
  simp only
  refine ⟨hfold.1, ?_⟩
  split
  · rw [endFire_fireQueue]
    exact hfold.2
  · exact hfold.2

/-! ## The accesses of a whole run -/

theorem runFireStepAnimatedTraceLoop_spec (n : Nat) :
    ∀ (k : Nat) (acc : State × List Access), (∀ a ∈ acc.2, AccessOk n a) →
      (∀ c ∈ acc.1.fireQueue, InBounds n c) →
      (runFireStepAnimatedTraceLoop n k acc).1 = runFireStepAnimatedLoop n k acc.1 ∧
      (∀ a ∈ (runFireStepAnimatedTraceLoop n k acc).2, AccessOk n a) ∧
      ∀ c ∈ (runFireStepAnimatedTraceLoop n k acc).1.fireQueue, InBounds n c
  | 0, acc, hlog, hin => ⟨rfl, hlog, hin⟩
  | k + 1, acc, hlog, hin => by
    unfold runFireStepAnimatedTraceLoop runFireStepAnimatedLoop
    by_cases hact : acc.1.isFireActive = true
    · rw [if_pos hact, if_pos hact]
      have hok := fireExpansionTrace_ok n acc hlog hin
      have ih := runFireStepAnimatedTraceLoop_spec n k (fireExpansionTrace n acc) hok.1 hok.2
      rw [fireExpansionTrace_fst] at ih
      exact ih
    · rw [if_neg hact, if_neg hact]
      exact ⟨rfl, hlog, hin⟩

theorem runFireInstantlyTrace_spec (n : Nat) :
    ∀ (fuel : Nat) (acc : State × List Access), (∀ a ∈ acc.2, AccessOk n a) →
      (∀ c ∈ acc.1.fireQueue, InBounds n c) →
      (runFireInstantlyTrace n fuel acc).map Prod.fst = runFireInstantly n fuel acc.1 ∧
      ∀ r, runFireInstantlyTrace n fuel acc = some r →
        (∀ a ∈ r.2, AccessOk n a) ∧ ∀ c ∈ r.1.fireQueue, InBounds n c
  | 0, acc, _, _ => ⟨rfl, fun r h => by simp [runFireInstantlyTrace] at h⟩
  | fuel + 1, acc, hlog, hin => by
    unfold runFireInstantlyTrace runFireInstantly
    by_cases hact : acc.1.isFireActive = true
    · rw [if_pos hact, if_pos hact]
      have hok := fireExpansionTrace_ok n acc hlog hin
      have ih := runFireInstantlyTrace_spec n fuel (fireExpansionTrace n acc) hok.1 hok.2
      rw [fireExpansionTrace_fst] at ih
      exact ih
    · rw [if_neg hact, if_neg hact]
      refine ⟨rfl, ?_⟩
      intro r hr
      rw [← Option.some.inj hr]
      exact ⟨hlog, hin⟩

theorem fireExpansion_fireQueue_inBounds (n : Nat) (s : State)
    (hin : ∀ c ∈ s.fireQueue, InBounds n c) :
    ∀ c ∈ (fireExpansion n s).fireQueue, InBounds n c := by
  have h := (fireExpansionTrace_ok n (s, []) (fun a ha => absurd ha (List.not_mem_nil a)) hin).2
  rw [fireExpansionTrace_fst] at h
  exact h

/-- The expansions behind a run of `runFireInstantly`. -/
theorem runFireInstantly_iterate (n : Nat) :
    ∀ (fuel : Nat) (s s' : State), runFireInstantly n fuel s = some s' →
      ∃ k, k + 1 ≤ fuel ∧ Nat.iterate (fireExpansion n) k s = s' ∧
        (∀ j, j < k → (Nat.iterate (fireExpansion n) j s).isFireActive = true) ∧
        s'.isFireActive = false
  | 0, _, _, h => by simp [runFireInstantly] at h
  | fuel + 1, s, s', h => by
    unfold runFireInstantly at h
    by_cases hact : s.isFireActive = true
    · rw [if_pos hact] at h
      obtain ⟨k, hk, hit, hj, hend⟩ := runFireInstantly_iterate n fuel (fireExpansion n s) s' h
      refine ⟨k + 1, by omega, ?_, ?_, hend⟩
      · rw [Function.iterate_succ_apply]
        exact hit
      · intro j hjk
        cases j with
        | zero => exact hact
        | succ j =>
          rw [Function.iterate_succ_apply]
          exact hj j (by omega)
    · rw [if_neg hact] at h
      refine ⟨0, by omega, Option.some.inj h, fun j hj => absurd hj (Nat.not_lt_zero j), ?_⟩
      rw [← Option.some.inj h]
      simpa using hact

theorem iterate_fireExpansion_inBounds (n : Nat) (s : State)
    (hin : ∀ c ∈ s.fireQueue, InBounds n c) :
    ∀ (j : Nat), ∀ c ∈ (Nat.iterate (fireExpansion n) j s).fireQueue, InBounds n c
  | 0 => hin
  | j + 1 => by
    rw [Function.iterate_succ_apply']
    exact fireExpansion_fireQueue_inBounds n _ (iterate_fireExpansion_inBounds n s hin j)

/-- Claim C15. The function `runFireInstantly` terminates on every state in
which a fire is active and the frontier holds cells within bounds: it returns
a state `s'` for every fuel above the number of Trees plus one, `s'` is the
state after `k` wavefront expansions with `1 ≤ k ≤ countTrees s.grid + 1`,
the fire is active before each of these expansions, the frontier stays within
bounds throughout, and `s'.isFireActive = false`. -/
theorem runFireInstantly_terminates_within_tree_count (n : Nat) (s : State)
    (hact : s.isFireActive = true) (hin : ∀ c ∈ s.fireQueue, InBounds n c) :
    ∃ (s' : State) (k : Nat),
      (∀ fuel, countTrees s.grid + 2 ≤ fuel → runFireInstantly n fuel s = some s') ∧
      1 ≤ k ∧ k ≤ countTrees s.grid + 1 ∧
      Nat.iterate (fireExpansion n) k s = s' ∧
      (∀ j, j < k → (Nat.iterate (fireExpansion n) j s).isFireActive = true) ∧
      (∀ j, ∀ c ∈ (Nat.iterate (fireExpansion n) j s).fireQueue, InBounds n c) ∧
      s'.isFireActive = false := by
  obtain ⟨s', hs'⟩ := runFireInstantly_terminates n (countTrees s.grid) s le_rfl
  obtain ⟨k, hk, hit, hj, hend⟩ :=
    runFireInstantly_iterate n (countTrees s.grid + 2) s s' (hs' _ le_rfl)
  refine ⟨s', k, hs', ?_, by omega, hit, hj, iterate_fireExpansion_inBounds n s hin, hend⟩
  cases k with
  | zero =>
    rw [Function.iterate_zero_apply] at hit
    rw [← hit, hact] at hend
    exact absurd hend (by decide)
  | succ k => omega

/-- Witness for C15: the grid `[[1, 1], [0, 1]]` lit at `(0, 0)`. -/
theorem runFireInstantly_terminates_within_tree_count_witness :
    ∃ (s' : State) (k : Nat),
      (∀ fuel, countTrees (startFire (quietState [[1, 1], [0, 1]] 3) 0 0).grid + 2 ≤ fuel →
        runFireInstantly 2 fuel (startFire (quietState [[1, 1], [0, 1]] 3) 0 0) = some s') ∧
      1 ≤ k ∧ k ≤ countTrees (startFire (quietState [[1, 1], [0, 1]] 3) 0 0).grid + 1 ∧
      Nat.iterate (fireExpansion 2) k (startFire (quietState [[1, 1], [0, 1]] 3) 0 0) = s' ∧
      (∀ j, j < k → (Nat.iterate (fireExpansion 2) j
        (startFire (quietState [[1, 1], [0, 1]] 3) 0 0)).isFireActive = true) ∧
      (∀ j, ∀ c ∈ (Nat.iterate (fireExpansion 2) j
        (startFire (quietState [[1, 1], [0, 1]] 3) 0 0)).fireQueue, InBounds 2 c) ∧
      s'.isFireActive = false :=
  runFireInstantly_terminates_within_tree_count 2
    (startFire (quietState [[1, 1], [0, 1]] 3) 0 0) rfl
    (fun c hc => by
      rw [List.mem_singleton.mp hc]
      exact ⟨by decide, by decide, by decide, by decide⟩)

/-- Claim C16. Propagation never reads or writes outside the grid and never
wraps around. Provided every frontier cell is within bounds, the functions
`runFireStepAnimated` and `runFireInstantly`, run with a record of their grid
accesses, compute the same states as without it, and every recorded access is
made while processing a frontier cell within bounds, at coordinates with
`0 ≤ x < n` and `0 ≤ y < n`, which are those of a Moore neighbour of that
frontier cell or, for the write of the first decay value, of the frontier
cell itself; a write of `STATES.BURNING` is always at a Moore neighbour. The
frontier left behind, which holds the cells pushed, is within bounds. -/
theorem propagation_accesses_in_bounds (n : Nat) (s : State)
    (hin : ∀ c ∈ s.fireQueue, InBounds n c) :
    ((runFireStepAnimatedTrace n s).1 = runFireStepAnimated n s ∧
      (∀ a ∈ (runFireStepAnimatedTrace n s).2, AccessOk n a) ∧
      ∀ c ∈ (runFireStepAnimated n s).fireQueue, InBounds n c) ∧
    ∀ fuel, (runFireInstantlyTrace n fuel (s, [])).map Prod.fst = runFireInstantly n fuel s ∧
      ∀ r, runFireInstantlyTrace n fuel (s, []) = some r →
        (∀ a ∈ r.2, AccessOk n a) ∧ ∀ c ∈ r.1.fireQueue, InBounds n c := by
  have hnil : ∀ a ∈ ((s, []) : State × List Access).2, AccessOk n a :=
    fun a ha => absurd ha (List.not_mem_nil a)
  constructor
  · have h := runFireStepAnimatedTraceLoop_spec n FIRE_ANIMATION_SPEED (s, []) hnil hin
    refine ⟨h.1, h.2.1, ?_⟩
    have h2 := h.2.2
    rw [h.1] at h2
    exact h2
  · intro fuel
    exact runFireInstantlyTrace_spec n fuel (s, []) hnil hin

/-- Witness for C16: the grid `[[1, 1], [0, 1]]` lit at `(0, 0)`; the step
records six accesses (three reads, two of them followed by a write of
`STATES.BURNING`, and the write of the first decay value). -/
theorem propagation_accesses_in_bounds_witness :
    (runFireStepAnimatedTrace 2 (startFire (quietState [[1, 1], [0, 1]] 3) 0 0)).2.length = 6 ∧
    ((runFireStepAnimatedTrace 2 (startFire (quietState [[1, 1], [0, 1]] 3) 0 0)).1
        = runFireStepAnimated 2 (startFire (quietState [[1, 1], [0, 1]] 3) 0 0) ∧
      (∀ a ∈ (runFireStepAnimatedTrace 2 (startFire (quietState [[1, 1], [0, 1]] 3) 0 0)).2,
        AccessOk 2 a) ∧
      ∀ c ∈ (runFireStepAnimated 2 (startFire (quietState [[1, 1], [0, 1]] 3) 0 0)).fireQueue,
        InBounds 2 c) :=
  ⟨by decide, (propagation_accesses_in_bounds 2 (startFire (quietState [[1, 1], [0, 1]] 3) 0 0)
    (fun c hc => by
      rw [List.mem_singleton.mp hc]
      exact ⟨by decide, by decide, by decide, by decide⟩)).1⟩

/-! ## Invariants of the reached states -/

/-- An invariant kept by the elementary updates of the script holds in every
reached state. -/
theorem reached_inv (n : Nat) (Inv : State → Prop)
    (hinit : ∀ ui s0, Inv (initializeSimulation n ui s0))
    (hrng : ∀ s g, Inv s → Inv { s with rng := g })
    (hgrow : ∀ s x y, Inv s → cellAt s.grid x y = some STATES.VACANT →
      Inv { s with grid := setCell s.grid x y STATES.TREE, treeCount := s.treeCount + 1 })
    (hfire : ∀ s x y, Inv s → cellAt s.grid x y = some STATES.TREE → Inv (startFire s x y))
    (hcount : ∀ s k, Inv s → Inv { s with N_s := k })
    (hexp : ∀ s, Inv s → s.isFireActive = true → Inv (fireExpansion n s))
    (hdecay : ∀ s, Inv s → Inv (decayRecentlyBurned n s))
    (hplot : ∀ s pd, Inv s → Inv { s with plotData := pd })
    (hctl : ∀ s p f k a b, Inv s →
      Inv { s with probabilityP := p, f_s := f, stepsPerFrame := k, animateFires := a,
                   isSimulating := b }) :
    ∀ s, Reached n s → Inv s := by
  have hgrowth : ∀ s, Inv s → Inv (growthAttempt n s) := by
    intro s hs
    by_cases hv : cellAt s.grid (growthCell n s).x (growthCell n s).y = some STATES.VACANT
    · rw [growthAttempt_of_vacant n s hv]
      split
      · exact hgrow { s with rng := (rngNext (afterTwoDraws n s).rng).2 } _ _ (hrng s _ hs) hv
      · exact hrng s _ hs
    · rw [growthAttempt_of_not_vacant n s hv]
      exact hrng s _ hs
  have hignition : ∀ s, Inv s → Inv (ignitionAttempt n s).1 := by
    intro s hs
    unfold ignitionAttempt
    simp only
    split
    · rename_i hc
      split
      · exact hfire { s with rng := (rngNext (rngNext (rngNext s.rng).2).2).2 } _ _
          (hrng s _ hs) hc
      · exact hrng s _ hs
    · exact hrng s _ hs
  have hloop : ∀ (k : Nat) (s : State), Inv s → Inv (runSimulationStepsLoop n k s) := by
    intro k
    induction k with
    | zero => intro s hs; exact hs
    | succ k ih =>
      intro s hs
      rw [runSimulationStepsLoop_succ]
      split
      · exact hignition _ (hgrowth s hs)
      · exact ih _ (hcount _ _ (hignition _ (hgrowth s hs)))
  have hanim : ∀ s, Inv s → Inv (runFireStepAnimated n s) := by
    intro s hs
    rw [runFireStepAnimated_eq]
    split
    · rename_i hact
      exact hexp s hs hact
    · exact hs
  have hinst : ∀ fuel s s', Inv s → runFireInstantly n fuel s = some s' → Inv s' :=
    fun fuel s s' hs hrun => (runFireInstantly_inv n Inv hexp fuel s s' hrun hs).1
  have hdraw : ∀ s, Inv s → Inv (drawGrid n s).1 := by
    intro s hs
    rw [drawGrid_fst]
    exact hrng s _ hs
  have hplots : ∀ fuel s s', Inv s → updatePlots fuel s = some s' → Inv s' := by
    intro fuel s s' hs hrun
    unfold updatePlots at hrun
    split at hrun
    · rw [← Option.some.inj hrun]
      exact hs
    · split at hrun
      · cases hrun
      · rw [← Option.some.inj hrun]
        exact hplot s _ hs
  intro s h
  induction h with
  | init ui s0 => exact hinit ui s0
  | decay _ ih => exact hdecay _ ih
  | steps _ ih => exact hloop _ _ ih
  | fire x y _ ht ih => exact hfire _ x y ih ht
  | animated _ ih => exact hanim _ ih
  | instantly fuel _ hrun ih => exact hinst fuel _ _ ih hrun
  | draw _ ih => exact hdraw _ ih
  | plots fuel _ hrun ih => exact hplots fuel _ _ ih hrun
  | @frame s s' fuel _ hrun ih =>
    unfold mainLoop at hrun
    by_cases hsim : s.isSimulating = false
    · rw [if_pos hsim] at hrun
      rw [← Option.some.inj hrun]
      exact ih
    · rw [if_neg hsim] at hrun
      simp only at hrun
      have hd := hdecay s ih
      by_cases hact : (decayRecentlyBurned n s).isFireActive = true
      · rw [if_pos hact] at hrun
        by_cases han : (decayRecentlyBurned n s).animateFires = true
        · rw [if_pos han] at hrun
          exact hplots fuel _ _ (hdraw _ (hanim _ hd)) hrun
        · rw [if_neg han] at hrun
          cases hr : runFireInstantly n fuel (decayRecentlyBurned n s) with
          | none =>
            rw [hr] at hrun
            cases hrun
          | some s2 =>
            rw [hr] at hrun
            exact hplots fuel _ _ (hdraw _ (hinst fuel _ _ hd hr)) hrun
      · rw [if_neg hact] at hrun
        exact hplots fuel _ _ (hdraw _ (hloop _ _ hd)) hrun
  | @pInput s value page _ ih =>
    unfold pSliderOnInput
    simp only
    split
    · exact hctl s value (value / 10) s.stepsPerFrame s.animateFires s.isSimulating ih
    · exact hctl s value s.f_s s.stepsPerFrame s.animateFires s.isSimulating ih
  | @fInput s value page _ ih =>
    exact hctl s s.probabilityP value s.stepsPerFrame s.animateFires s.isSimulating ih
  | @speed s value _ ih =>
    exact hctl s s.probabilityP s.f_s value s.animateFires s.isSimulating ih
  | @toggle s checked _ ih =>
    exact hctl s s.probabilityP s.f_s s.stepsPerFrame checked s.isSimulating ih
  | @start s _ ih =>
    exact hctl s s.probabilityP s.f_s s.stepsPerFrame s.animateFires (!s.isSimulating) ih
  | reset ui _ ih => exact hinit ui _

/-! ## The invariant of the statistics -/

theorem totalCount_mapSet_succ (k : Nat) :
    ∀ (m : FireStats), totalCount (mapSet m k ((mapGet m k).getD 0 + 1)) = totalCount m + 1
  | [] => rfl
  | (k', v') :: rest => by
    by_cases h : k' = k
    · subst h
      rw [mapGet_cons_self]
      unfold mapSet
      rw [if_pos rfl]
      unfold totalCount
      simp only [List.map_cons, List.sum_cons, Option.getD_some]
      omega
    · rw [mapGet_cons_ne k' v' k rest (fun hc => h hc.symm)]
      unfold mapSet
      rw [if_neg h]
      have ih := totalCount_mapSet_succ k rest
      unfold totalCount at ih ⊢
      simp only [List.map_cons, List.sum_cons]
      rw [ih]
      omega

theorem mem_mapSet (k v : Nat) :
    ∀ (m : FireStats) (kv : Nat × Nat), kv ∈ mapSet m k v → kv ∈ m ∨ kv = (k, v)
  | [], kv, h => Or.inr (List.mem_singleton.mp h)
  | (k', v') :: rest, kv, h => by
    unfold mapSet at h
    by_cases hk : k' = k
    · rw [if_pos hk] at h
      rcases List.mem_cons.mp h with h1 | h1
      · right
        rw [h1, hk]
      · exact Or.inl (List.mem_cons_of_mem _ h1)
    · rw [if_neg hk] at h
      rcases List.mem_cons.mp h with h1 | h1
      · left
        rw [h1]
        exact List.mem_cons_self _ _
      · rcases mem_mapSet k v rest kv h1 with h2 | h2
        · exact Or.inl (List.mem_cons_of_mem _ h2)
        · exact Or.inr h2

theorem mem_mapKeys_mapSet (k v : Nat) :
    ∀ (m : FireStats) (j : Nat), j ∈ mapKeys (mapSet m k v) → j ∈ mapKeys m ∨ j = k
  | m, j, h => by
    unfold mapKeys at h ⊢
    obtain ⟨kv, hkv, hj⟩ := List.mem_map.mp h
    rcases mem_mapSet k v m kv hkv with h1 | h1
    · exact Or.inl (List.mem_map.mpr ⟨kv, h1, hj⟩)
    · right
      rw [← hj, h1]

theorem nodup_mapKeys_mapSet (k v : Nat) :
    ∀ (m : FireStats), (mapKeys m).Nodup → (mapKeys (mapSet m k v)).Nodup
  | [], _ => by
    unfold mapSet mapKeys
    exact List.nodup_singleton _
  | (k', v') :: rest, h => by
    have hcons : (k' :: mapKeys rest).Nodup := h
    obtain ⟨hnot, hrest⟩ := List.nodup_cons.mp hcons
    unfold mapSet
    by_cases hk : k' = k
    · rw [if_pos hk]
      exact h
    · rw [if_neg hk]
      show (k' :: mapKeys (mapSet rest k v)).Nodup
      refine List.nodup_cons.mpr ⟨?_, nodup_mapKeys_mapSet k v rest hrest⟩
      intro hin
      rcases mem_mapKeys_mapSet k v rest k' hin with h1 | h1
      · exact hnot h1
      · exact hk h1

theorem mem_of_mapGet (k v : Nat) :
    ∀ (m : FireStats), mapGet m k = some v → (k, v) ∈ m
  | [], h => by cases h
  | (k', v') :: rest, h => by
    by_cases hk : k = k'
    · subst hk
      rw [mapGet_cons_self] at h
      rw [Option.some.inj h]
      exact List.mem_cons_self _ _
    · rw [mapGet_cons_ne k' v' k rest hk] at h
      exact List.mem_cons_of_mem _ (mem_of_mapGet k v rest h)

theorem statsInv_recordFireStatistics (s : State) (h : StatsInv s) :
    StatsInv (recordFireStatistics s) := by
  unfold recordFireStatistics
  by_cases h0 : s.currentFireSize = 0
  · rw [if_pos h0]
    exact h
  · rw [if_neg h0]
    obtain ⟨h1, h2, h3⟩ := h
    refine ⟨nodup_mapKeys_mapSet _ _ _ h1, ?_, ?_⟩
    · show s.totalFires + 1 = totalCount (mapSet s.fireStats s.currentFireSize
        ((mapGet s.fireStats s.currentFireSize).getD 0 + 1))
      rw [totalCount_mapSet_succ, h2]
    · intro kv hkv
      rcases mem_mapSet _ _ _ kv hkv with h4 | h4
      · exact h3 kv h4
      · rw [h4]
        exact ⟨Nat.pos_of_ne_zero h0, Nat.succ_pos _⟩

theorem statsInv_fireExpansion (n : Nat) (s : State) (h : StatsInv s) :
    StatsInv (fireExpansion n s) := by
  refine fireExpansion_ind n s StatsInv StatsInv h ?_ ?_ ?_ ?_
  · intro t c q _ _ _ _ ht
    exact ht
  · intro t c _ _ ht
    exact ht
  · intro t ht _
    exact ht
  · intro t ht _
    exact statsInv_recordFireStatistics
      { t with fireQueue := t.nextFireQueue, isFireActive := false } ht

theorem statsInv_of_reached (n : Nat) : ∀ s, Reached n s → StatsInv s := by
  refine reached_inv n StatsInv ?_ ?_ ?_ ?_ ?_ ?_ ?_ ?_ ?_
  · intro ui s0
    exact ⟨List.nodup_nil, rfl, fun kv hkv => absurd hkv (List.not_mem_nil kv)⟩
  · intro s g h
    exact h
  · intro s x y h _
    exact h
  · intro s x y h _
    exact h
  · intro s k h
    exact h
  · intro s h _
    exact statsInv_fireExpansion n s h
  · intro s h
    exact h
  · intro s pd h
    exact h
  · intro s p f k a b h
    exact h

/-- Claim C18. In every state reached from `initializeSimulation`, the keys of
`fireStats` are pairwise distinct, `totalFires` equals the sum of all the
occurrence counts stored in `fireStats`, and every key and every stored count
is positive (sizes and counts are natural numbers). -/
theorem totalFires_eq_sum_of_counts (n : Nat) (s : State) (h : Reached n s) :
    (mapKeys s.fireStats).Nodup ∧
    s.totalFires = totalCount s.fireStats ∧
    (∀ k ∈ mapKeys s.fireStats, 0 < k) ∧
    ∀ k v, mapGet s.fireStats k = some v → 0 < v := by
  obtain ⟨h1, h2, h3⟩ := statsInv_of_reached n s h
  refine ⟨h1, h2, ?_, ?_⟩
  · intro k hk
    obtain ⟨kv, hkv, hj⟩ := List.mem_map.mp hk
    rw [← hj]
    exact (h3 kv hkv).1
  · intro k v hv
    exact (h3 (k, v) (mem_of_mapGet k v s.fireStats hv)).2

/-! ## The invariant of the frontier -/

theorem mem_of_cellAt {g : Grid} {x y : Int} {v : Int} (h : cellAt g x y = some v) :
    ∃ row ∈ g, v ∈ row := by
  unfold cellAt at h
  by_cases hb : 0 ≤ x ∧ 0 ≤ y
  · rw [if_pos hb] at h
    cases hrow : g[y.toNat]? with
    | none =>
      rw [hrow] at h
      cases h
    | some row =>
      rw [hrow] at h
      exact ⟨row, List.getElem?_mem hrow, List.getElem?_mem h⟩
  · rw [if_neg hb] at h
    cases h

theorem cellAt_emptyGrid (n : Nat) (x y : Int) (v : Int)
    (h : cellAt (emptyGrid n) x y = some v) : v = STATES.VACANT := by
  obtain ⟨row, hrow, hv⟩ := mem_of_cellAt h
  unfold emptyGrid at hrow
  rw [List.eq_of_mem_replicate hrow] at hv
  exact List.eq_of_mem_replicate hv

theorem inBounds_of_cellAt {n : Nat} {g : Grid} (hwf : WellFormed n g) {x y : Int} {v : Int}
    (h : cellAt g x y = some v) : InBounds n ⟨x, y⟩ := by
  have hs : (cellAt g x y).isSome = true := by rw [h]; rfl
  exact (cellAt_isSome_iff hwf x y).mp hs

theorem frontierInv_initializeSimulation (n : Nat) (ui : Controls) (s0 : State) :
    FrontierInv n (initializeSimulation n ui s0) := by
  refine ⟨wellFormed_emptyGrid n, List.nodup_nil, fun c hc => absurd hc (List.not_mem_nil c),
    ?_, fun h => (by cases h), fun _ => ⟨rfl, rfl⟩⟩
  intro c
  constructor
  · intro h
    have hv := cellAt_emptyGrid n c.x c.y _ h
    exact absurd hv (by decide)
  · intro h
    exact absurd h (List.not_mem_nil c)

theorem frontierInv_grow (n : Nat) (s : State) (x y : Int) (h : FrontierInv n s)
    (hv : cellAt s.grid x y = some STATES.VACANT) :
    FrontierInv n { s with grid := setCell s.grid x y STATES.TREE,
                           treeCount := s.treeCount + 1 } := by
  obtain ⟨hwf, hnd, hin, hiff, hact, hq⟩ := h
  refine ⟨wellFormed_setCell x y _ hwf, hnd, hin, ?_, hact, hq⟩
  intro c
  rw [← hiff c]
  show cellAt (setCell s.grid x y STATES.TREE) c.x c.y = some STATES.BURNING ↔ _
  by_cases hc : c.x = x ∧ c.y = y
  · rw [hc.1, hc.2, cellAt_setCell_self _ hv, hv]
    constructor <;> intro h' <;> exact absurd (Option.some.inj h') (by decide)
  · rw [cellAt_setCell_ne _ hc]

theorem frontierInv_startFire (n : Nat) (s : State) (x y : Int) (h : FrontierInv n s)
    (ht : cellAt s.grid x y = some STATES.TREE) : FrontierInv n (startFire s x y) := by
  obtain ⟨hwf, hnd, hin, hiff, hact, hq⟩ := h
  have hnew : (⟨x, y⟩ : Cell) ∉ s.fireQueue := by
    intro hmem
    have hb := (hiff ⟨x, y⟩).mpr hmem
    rw [ht] at hb
    exact absurd (Option.some.inj hb) (by decide)
  refine ⟨wellFormed_setCell x y _ hwf, ?_, ?_, ?_, ?_, ?_⟩
  · show (s.fireQueue ++ [({ x := x, y := y } : Cell)]).Nodup
    rw [List.nodup_append]
    refine ⟨hnd, List.nodup_singleton _, ?_⟩
    intro a ha hb
    rw [List.mem_singleton.mp hb] at ha
    exact hnew ha
  · intro c hc
    rcases List.mem_append.mp hc with h1 | h1
    · exact hin c h1
    · rw [List.mem_singleton.mp h1]
      exact inBounds_of_cellAt hwf ht
  · intro c
    show cellAt (setCell s.grid x y STATES.BURNING) c.x c.y = some STATES.BURNING ↔
      c ∈ s.fireQueue ++ [({ x := x, y := y } : Cell)]
    rw [List.mem_append, List.mem_singleton]
    by_cases hc : c.x = x ∧ c.y = y
    · have hcq : c = ⟨x, y⟩ := cell_eq_of hc
      rw [hc.1, hc.2, cellAt_setCell_self _ ht]
      exact ⟨fun _ => Or.inr hcq, fun _ => rfl⟩
    · rw [cellAt_setCell_ne _ hc, hiff c]
      constructor
      · exact Or.inl
      · intro h'
        rcases h' with h1 | h1
        · exact h1
        · exact absurd (And.intro (congrArg Cell.x h1) (congrArg Cell.y h1)) hc
  · intro _
    show s.fireQueue ++ [({ x := x, y := y } : Cell)] ≠ []
    exact List.append_ne_nil_of_right_ne_nil _ (List.cons_ne_nil _ _)
  · intro hfalse
    cases hfalse

theorem decayValue_eq_burning (v : Int) : decayValue v = STATES.BURNING ↔ v = STATES.BURNING := by
  unfold decayValue RECENTLY_BURNED_STATE STATES.VACANT STATES.BURNING
  constructor
  · intro h
    split at h
    · split at h <;> omega
    · exact h
  · intro h
    rw [h]
    decide

theorem frontierInv_decayRecentlyBurned (n : Nat) (s : State) (h : FrontierInv n s) :
    FrontierInv n (decayRecentlyBurned n s) := by
  obtain ⟨hwf, hnd, hin, hiff, hact, hq⟩ := h
  refine ⟨wellFormed_decayRecentlyBurned n s hwf, hnd, hin, ?_, hact, hq⟩
  intro c
  rw [decayRecentlyBurned_cellAt n s hwf]
  show _ ↔ c ∈ s.fireQueue
  rw [← hiff c]
  cases hc : cellAt s.grid c.x c.y with
  | none => simp
  | some v =>
    simp only [Option.map_some', Option.some.injEq]
    exact decayValue_eq_burning v

/-! ## The frontier invariant across one expansion -/

theorem spreadInv_ignite (n : Nat) (F d : List Cell) (t : State) (q : Cell)
    (hq : InBounds n q) (ht : cellAt t.grid q.x q.y = some STATES.TREE)
    (h : SpreadInv n F d t) : SpreadInv n F d (ignite t q) := by
  obtain ⟨hwf, hnd, hin, hiff, htree, hdisj, hact⟩ := h
  have hqF : q ∉ F := fun hmem => htree q hmem ht
  have hqN : q ∉ t.nextFireQueue := by
    intro hmem
    have hb := (hiff q).mpr (Or.inr hmem)
    rw [ht] at hb
    exact absurd (Option.some.inj hb) (by decide)
  refine ⟨wellFormed_setCell q.x q.y _ hwf, ?_, ?_, ?_, ?_, ?_, hact⟩
  · show (t.nextFireQueue ++ [q]).Nodup
    rw [List.nodup_append]
    refine ⟨hnd, List.nodup_singleton _, ?_⟩
    intro a ha hb
    rw [List.mem_singleton.mp hb] at ha
    exact hqN ha
  · intro c hc
    rcases List.mem_append.mp hc with h1 | h1
    · exact hin c h1
    · rw [List.mem_singleton.mp h1]
      exact hq
  · intro c
    show cellAt (setCell t.grid q.x q.y STATES.BURNING) c.x c.y = some STATES.BURNING ↔
      (c ∈ F ∧ c ∉ d) ∨ c ∈ t.nextFireQueue ++ [q]
    rw [List.mem_append, List.mem_singleton]
    by_cases hc : c.x = q.x ∧ c.y = q.y
    · have hcq : c = q := cell_eq_of hc
      rw [hc.1, hc.2, cellAt_setCell_self _ ht]
      exact ⟨fun _ => Or.inr (Or.inr hcq), fun _ => rfl⟩
    · rw [cellAt_setCell_ne _ hc, hiff c]
      constructor
      · intro h'
        rcases h' with h1 | h1
        · exact Or.inl h1
        · exact Or.inr (Or.inl h1)
      · intro h'
        rcases h' with h1 | h1 | h1
        · exact Or.inl h1
        · exact Or.inr h1
        · exact absurd (And.intro (congrArg Cell.x h1) (congrArg Cell.y h1)) hc
  · intro c hc
    show cellAt (setCell t.grid q.x q.y STATES.BURNING) c.x c.y ≠ some STATES.TREE
    exact noNewTree_setCell _ _ _ _ (by decide) _ _ (htree c hc)
  · intro c hc
    rcases List.mem_append.mp hc with h1 | h1
    · exact hdisj c h1
    · rw [List.mem_singleton.mp h1]
      exact hqF

theorem spreadInv_burnOut (n : Nat) (F d : List Cell) (t : State) (c : Cell) (hc : c ∈ F)
    (h : SpreadInv n F d t) : SpreadInv n F (c :: d) (burnOut t c) := by
  obtain ⟨hwf, hnd, hin, hiff, htree, hdisj, hact⟩ := h
  refine ⟨wellFormed_setCell c.x c.y _ hwf, hnd, hin, ?_, ?_, hdisj, hact⟩
  · intro c'
    show cellAt (setCell t.grid c.x c.y (RECENTLY_BURNED_STATE - BURN_DECAY_FRAMES + 1))
      c'.x c'.y = some STATES.BURNING ↔ (c' ∈ F ∧ c' ∉ c :: d) ∨ c' ∈ t.nextFireQueue
    by_cases hcc : c'.x = c.x ∧ c'.y = c.y
    · have heq : c' = c := cell_eq_of hcc
      rw [heq]
      constructor
      · intro hb
        rw [cellAt_setCell] at hb
        split at hb
        · exact absurd (Option.some.inj hb) (by decide)
        · rename_i hno
          have hsome : (cellAt t.grid c.x c.y).isSome = true := by rw [hb]; rfl
          exact absurd ⟨rfl, rfl, hsome⟩ hno
      · intro h'
        rcases h' with h1 | h1
        · exact absurd (List.mem_cons_self _ _) h1.2
        · exact absurd hc (hdisj c h1)
    · rw [cellAt_setCell_ne _ hcc, hiff c']
      have hne : c' ≠ c := fun he => hcc ⟨congrArg Cell.x he, congrArg Cell.y he⟩
      constructor
      · intro h'
        rcases h' with h1 | h1
        · refine Or.inl ⟨h1.1, ?_⟩
          intro hmem
          rcases List.mem_cons.mp hmem with h2 | h2
          · exact hne h2
          · exact h1.2 h2
        · exact Or.inr h1
      · intro h'
        rcases h' with h1 | h1
        · exact Or.inl ⟨h1.1, fun hmem => h1.2 (List.mem_cons_of_mem _ hmem)⟩
        · exact Or.inr h1
  · intro c' hc'
    show cellAt (setCell t.grid c.x c.y (RECENTLY_BURNED_STATE - BURN_DECAY_FRAMES + 1))
      c'.x c'.y ≠ some STATES.TREE
    exact noNewTree_setCell _ _ _ _ (by decide) _ _ (htree c' hc')

theorem endFire_currentFireSize (s : State) : (endFire s).currentFireSize = 0 := rfl

theorem frontierInv_fireExpansion (n : Nat) (s : State) (h : FrontierInv n s)
    (hactive : s.isFireActive = true) : FrontierInv n (fireExpansion n s) := by
  obtain ⟨hwf, hnd, hin, hiff, hact, hq⟩ := h
  have h0 : SpreadInv n s.fireQueue [] { s with nextFireQueue := [] } := by
    refine ⟨hwf, List.nodup_nil, fun q hq' => absurd hq' (List.not_mem_nil q), ?_, ?_,
      fun q hq' => absurd hq' (List.not_mem_nil q), hactive⟩
    · intro c
      show cellAt s.grid c.x c.y = some STATES.BURNING ↔ (c ∈ s.fireQueue ∧ c ∉ []) ∨ c ∈ []
      rw [hiff c]
      constructor
      · intro hc
        exact Or.inl ⟨hc, List.not_mem_nil c⟩
      · intro hc
        rcases hc with h1 | h1
        · exact h1.1
        · exact absurd h1 (List.not_mem_nil c)
    · intro c hc
      show cellAt s.grid c.x c.y ≠ some STATES.TREE
      rw [(hiff c).mpr hc]
      intro hb
      exact absurd (Option.some.inj hb) (by decide)
  obtain ⟨d', hd', hfin⟩ := frontier_ghost n s.fireQueue (SpreadInv n s.fireQueue)
    (fun d t c q _ _ hq' ht hP => spreadInv_ignite n s.fireQueue d t q hq' ht hP)
    (fun d t c hc _ hP => spreadInv_burnOut n s.fireQueue d t c hc hP)
    s.fireQueue (fun c hc => hc) [] { s with nextFireQueue := [] } h0
  obtain ⟨fwf, fnd, fin, fiff, _, _, fact⟩ := hfin
  have fiff' : ∀ c : Cell,
      cellAt (s.fireQueue.foldl (burnCell n) { s with nextFireQueue := [] }).grid c.x c.y
        = some STATES.BURNING ↔
      c ∈ (s.fireQueue.foldl (burnCell n) { s with nextFireQueue := [] }).nextFireQueue := by
    intro c
    rw [fiff c]
    constructor
    · intro hc
      rcases hc with h1 | h1
      · exact absurd ((hd' c).mpr (Or.inr h1.1)) h1.2
      · exact h1
    · exact Or.inr
  rw [fireExpansion_eq]
  split
  · rename_i hlen
    have hnil := List.length_eq_zero.mp hlen
    refine ⟨?_, ?_, ?_, ?_, ?_, ?_⟩
    · rw [endFire_grid]
      exact fwf
    · rw [endFire_fireQueue]
      exact fnd
    · rw [endFire_fireQueue]
      exact fin
    · intro c
      rw [endFire_grid, endFire_fireQueue]
      exact fiff' c
    · intro hc
      rw [endFire_isFireActive] at hc
      cases hc
    · intro _
      rw [endFire_fireQueue]
      exact ⟨hnil, endFire_currentFireSize _⟩
  · rename_i hlen
    refine ⟨fwf, fnd, fin, fiff', ?_, ?_⟩
    · intro _ hnil
      apply hlen
      rw [List.length_eq_zero]
      exact hnil
    · intro hc
      have hc' : (s.fireQueue.foldl (burnCell n) { s with nextFireQueue := [] }).isFireActive
          = false := hc
      rw [fact] at hc'
      cases hc'

theorem frontierInv_of_reached (n : Nat) : ∀ s, Reached n s → FrontierInv n s := by
  refine reached_inv n (FrontierInv n) ?_ ?_ ?_ ?_ ?_ ?_ ?_ ?_ ?_
  · exact frontierInv_initializeSimulation n
  · intro s g h
    exact h
  · exact frontierInv_grow n
  · exact frontierInv_startFire n
  · intro s k h
    exact h
  · exact frontierInv_fireExpansion n
  · exact frontierInv_decayRecentlyBurned n
  · intro s pd h
    exact h
  · intro s p f k a b h
    exact h

/-- Claim C17. In every state reached from `initializeSimulation` through the
operations of the main loop: when `isFireActive` is false, `fireQueue` is
empty, `currentFireSize` is 0 and no grid cell is Burning; when `isFireActive`
is true, `fireQueue` is non-empty, holds pairwise distinct coordinates within
bounds, and a grid cell is Burning if and only if its coordinate is in
`fireQueue`. -/
theorem frontier_matches_burning_cells (n : Nat) (s : State) (h : Reached n s) :
    (s.isFireActive = false →
      s.fireQueue = [] ∧ s.currentFireSize = 0 ∧
      ∀ x y, cellAt s.grid x y ≠ some STATES.BURNING) ∧
    (s.isFireActive = true →
      s.fireQueue ≠ [] ∧ s.fireQueue.Nodup ∧ (∀ c ∈ s.fireQueue, InBounds n c) ∧
      ∀ c : Cell, cellAt s.grid c.x c.y = some STATES.BURNING ↔ c ∈ s.fireQueue) := by
  obtain ⟨_, hnd, hin, hiff, hact, hq⟩ := frontierInv_of_reached n s h
  constructor
  · intro hf
    refine ⟨(hq hf).1, (hq hf).2, ?_⟩
    intro x y hb
    have hmem := (hiff ⟨x, y⟩).mp hb
    rw [(hq hf).1] at hmem
    exact absurd hmem (List.not_mem_nil _)
  · intro ht
    exact ⟨hact ht, hnd, hin, hiff⟩

/-! ## A reached state with a fire active -/

theorem ignitionAttempt_certain (s : State) (ht : cellAt s.grid 0 0 = some STATES.TREE)
    (hf : s.f_s = 1) : (ignitionAttempt 1 s).2 = true := by
  unfold ignitionAttempt
  simp only [getRandomInt_one]
  have hcell : cellAt (getRandomInt 1 (getRandomInt 1 s).2).2.grid 0 0 = some STATES.TREE := ht
  rw [if_pos hcell]
  have hr : (rng (getRandomInt 1 (getRandomInt 1 s).2).2).1
      < (rng (getRandomInt 1 (getRandomInt 1 s).2).2).2.f_s := by
    have h1 : (rng (getRandomInt 1 (getRandomInt 1 s).2).2).2.f_s = 1 := hf
    rw [h1]
    exact rngNext_lt_one _
  rw [if_pos hr]

theorem growthAttempt_certain (s : State) (hv : cellAt s.grid 0 0 = some STATES.VACANT)
    (hp : s.probabilityP = 1) :
    (growthAttempt 1 s).grid = setCell s.grid 0 0 STATES.TREE ∧
      (growthAttempt 1 s).f_s = s.f_s := by
  have hcell : growthCell 1 s = ⟨0, 0⟩ := by
    unfold growthCell
    simp only [getRandomInt_one]
  have hv' : cellAt s.grid (growthCell 1 s).x (growthCell 1 s).y = some STATES.VACANT := by
    rw [hcell]
    exact hv
  have hr : (rng (afterTwoDraws 1 s)).1 < 1 := rngNext_lt_one _
  rw [growthAttempt_of_vacant 1 s hv', hp, if_pos hr, hcell]
  exact ⟨rfl, rfl⟩

theorem litDemo_isFireActive : litDemo.isFireActive = true := by
  unfold litDemo runSimulationSteps
  have hk : (fSliderOnInput 1
      (initializeSimulation 1 ⟨1, 1 / 10, 1, [], false⟩ (quietState [] 0),
        initializePage ⟨1, 1 / 10, 1, [], false⟩)).1.stepsPerFrame = 1 := rfl
  rw [hk, runSimulationStepsLoop_succ]
  obtain ⟨hg, hf⟩ := growthAttempt_certain (fSliderOnInput 1
      (initializeSimulation 1 ⟨1, 1 / 10, 1, [], false⟩ (quietState [] 0),
        initializePage ⟨1, 1 / 10, 1, [], false⟩)).1 rfl rfl
  have hig : ignites 1 (fSliderOnInput 1
      (initializeSimulation 1 ⟨1, 1 / 10, 1, [], false⟩ (quietState [] 0),
        initializePage ⟨1, 1 / 10, 1, [], false⟩)).1 = true := by
    unfold ignites
    apply ignitionAttempt_certain
    · rw [hg]
      rfl
    · rw [hf]
      rfl
  rw [if_pos hig]
  exact (ignitionAttempt_of_true 1 _ hig).choose_spec.2.1

theorem reached_litDemo : Reached 1 litDemo :=
  Reached.steps (Reached.fInput 1 _ (Reached.init _ _))

/-- Witness for C17: on the grid of one cell, after initialisation with growth
probability 1, the ignition slider set to 1 and one elementary step, a fire is
active and the frontier is the lit cell. -/
theorem frontier_matches_burning_cells_witness :
    litDemo.isFireActive = true ∧
    (litDemo.isFireActive = true →
      litDemo.fireQueue ≠ [] ∧ litDemo.fireQueue.Nodup ∧
      (∀ c ∈ litDemo.fireQueue, InBounds 1 c) ∧
      ∀ c : Cell, cellAt litDemo.grid c.x c.y = some STATES.BURNING ↔ c ∈ litDemo.fireQueue) :=
  ⟨litDemo_isFireActive, (frontier_matches_burning_cells 1 litDemo reached_litDemo).2⟩

/-! ## A reached state with a recorded fire -/

/-- An expansion on a grid without Trees ends the fire and records its size. -/
theorem fireExpansion_without_trees (n : Nat) (s : State)
    (hno : ∀ x y, cellAt s.grid x y ≠ some STATES.TREE) (hsize : s.currentFireSize ≠ 0) :
    (fireExpansion n s).fireStats = mapSet s.fireStats s.currentFireSize
        ((mapGet s.fireStats s.currentFireSize).getD 0 + 1) ∧
      (fireExpansion n s).totalFires = s.totalFires + 1 ∧
      (fireExpansion n s).isFireActive = false := by
  refine fireExpansion_ind n s
    (fun t => (∀ x y, cellAt t.grid x y ≠ some STATES.TREE) ∧ t.nextFireQueue = [] ∧
      t.currentFireSize = s.currentFireSize ∧ t.fireStats = s.fireStats ∧
      t.totalFires = s.totalFires)
    (fun t => t.fireStats = mapSet s.fireStats s.currentFireSize
        ((mapGet s.fireStats s.currentFireSize).getD 0 + 1) ∧
      t.totalFires = s.totalFires + 1 ∧ t.isFireActive = false)
    ⟨hno, rfl, rfl, rfl, rfl⟩ ?_ ?_ ?_ ?_
  · intro t c q _ _ _ hq ht
    exact absurd hq (ht.1 q.x q.y)
  · intro t c _ _ ht
    refine ⟨?_, ht.2.1, ht.2.2.1, ht.2.2.2.1, ht.2.2.2.2⟩
    intro x y
    exact noNewTree_setCell _ _ _ _ (by decide) x y (ht.1 x y)
  · intro t ht hne
    exact absurd ht.2.1 hne
  · intro t ht _
    have hpos : ({ t with fireQueue := t.nextFireQueue } : State).currentFireSize ≠ 0 := by
      show t.currentFireSize ≠ 0
      rw [ht.2.2.1]
      exact hsize
    rw [endFire_eq_of_pos _ hpos]
    refine ⟨?_, ?_, rfl⟩
    · show mapSet t.fireStats t.currentFireSize
        ((mapGet t.fireStats t.currentFireSize).getD 0 + 1) = _
      rw [ht.2.2.1, ht.2.2.2.1]
    · show t.totalFires + 1 = _
      rw [ht.2.2.2.2]

theorem litDemo_fields :
    litDemo.currentFireSize = 1 ∧ litDemo.fireStats = [] ∧ litDemo.totalFires = 0 ∧
      ∀ x y, cellAt litDemo.grid x y ≠ some STATES.TREE := by
  have hk : (fSliderOnInput 1
      (initializeSimulation 1 ⟨1, 1 / 10, 1, [], false⟩ (quietState [] 0),
        initializePage ⟨1, 1 / 10, 1, [], false⟩)).1.stepsPerFrame = 1 := rfl
  obtain ⟨hg, hf⟩ := growthAttempt_certain (fSliderOnInput 1
      (initializeSimulation 1 ⟨1, 1 / 10, 1, [], false⟩ (quietState [] 0),
        initializePage ⟨1, 1 / 10, 1, [], false⟩)).1 rfl rfl
  have hfields := growthAttempt_fields 1 (fSliderOnInput 1
      (initializeSimulation 1 ⟨1, 1 / 10, 1, [], false⟩ (quietState [] 0),
        initializePage ⟨1, 1 / 10, 1, [], false⟩)).1
  have hig : ignites 1 (fSliderOnInput 1
      (initializeSimulation 1 ⟨1, 1 / 10, 1, [], false⟩ (quietState [] 0),
        initializePage ⟨1, 1 / 10, 1, [], false⟩)).1 = true := by
    unfold ignites
    apply ignitionAttempt_certain
    · rw [hg]
      rfl
    · rw [hf]
      rfl
  have hlit : litDemo = (ignitionAttempt 1 (growthAttempt 1 (fSliderOnInput 1
      (initializeSimulation 1 ⟨1, 1 / 10, 1, [], false⟩ (quietState [] 0),
        initializePage ⟨1, 1 / 10, 1, [], false⟩)).1)).1 := by
    unfold litDemo runSimulationSteps
    rw [hk, runSimulationStepsLoop_succ, if_pos hig]
  obtain ⟨c, hc, _, hsize, _, _, hgrid, _, hstats, htotal⟩ := ignitionAttempt_of_true 1 _ hig
  rw [hlit]
  refine ⟨hsize, ?_, ?_, ?_⟩
  · rw [hstats, hfields.2.2.2.2.1]
    rfl
  · rw [htotal, hfields.2.2.2.2.2]
    rfl
  · intro x y
    rw [hgrid, hg]
    rw [hg] at hc
    have hgrid1 : setCell (fSliderOnInput 1
        (initializeSimulation 1 ⟨1, 1 / 10, 1, [], false⟩ (quietState [] 0),
          initializePage ⟨1, 1 / 10, 1, [], false⟩)).1.grid 0 0 STATES.TREE
        = [[STATES.TREE]] := rfl
    rw [hgrid1] at hc ⊢
    have hwf : WellFormed 1 [[STATES.TREE]] := ⟨rfl, by decide⟩
    have hcb := inBounds_of_cellAt hwf hc
    have hcx : c.x = 0 := by
      have h1 : 0 ≤ c.x := hcb.1
      have h2 : c.x < ((1 : Nat) : Int) := hcb.2.1
      omega
    have hcy : c.y = 0 := by
      have h1 : 0 ≤ c.y := hcb.2.2.1
      have h2 : c.y < ((1 : Nat) : Int) := hcb.2.2.2
      omega
    rw [hcx, hcy]
    intro hxy
    have hwf2 : WellFormed 1 (setCell [[STATES.TREE]] 0 0 STATES.BURNING) :=
      wellFormed_setCell 0 0 _ hwf
    have hb := inBounds_of_cellAt hwf2 hxy
    have hx : x = 0 := by
      have h1 : 0 ≤ x := hb.1
      have h2 : x < ((1 : Nat) : Int) := hb.2.1
      omega
    have hy : y = 0 := by
      have h1 : 0 ≤ y := hb.2.2.1
      have h2 : y < ((1 : Nat) : Int) := hb.2.2.2
      omega
    rw [hx, hy] at hxy
    exact absurd hxy (by decide)

theorem burntDemo_fields : burntDemo.fireStats = [(1, 1)] ∧ burntDemo.totalFires = 1 := by
  obtain ⟨hsize, hstats, htotal, hno⟩ := litDemo_fields
  have h := fireExpansion_without_trees 1 litDemo hno (by rw [hsize]; decide)
  unfold burntDemo
  rw [runFireStepAnimated_eq, if_pos litDemo_isFireActive, h.1, h.2.1, hsize, hstats, htotal]
  exact ⟨rfl, rfl⟩

theorem reached_burntDemo : Reached 1 burntDemo := Reached.animated reached_litDemo

/-- Witness for C18: the reached state `burntDemo`, in which one fire of size
1 has been recorded: the table is `{1: 1}` and `totalFires = 1`. -/
theorem totalFires_eq_sum_of_counts_witness :
    burntDemo.fireStats = [(1, 1)] ∧ burntDemo.totalFires = 1 ∧
    ((mapKeys burntDemo.fireStats).Nodup ∧
      burntDemo.totalFires = totalCount burntDemo.fireStats ∧
      (∀ k ∈ mapKeys burntDemo.fireStats, 0 < k) ∧
      ∀ k v, mapGet burntDemo.fireStats k = some v → 0 < v) :=
  ⟨burntDemo_fields.1, burntDemo_fields.2,
    totalFires_eq_sum_of_counts 1 burntDemo reached_burntDemo⟩

/-! ## The binning in double precision -/

theorem roundHalfEven_sub_le (q : ℚ) : |(roundHalfEven q : ℚ) - q| ≤ 1 / 2 := by
  have h1 := Int.floor_le q
  have h2 := Int.lt_floor_add_one q
  unfold roundHalfEven
  simp only
  rw [abs_le]
  split
  · constructor <;> linarith
  · split
    · push_cast
      constructor <;> linarith
    · split
      · constructor <;> linarith
      · push_cast
        constructor <;> linarith

theorem roundHalfEven_eq (q : ℚ) (z : Int) (h1 : (z : ℚ) - 1 / 2 < q) (h2 : q < (z : ℚ) + 1 / 2) :
    roundHalfEven q = z := by
  have h := abs_le.mp (roundHalfEven_sub_le q)
  have hlt : ((roundHalfEven q : Int) : ℚ) < ((z + 1 : Int) : ℚ) := by
    push_cast
    linarith [h.2]
  have hgt : ((z - 1 : Int) : ℚ) < ((roundHalfEven q : Int) : ℚ) := by
    push_cast
    linarith [h.1]
  have hlt' := Int.cast_lt.mp hlt
  have hgt' := Int.cast_lt.mp hgt
  omega

/-- The relative error of a rounding to double precision is at most `2 ^ -53`. -/
theorem roundToDouble_sub_le (q : ℚ) (hq : 0 < q) : |roundToDouble q - q| ≤ q / 2 ^ 53 := by
  unfold roundToDouble
  simp only
  rw [abs_of_pos hq]
  have hu : (0 : ℚ) < (2 : ℚ) ^ (Int.log 2 q - 52) := zpow_pos (by norm_num) _
  have hlog : (2 : ℚ) ^ Int.log 2 q ≤ q := Int.zpow_log_le_self (by norm_num) hq
  have hsplit : (2 : ℚ) ^ (Int.log 2 q - 52) = (2 : ℚ) ^ Int.log 2 q / 2 ^ 52 := by
    rw [zpow_sub₀ (by norm_num : (2 : ℚ) ≠ 0)]
    norm_num
  have hr := roundHalfEven_sub_le (q / (2 : ℚ) ^ (Int.log 2 q - 52))
  have heq : (roundHalfEven (q / (2 : ℚ) ^ (Int.log 2 q - 52)) : ℚ) * (2 : ℚ) ^ (Int.log 2 q - 52) - q
      = ((roundHalfEven (q / (2 : ℚ) ^ (Int.log 2 q - 52)) : ℚ)
          - q / (2 : ℚ) ^ (Int.log 2 q - 52)) * (2 : ℚ) ^ (Int.log 2 q - 52) := by
    field_simp
  rw [heq, abs_mul, abs_of_pos hu]
  calc |(roundHalfEven (q / (2 : ℚ) ^ (Int.log 2 q - 52)) : ℚ)
          - q / (2 : ℚ) ^ (Int.log 2 q - 52)| * (2 : ℚ) ^ (Int.log 2 q - 52)
      ≤ 1 / 2 * (2 : ℚ) ^ (Int.log 2 q - 52) := mul_le_mul_of_nonneg_right hr (le_of_lt hu)
    _ = (2 : ℚ) ^ Int.log 2 q / 2 ^ 53 := by
        rw [hsplit]
        ring
    _ ≤ q / 2 ^ 53 := div_le_div_of_nonneg_right hlog (by norm_num)

theorem binLoopDouble_eq (t : FireStats) :
    ∀ (E : List Int) (S : List Nat) (acc : List Point),
      binLoopDouble t E S (acc.map roundPoint) = (binLoop t E S acc).map roundPoint
  | [], S, acc => by
    rw [binLoop_nil, binLoopDouble]
    intro _ _ _ h
    cases h
  | [a], S, acc => by
    rw [binLoop_single, binLoopDouble]
    intro _ _ _ h
    cases h
  | a :: b :: rest, S, acc => by
    rw [binLoop, binLoopDouble]
    by_cases hab : a ≥ b
    · rw [if_pos hab, if_pos hab]
      exact binLoopDouble_eq t (b :: rest) S acc
    · rw [if_neg hab, if_neg hab]
      simp only
      split
      · rw [← binLoopDouble_eq t (b :: rest) _ (acc ++ [_]), List.map_append,
          List.map_singleton]
        rfl
      · exact binLoopDouble_eq t (b :: rest) _ acc

/-- The double-precision binning returns the points of the exact binning, each
coordinate rounded. -/
theorem performLogBinningDouble_eq (fuel : Nat) (t : FireStats) (binBase : ℚ) :
    performLogBinningDouble fuel t binBase
      = (performLogBinning fuel t binBase).map (List.map roundPoint) := by
  unfold performLogBinningDouble performLogBinning
  by_cases h0 : t.length = 0
  · rw [if_pos h0, if_pos h0]
    rfl
  · rw [if_neg h0, if_neg h0]
    simp only
    cases hm : ((mapKeys t).insertionSort (fun a b => a ≤ b)).getLast? with
    | none => rfl
    | some maxFire =>
      simp only
      cases hr : binEdgesLoop binBase maxFire fuel 1 [1] with
      | none => rfl
      | some r =>
        simp only [Option.map_some']
        have h2 := binLoopDouble_eq t (r.2 ++ [mathRound (r.1 * binBase)])
          ((mapKeys t).insertionSort (fun a b => a ≤ b)) []
        rw [List.map_nil] at h2
        rw [h2]

/-- The error of the sum of density times width over rounded densities. -/
theorem sum_roundToDouble_le :
    ∀ (pts : List Point) (bins : List (Int × Int)),
      List.Forall₂ (fun p b => b.1 < b.2 ∧ 0 < p.y) pts bins →
      |(List.zipWith (fun p b => roundToDouble p.y * ((b.2 : ℚ) - (b.1 : ℚ))) pts bins).sum
          - (List.zipWith (fun p b => p.y * ((b.2 : ℚ) - (b.1 : ℚ))) pts bins).sum|
        ≤ (List.zipWith (fun p b => p.y * ((b.2 : ℚ) - (b.1 : ℚ))) pts bins).sum / 2 ^ 53
  | _, _, List.Forall₂.nil => by simp
  | _, _, @List.Forall₂.cons _ _ _ p b pts bins hpb hrest => by
    have ih := sum_roundToDouble_le pts bins hrest
    have hw : (0 : ℚ) < (b.2 : ℚ) - (b.1 : ℚ) := by
      have : (b.1 : ℚ) < (b.2 : ℚ) := by exact_mod_cast hpb.1
      linarith
    have hy := roundToDouble_sub_le p.y hpb.2
    have hterm : |roundToDouble p.y * ((b.2 : ℚ) - (b.1 : ℚ)) - p.y * ((b.2 : ℚ) - (b.1 : ℚ))|
        ≤ p.y * ((b.2 : ℚ) - (b.1 : ℚ)) / 2 ^ 53 := by
      rw [← sub_mul, abs_mul, abs_of_pos hw]
      calc |roundToDouble p.y - p.y| * ((b.2 : ℚ) - (b.1 : ℚ))
          ≤ p.y / 2 ^ 53 * ((b.2 : ℚ) - (b.1 : ℚ)) := mul_le_mul_of_nonneg_right hy (le_of_lt hw)
        _ = p.y * ((b.2 : ℚ) - (b.1 : ℚ)) / 2 ^ 53 := by ring
    simp only [List.zipWith_cons_cons, List.sum_cons]
    have habs := abs_add
      (roundToDouble p.y * ((b.2 : ℚ) - (b.1 : ℚ)) - p.y * ((b.2 : ℚ) - (b.1 : ℚ)))
      ((List.zipWith (fun p b => roundToDouble p.y * ((b.2 : ℚ) - (b.1 : ℚ))) pts bins).sum
        - (List.zipWith (fun p b => p.y * ((b.2 : ℚ) - (b.1 : ℚ))) pts bins).sum)
    have hre : roundToDouble p.y * ((b.2 : ℚ) - (b.1 : ℚ))
          + (List.zipWith (fun p b => roundToDouble p.y * ((b.2 : ℚ) - (b.1 : ℚ))) pts bins).sum
          - (p.y * ((b.2 : ℚ) - (b.1 : ℚ))
            + (List.zipWith (fun p b => p.y * ((b.2 : ℚ) - (b.1 : ℚ))) pts bins).sum)
        = (roundToDouble p.y * ((b.2 : ℚ) - (b.1 : ℚ)) - p.y * ((b.2 : ℚ) - (b.1 : ℚ)))
          + ((List.zipWith (fun p b => roundToDouble p.y * ((b.2 : ℚ) - (b.1 : ℚ))) pts bins).sum
            - (List.zipWith (fun p b => p.y * ((b.2 : ℚ) - (b.1 : ℚ))) pts bins).sum) := by
      ring
    rw [hre, add_div]
    linarith

/-! ## Conservation of events in double precision -/

theorem mathRound_pow6 : mathRound (729 / 64) = 11 := mathRound_eq _ 11 (by norm_num) (by norm_num)

theorem mathRound_pow7 : mathRound (2187 / 128) = 17 :=
  mathRound_eq _ 17 (by norm_num) (by norm_num)

theorem mathRound_pow8 : mathRound (6561 / 256) = 26 :=
  mathRound_eq _ 26 (by norm_num) (by norm_num)

theorem mathRound_pow9 : mathRound (19683 / 512) = 38 :=
  mathRound_eq _ 38 (by norm_num) (by norm_num)

theorem mathRound_pow10 : mathRound (59049 / 1024) = 58 :=
  mathRound_eq _ 58 (by norm_num) (by norm_num)

theorem mathRound_pow11 : mathRound (177147 / 2048) = 86 :=
  mathRound_eq _ 86 (by norm_num) (by norm_num)

theorem mathRound_pow12 : mathRound (531441 / 4096) = 130 :=
  mathRound_eq _ 130 (by norm_num) (by norm_num)

/-- The value of a rounding to double precision, from the binade of the
argument and the integer nearest to its significand. -/
theorem roundToDouble_eq (q : ℚ) (e m : Int) (hq : 0 < q) (h1 : (2 : ℚ) ^ e ≤ q)
    (h2 : q < (2 : ℚ) ^ (e + 1)) (h3 : (m : ℚ) - 1 / 2 < q / (2 : ℚ) ^ (e - 52))
    (h4 : q / (2 : ℚ) ^ (e - 52) < (m : ℚ) + 1 / 2) :
    roundToDouble q = (m : ℚ) * (2 : ℚ) ^ (e - 52) := by
  have hlog : Int.log 2 q = e := by
    have ha : e ≤ Int.log 2 q := (Int.zpow_le_iff_le_log (by norm_num) hq).mp h1
    have hb : Int.log 2 q < e + 1 := (Int.lt_zpow_iff_log_lt (by norm_num) hq).mp h2
    omega
  unfold roundToDouble
  simp only
  rw [abs_of_pos hq, hlog, roundHalfEven_eq _ m h3 h4]

theorem roundToDouble_demo_density :
    roundToDouble (29 / 28) = 4664442471205157 / 4503599627370496 := by
  rw [roundToDouble_eq (29 / 28) 0 4664442471205157 (by norm_num) (by norm_num) (by norm_num)
    (by norm_num) (by norm_num)]
  norm_num

theorem roundToDouble_demo_size : roundToDouble 58 = 58 := by
  rw [roundToDouble_eq 58 5 8162774324609024 (by norm_num) (by norm_num) (by norm_num)
    (by norm_num) (by norm_num)]
  norm_num

theorem roundToDouble_demo_product :
    roundToDouble (4664442471205157 / 4503599627370496 * 28)
      = 8162774324609025 / 281474976710656 := by
  rw [roundToDouble_eq _ 4 8162774324609025 (by norm_num) (by norm_num) (by norm_num)
    (by norm_num) (by norm_num)]
  norm_num

theorem binLoop_one_before (t : FireStats) (a b : Int) (rest : List Int) (s : Nat)
    (acc : List Point) (hab : a < b) (hb : b ≤ (s : Int)) :
    binLoop t (a :: b :: rest) [s] acc = binLoop t (b :: rest) [s] acc := by
  rw [binLoop_step t a b rest [s] acc hab (List.sorted_singleton s)]
  have h1 : inBin a b [s] = [] := by
    apply inBin_eq_nil
    intro s' hs' hc
    rw [List.mem_singleton.mp hs'] at hc
    omega
  have h2 : [s].dropWhile (fun (size : Nat) => decide ((size : Int) < a)) = [s] := by
    rw [List.dropWhile_cons_of_neg]
    simp only [decide_eq_true_eq]
    omega
  rw [h1, countSum_nil, if_neg (lt_irrefl 0), h2]

theorem binLoop_one_in (t : FireStats) (a b : Int) (rest : List Int) (s c : Nat)
    (acc : List Point) (hab : a < b) (ha : a ≤ (s : Int)) (hs : (s : Int) < b)
    (hc : mapGet t s = some c) (hpos : 0 < c) :
    binLoop t (a :: b :: rest) [s] acc =
      binLoop t (b :: rest) [s]
        (acc ++ [{ x := ((s * c : Nat) : ℚ) / (c : ℚ), y := (c : ℚ) / ((b - a : Int) : ℚ) }]) := by
  rw [binLoop_step t a b rest [s] acc hab (List.sorted_singleton s)]
  have h1 : inBin a b [s] = [s] := by
    apply inBin_eq_self
    intro s' hs'
    rw [List.mem_singleton.mp hs']
    exact ⟨ha, hs⟩
  have h2 : [s].dropWhile (fun (size : Nat) => decide ((size : Int) < a)) = [s] := by
    rw [List.dropWhile_cons_of_neg]
    simp only [decide_eq_true_eq]
    omega
  have h3 : countSum t [s] = c := by
    rw [countSum_cons, hc, countSum_nil]
    rfl
  have h4 : weightSum t [s] = s * c := by
    rw [weightSum_cons, hc]
    show s * c + 0 = s * c
    omega
  rw [h1, h2, h3, h4, if_pos hpos]

theorem binLoop_one_after (t : FireStats) (a b : Int) (rest : List Int) (s : Nat)
    (acc : List Point) (hab : a < b) (hs : (s : Int) < a) :
    binLoop t (a :: b :: rest) [s] acc = binLoop t (b :: rest) [] acc := by
  rw [binLoop_step t a b rest [s] acc hab (List.sorted_singleton s)]
  have h1 : inBin a b [s] = [] := by
    apply inBin_eq_nil
    intro s' hs' hc
    rw [List.mem_singleton.mp hs'] at hc
    omega
  have h2 : [s].dropWhile (fun (size : Nat) => decide ((size : Int) < a)) = [] := by
    rw [List.dropWhile_cons_of_pos]
    · rfl
    · simp only [decide_eq_true_eq]
      exact hs
  rw [h1, countSum_nil, if_neg (lt_irrefl 0), h2]

theorem binEdgesLoop_demo :
    binEdgesLoop (3 / 2) 58 12 1 [1]
      = some (177147 / 2048, [1, 2, 2, 3, 5, 8, 11, 17, 26, 38, 58, 86]) := by
  norm_num [binEdgesLoop, mathRound_pow1, mathRound_pow2, mathRound_pow3, mathRound_pow4,
    mathRound_pow5, mathRound_pow6, mathRound_pow7, mathRound_pow8, mathRound_pow9,
    mathRound_pow10, mathRound_pow11]

theorem performLogBinning_demo :
    binEdgesOf 12 [(58, 29)] (3 / 2) = some [1, 2, 2, 3, 5, 8, 11, 17, 26, 38, 58, 86, 130] ∧
    performLogBinning 12 [(58, 29)] (3 / 2) = some [⟨58, 29 / 28⟩] := by
  have hs : List.insertionSort (fun a b => a ≤ b) (mapKeys [(58, 29)]) = [58] := by decide
  have hm : ((mapKeys [(58, 29)]).insertionSort (fun a b => a ≤ b)).getLast? = some 58 := by
    rw [hs]
    rfl
  have g1 : mapGet [(58, 29)] 58 = some 29 := by decide
  have h := performLogBinning_eq 12 [(58, 29)] (3 / 2) (by decide) hm binEdgesLoop_demo
  have hlast : mathRound ((177147 / 2048 : ℚ) * (3 / 2)) = 130 := by
    have : (177147 / 2048 : ℚ) * (3 / 2) = 531441 / 4096 := by norm_num
    rw [this]
    exact mathRound_pow12
  simp only [hlast, hs, List.cons_append, List.nil_append] at h
  refine ⟨h.1, ?_⟩
  rw [h.2, binLoop_one_before _ 1 2 _ 58 _ (by decide) (by decide),
    binLoop_skip _ 2 2 _ _ _ (by decide),
    binLoop_one_before _ 2 3 _ 58 _ (by decide) (by decide),
    binLoop_one_before _ 3 5 _ 58 _ (by decide) (by decide),
    binLoop_one_before _ 5 8 _ 58 _ (by decide) (by decide),
    binLoop_one_before _ 8 11 _ 58 _ (by decide) (by decide),
    binLoop_one_before _ 11 17 _ 58 _ (by decide) (by decide),
    binLoop_one_before _ 17 26 _ 58 _ (by decide) (by decide),
    binLoop_one_before _ 26 38 _ 58 _ (by decide) (by decide),
    binLoop_one_before _ 38 58 _ 58 _ (by decide) (by decide),
    binLoop_one_in _ 58 86 _ 58 29 _ (by decide) (by decide) (by decide) g1 (by decide),
    binLoop_one_after _ 86 130 _ 58 _ (by decide) (by decide), binLoop_single]
  norm_num

/-- Counterexample to C8 as stated: for the table `{58: 29}` the only point
comes from the bin `[58, 86)` of width 28, and its density is the double
nearest to `29 / 28`, which is not `29 / 28`. Density times width is then not
the total count 29, neither as an exact product nor as the product the
double-precision multiplication returns (`29.000000000000004`). -/
theorem performLogBinningDouble_sum_differs :
    (([(58, 29)] : FireStats).map Prod.snd).sum = 29 ∧
    (∀ fuel, 12 ≤ fuel →
      binEdgesOf fuel [(58, 29)] (3 / 2)
        = some [1, 2, 2, 3, 5, 8, 11, 17, 26, 38, 58, 86, 130] ∧
      performLogBinningDouble fuel [(58, 29)] (3 / 2)
        = some [⟨58, 4664442471205157 / 4503599627370496⟩]) ∧
    (4664442471205157 / 4503599627370496 : ℚ) = roundToDouble ((29 : ℚ) / (86 - 58)) ∧
    (4664442471205157 / 4503599627370496 : ℚ) * (86 - 58) ≠ 29 ∧
    roundToDouble ((4664442471205157 / 4503599627370496 : ℚ) * (86 - 58)) ≠ 29 := by
  refine ⟨by decide, ?_, ?_, by norm_num, ?_⟩
  · intro fuel hf
    refine ⟨binEdgesOf_mono _ _ 12 fuel _ performLogBinning_demo.1 hf, ?_⟩
    rw [performLogBinningDouble_eq,
      performLogBinning_mono _ _ 12 fuel _ performLogBinning_demo.2 hf]
    simp only [Option.map_some', List.map_cons, List.map_nil, roundPoint,
      roundToDouble_demo_size, roundToDouble_demo_density]
  · have h : ((29 : ℚ) / (86 - 58)) = 29 / 28 := by norm_num
    rw [h, roundToDouble_demo_density]
  · have h : (4664442471205157 / 4503599627370496 : ℚ) * (86 - 58)
        = 4664442471205157 / 4503599627370496 * 28 := by norm_num
    rw [h, roundToDouble_demo_product]
    norm_num

/-- Claim C8, amended. Log-binning with `binBase = 1.5` loses and double-counts
no event, and the emitted densities conserve the total up to rounding. For a
non-empty table without repeated keys whose sizes are positive, the edge loop
returns (for every fuel from `fuel0` on) the edges `E`; every recorded size
lies in exactly one non-degenerate bin `[b.1, b.2)` of consecutive edges; the
points emitted are the points `pts` of the exact quotients with each
coordinate rounded to double precision, each from a non-degenerate bin and of
positive density; with the exact quotients the sum of `y * (binMax - binMin)`
is the total of all counts of the table, and with the emitted densities it
differs from that total by at most the total times `2 ^ -53`. -/
theorem performLogBinningDouble_conserves_events (t : FireStats) (hne : t ≠ [])
    (hnd : (mapKeys t).Nodup) (hpos : ∀ k ∈ mapKeys t, 1 ≤ k) :
    ∃ (E : List Int) (pts : List Point) (bins : List (Int × Int)) (fuel0 : Nat),
      (∀ fuel, fuel0 ≤ fuel → binEdgesOf fuel t (3 / 2) = some E ∧
        performLogBinning fuel t (3 / 2) = some pts ∧
        performLogBinningDouble fuel t (3 / 2) = some (pts.map roundPoint)) ∧
      (∀ k ∈ mapKeys t, ∃! b, b ∈ E.zip E.tail ∧ b.1 < b.2 ∧
        b.1 ≤ (k : Int) ∧ (k : Int) < b.2) ∧
      List.Forall₂ (fun p b => b ∈ E.zip E.tail ∧ b.1 < b.2 ∧ 0 < p.y) pts bins ∧
      (List.zipWith (fun p b => p.y * ((b.2 : ℚ) - (b.1 : ℚ))) pts bins).sum
        = (((t.map Prod.snd).sum : Nat) : ℚ) ∧
      |(List.zipWith (fun p b => p.y * ((b.2 : ℚ) - (b.1 : ℚ)))
          (pts.map roundPoint) bins).sum - (((t.map Prod.snd).sum : Nat) : ℚ)|
        ≤ (((t.map Prod.snd).sum : Nat) : ℚ) / 2 ^ 53 := by
  obtain ⟨maxFire, hm⟩ := sortedSizes_getLast t hne
  obtain ⟨r, hr, hsorted, hhead, hlast, hgt⟩ := edges_spec maxFire
  obtain ⟨new, bins, h1, h2, _, _, h5⟩ := binLoop_spec t (r.2 ++ [mathRound (r.1 * (3 / 2))])
    ((mapKeys t).insertionSort (fun a b => a ≤ b)) [] hsorted (sortedSizes_sorted t)
  have hrange : ∀ k ∈ mapKeys t, (1 : Int) ≤ (k : Int) ∧
      (k : Int) < mathRound (r.1 * (3 / 2)) := by
    intro k hk
    have hk' : k ∈ (mapKeys t).insertionSort (fun a b => a ≤ b) :=
      (sortedSizes_perm t).mem_iff.mpr hk
    have hle : k ≤ maxFire := sorted_le_getLast (sortedSizes_sorted t) hm k hk'
    have := hpos k hk
    omega
  have hsum : (List.zipWith (fun p b => p.y * ((b.2 : ℚ) - (b.1 : ℚ))) new bins).sum
      = (((t.map Prod.snd).sum : Nat) : ℚ) := by
    rw [h5 1 _ hhead hlast, inBin_eq_self, countSum_perm t (sortedSizes_perm t),
      countSum_keys t hnd]
    intro s hs
    exact hrange s ((sortedSizes_perm t).mem_iff.mp hs)
  refine ⟨r.2 ++ [mathRound (r.1 * (3 / 2))], new, bins, 2 * maxFire + 1, ?_, ?_, ?_, hsum, ?_⟩
  · intro fuel hf
    have := performLogBinning_eq fuel t (3 / 2) hne hm (hr fuel hf)
    rw [performLogBinningDouble_eq, this.1, this.2, h1, List.nil_append]
    exact ⟨rfl, rfl, rfl⟩
  · intro k hk
    exact existsUnique_bin _ hsorted 1 _ k hhead hlast (hrange k hk).1 (hrange k hk).2
  · exact List.Forall₂.imp (fun _ _ h => ⟨h.1, h.2.1, h.2.2.2.2⟩) h2
  · have hfor : List.Forall₂ (fun (p : Point) (b : Int × Int) => b.1 < b.2 ∧ 0 < p.y) new bins :=
      List.Forall₂.imp (fun _ _ h => ⟨h.2.1, h.2.2.2.2⟩) h2
    have hbound := sum_roundToDouble_le new bins hfor
    rw [hsum] at hbound
    rw [List.zipWith_map_left]
    exact hbound

/-- Witness for C8: the table `{1: 10, 2: 5, 4: 2}`. -/
theorem performLogBinningDouble_conserves_events_witness :
    ∃ (E : List Int) (pts : List Point) (bins : List (Int × Int)) (fuel0 : Nat),
      (∀ fuel, fuel0 ≤ fuel → binEdgesOf fuel [(1, 10), (2, 5), (4, 2)] (3 / 2) = some E ∧
        performLogBinning fuel [(1, 10), (2, 5), (4, 2)] (3 / 2) = some pts ∧
        performLogBinningDouble fuel [(1, 10), (2, 5), (4, 2)] (3 / 2)
          = some (pts.map roundPoint)) ∧
      (∀ k ∈ mapKeys [(1, 10), (2, 5), (4, 2)], ∃! b, b ∈ E.zip E.tail ∧ b.1 < b.2 ∧
        b.1 ≤ (k : Int) ∧ (k : Int) < b.2) ∧
      List.Forall₂ (fun p b => b ∈ E.zip E.tail ∧ b.1 < b.2 ∧ 0 < p.y) pts bins ∧
      (List.zipWith (fun p b => p.y * ((b.2 : ℚ) - (b.1 : ℚ))) pts bins).sum
        = (((([(1, 10), (2, 5), (4, 2)] : FireStats).map Prod.snd).sum : Nat) : ℚ) ∧
      |(List.zipWith (fun p b => p.y * ((b.2 : ℚ) - (b.1 : ℚ)))
          (pts.map roundPoint) bins).sum
          - (((([(1, 10), (2, 5), (4, 2)] : FireStats).map Prod.snd).sum : Nat) : ℚ)|
        ≤ (((([(1, 10), (2, 5), (4, 2)] : FireStats).map Prod.snd).sum : Nat) : ℚ) / 2 ^ 53 :=
  performLogBinningDouble_conserves_events [(1, 10), (2, 5), (4, 2)] (by decide) (by decide)
    (by decide)

end ForestFire
